import Mathlib

/-!
# LibPaxos proposer (`lib/proposer.c`): shallow embedding and verified properties

The proposer is a single-threaded state container.  Its C state (`struct proposer`,
`struct instance`, `struct timeout_iterator`) is embedded as Lean structures and each
C function as a pure function that takes the state and returns the new state next to
the C return value.

Modelling conventions

* The types `iid_t` and `ballot_t`, declared in a header that is not among the sources,
  are the natural numbers `Nat` (no wrap-around).
* A byte buffer `(char*, size_t)` is a `List Nat`; its size is the length of the list.
* The proposer id and the acceptor ids (C `int`) are natural numbers.
* `gettimeofday` is an explicit input `now`.
* The fields of `struct timeval` are integers; the variable `int us` of `timeval_diff`
  is a 32-bit `int` (`double_to_int`, `int_wrap`).
* A pointer to an instance stored in a table is the index of the instance in the
  table; a write through the pointer is `List.set` at that index.
* An out-parameter `prepare_req* out` is passed in and returned.
* A failed `assert` is the result `none`.
* `malloc` never fails and `free` has no observable effect.
-/

namespace LibPaxos

/-! ## Constants of `include/paxos_config.h` -/

/-- The constant `MAX_N_OF_PROPOSERS` of `paxos_config.h`. -/
def MAX_N_OF_PROPOSERS : Nat := 10

/-- The constant `N_OF_ACCEPTORS` of `paxos_config.h`. -/
def N_OF_ACCEPTORS : Nat := 3

/-- The constant `QUORUM` of `paxos_config.h`: `((int)(N_OF_ACCEPTORS/2))+1`. -/
def QUORUM : Nat := N_OF_ACCEPTORS / 2 + 1

/-! ## Types -/

/-- The C `struct timeval`. -/
structure timeval where
  tv_sec : Int
  tv_usec : Int
deriving DecidableEq, Repr

/-- Modelled from the spec: the message header `paxos_msg` is declared in a header that
is not among the sources.  A value is an opaque byte string plus length; `data_size`
is the length of `data`. -/
structure paxos_msg where
  data : List Nat
deriving DecidableEq, Repr

/-- The field `data_size` of a `paxos_msg`. -/
def paxos_msg.data_size (m : paxos_msg) : Nat := m.data.length

/-- Modelled from the spec: `quorum.h` is not among the sources.  A quorum is a set of
acceptor IDs plus a target count `Q`. -/
structure quorum where
  target : Nat
  acceptor_ids : Finset Nat
deriving DecidableEq

/-- Modelled from the spec: `quorum_init` of the missing `quorum.h`, `init(Q)`: the
empty set of acceptors with target count `Q`. -/
def quorum_init (q : Nat) : quorum := ⟨q, ∅⟩

/-- Modelled from the spec: `quorum_add` of the missing `quorum.h`,
`add(id) -> bool` (false if duplicate).  Returns the flag and the updated quorum. -/
def quorum_add (q : quorum) (id : Nat) : Bool × quorum :=
  if id ∈ q.acceptor_ids then (false, q)
  else (true, { q with acceptor_ids := insert id q.acceptor_ids })

/-- Modelled from the spec: `quorum_reached` of the missing `quorum.h`,
`reached() -> bool`: the set holds at least the target count of acceptors. -/
def quorum_reached (q : quorum) : Bool := decide (q.target ≤ q.acceptor_ids.card)

/-- The C `struct instance`. -/
structure Instance where
  iid : Nat
  ballot : Nat
  value_ballot : Nat
  value : Option paxos_msg
  closed : Bool
  quorum : quorum
  created_at : timeval
deriving DecidableEq

/-- The C `struct proposer`; the three `carray`s are lists, front first. -/
structure proposer where
  id : Nat
  values : List paxos_msg
  next_prepare_iid : Nat
  prepare_instances : List Instance
  accept_instances : List Instance
deriving DecidableEq

/-- The C `struct timeout_iterator`; the proposer it points to is passed next to it. -/
structure timeout_iterator where
  pi : Nat
  ai : Nat
  timeout : timeval
deriving DecidableEq, Repr

/-- Modelled from the spec: the message `prepare_req` (PrepareRequest{iid, ballot}) is
declared in a header that is not among the sources. -/
structure prepare_req where
  iid : Nat
  ballot : Nat
deriving DecidableEq, Repr

/-- Modelled from the spec: the message `prepare_ack` (PROMISE) with the inputs
`{iid, acceptor_id, ballot, value_ballot, value, value_size}`; `value_size` is the
length of `value`. -/
structure prepare_ack where
  iid : Nat
  acceptor_id : Nat
  ballot : Nat
  value_ballot : Nat
  value : List Nat
deriving DecidableEq, Repr

/-- The field `value_size` of a `prepare_ack`. -/
def prepare_ack.value_size (a : prepare_ack) : Nat := a.value.length

/-- Modelled from the spec: the message `accept_req` (AcceptRequest{iid, ballot, value});
`value_size` is the length of `value`. -/
structure accept_req where
  iid : Nat
  ballot : Nat
  value : List Nat
deriving DecidableEq, Repr

/-- Modelled from the spec: the message `accept_ack` (ACCEPTED) with the inputs
`{iid, acceptor_id, ballot, value_ballot}`. -/
structure accept_ack where
  iid : Nat
  acceptor_id : Nat
  ballot : Nat
  value_ballot : Nat
deriving DecidableEq, Repr

/-- The part of the global `paxos_config` that the proposer reads. -/
structure paxos_config_t where
  proposer_instance_timeout : Int
deriving DecidableEq, Repr

/-! ## The container `carray` -/

/-- Modelled from the spec: `carray_count` of the missing `carray.h`; the tables are
ordered containers. -/
def carray_count {α : Type} (c : List α) : Nat := c.length

/-- Modelled from the spec: `carray_at` of the missing `carray.h`, the element at
position `i` counted from the front. -/
def carray_at {α : Type} (tbl : List α) (i : Nat) : Option α := tbl[i]?

/-- Modelled from the spec: `carray_front` of the missing `carray.h`, the front element
or `NULL` when the container is empty. -/
def carray_front {α : Type} (c : List α) : Option α := c.head?

/-- Modelled from the spec: `carray_pop_front` of the missing `carray.h`: removes and
returns the front element, `NULL` when the container is empty. -/
def carray_pop_front {α : Type} (c : List α) : Option α × List α := (c.head?, c.tail)

/-- Modelled from the spec: `carray_push_back` of the missing `carray.h`. -/
def carray_push_back {α : Type} (c : List α) (x : α) : List α := c ++ [x]

/-- Modelled from the spec: `carray_push_front` of the missing `carray.h`. -/
def carray_push_front {α : Type} (c : List α) (x : α) : List α := x :: c

/-- Modelled from the spec: `carray_reject` of the missing `carray.h`: a new container
with the elements, in order, that do not match `arg`. -/
def carray_reject {α β : Type} (c : List α) (m : β → α → Bool) (arg : β) : List α :=
  c.filter (fun item => !(m arg item))

/-! ## Static helpers of `proposer.c` -/

/-- The C function `instance_new`. -/
def instance_new (iid : Nat) (ballot : Nat) (now : timeval) : Instance :=
  { iid := iid, ballot := ballot, value_ballot := 0, value := none, closed := false,
    created_at := now, quorum := quorum_init QUORUM }

/-- The least value of the C type `int` (32 bits, two's complement). -/
def INT_MIN : Int := -2147483648

/-- The greatest value of the C type `int`. -/
def INT_MAX : Int := 2147483647

/-- The conversion `int us = d` of a `double` to `int`, for a `double` with the integral
value `x`.  A value in the range of `int` is kept.  For a value outside the range the
C standard leaves the conversion undefined; the result taken here is the one of the
x86-64 conversion instruction, `INT_MIN`. -/
def double_to_int (x : Int) : Int :=
  if INT_MIN ≤ x ∧ x ≤ INT_MAX then x else INT_MIN

/-- The conversion of an integer to `int` that stores the result of `us += ...`: the
value modulo `2^32` in the range of `int`. -/
def int_wrap (x : Int) : Int := (x + 2147483648) % 4294967296 - 2147483648

/-- The C function `timeval_diff`, documented as `t2 - t1` in microseconds, with its
variable `int us`: `us = (t2->tv_sec - t1->tv_sec) * 1e6` is a `double` product stored
in an `int` (the product of a difference of at most 2147 seconds is exact in a
`double` and in the range of `int`; from 2148 seconds on it is outside the range),
and `us += (t2->tv_usec - t1->tv_usec)` is stored in the same `int`. -/
def timeval_diff (t1 t2 : timeval) : Int :=
  let us := double_to_int ((t2.tv_sec - t1.tv_sec) * 1000000)
  if us < 0 then 0 else int_wrap (us + (t2.tv_usec - t1.tv_usec))

/-- The C function `instance_has_timedout`. -/
def instance_has_timedout (cfg : paxos_config_t) (inst : Instance) (now : timeval) : Bool :=
  let diff := timeval_diff inst.created_at now
  decide (diff ≥ cfg.proposer_instance_timeout)

/-- The C function `instance_find`: the first instance of the table with the given
IID, together with its position (the pointer), or `none` for `NULL`. -/
def instance_find : List Instance → Nat → Option (Nat × Instance)
  | [], _ => none
  | inst :: c, iid =>
    if inst.iid = iid then some (0, inst)
    else (instance_find c iid).map (fun r => (r.1 + 1, r.2))

/-- The C function `instance_match`. -/
def instance_match (a b : Instance) : Bool := decide (a.iid = b.iid)

/-- The C function `instance_remove`. -/
def instance_remove (c : List Instance) (inst : Instance) : List Instance :=
  carray_reject c instance_match inst

/-- The C function `wrap_value`. -/
def wrap_value (value : List Nat) : paxos_msg := { data := value }

/-- The C function `proposer_next_ballot`. -/
def proposer_next_ballot (p : proposer) (b : Nat) : Nat :=
  if b > 0 then MAX_N_OF_PROPOSERS + b
  else MAX_N_OF_PROPOSERS + p.id

/-- The C function `prepare_preempt`: returns the updated instance and `*out`. -/
def prepare_preempt (p : proposer) (inst : Instance) (now : timeval) :
    Instance × prepare_req :=
  let inst1 := { inst with ballot := proposer_next_ballot p inst.ballot }
  let inst2 := { inst1 with quorum := quorum_init QUORUM }
  let out : prepare_req := ⟨inst2.iid, inst2.ballot⟩
  ({ inst2 with created_at := now }, out)

/-! ## The interface of `proposer.c` -/

/-- The C function `proposer_new`. -/
def proposer_new (id : Nat) : proposer :=
  { id := id, values := [], next_prepare_iid := 0, prepare_instances := [],
    accept_instances := [] }

/-- The C function `proposer_timeout_iterator`. -/
def proposer_timeout_iterator (now : timeval) : timeout_iterator :=
  { pi := 0, ai := 0, timeout := now }

/-- The C function `proposer_propose`. -/
def proposer_propose (p : proposer) (value : List Nat) : proposer :=
  let msg := wrap_value value
  { p with values := carray_push_back p.values msg }

/-- The C function `proposer_prepared_count`. -/
def proposer_prepared_count (p : proposer) : Nat := carray_count p.prepare_instances

/-- The C function `proposer_prepare`: returns `*out` and the new state. -/
def proposer_prepare (p : proposer) (now : timeval) : prepare_req × proposer :=
  let iid := p.next_prepare_iid + 1
  let p1 := { p with next_prepare_iid := iid }
  let inst := instance_new iid (proposer_next_ballot p1 0) now
  let p2 := { p1 with prepare_instances := carray_push_back p1.prepare_instances inst }
  (⟨inst.iid, inst.ballot⟩, p2)

/-- The C function `proposer_receive_prepare_ack`: returns the C return value, the new
state and `*out`. -/
def proposer_receive_prepare_ack (p : proposer) (ack : prepare_ack) (out : prepare_req)
    (now : timeval) : Int × proposer × prepare_req :=
  match instance_find p.prepare_instances ack.iid with
  | none => (0, p, out)
  | some (i, inst) =>
    if ack.ballot < inst.ballot then (0, p, out)
    else if ack.ballot = inst.ballot then
      match quorum_add inst.quorum ack.acceptor_id with
      | (false, _) => (0, p, out)
      | (true, q) =>
        let inst1 := { inst with quorum := q }
        if ack.value_size > 0 then
          match inst1.value with
          | none =>
            let inst2 := { inst1 with value_ballot := ack.value_ballot,
                                      value := some (wrap_value ack.value) }
            (0, { p with prepare_instances := p.prepare_instances.set i inst2 }, out)
          | some v =>
            if ack.value_ballot > inst1.value_ballot then
              let values := carray_push_back p.values v
              let inst2 := { inst1 with value_ballot := ack.value_ballot,
                                        value := some (wrap_value ack.value) }
              (0, { p with values := values,
                           prepare_instances := p.prepare_instances.set i inst2 }, out)
            else if ack.value_ballot = inst1.value_ballot then
              let inst2 := { inst1 with closed := true }
              (0, { p with prepare_instances := p.prepare_instances.set i inst2 }, out)
            else
              (0, { p with prepare_instances := p.prepare_instances.set i inst1 }, out)
        else
          (0, { p with prepare_instances := p.prepare_instances.set i inst1 }, out)
    else
      let r := prepare_preempt p inst now
      (1, { p with prepare_instances := p.prepare_instances.set i r.1 }, r.2)

/-- The `while` loop of `proposer_accept`: frees the closed instances at the front of
the prepare table; the second component is the instance the loop breaks at, `none`
when the function returns `NULL` (empty table, or front instance without quorum). -/
def proposer_accept_loop : List Instance → List Instance × Option Instance
  | [] => ([], none)
  | inst :: c =>
    if inst.closed then proposer_accept_loop c
    else if !(quorum_reached inst.quorum) then (inst :: c, none)
    else (inst :: c, some inst)

/-- The C function `proposer_accept`: returns the request (`none` for `NULL`) and the
new state. -/
def proposer_accept (p : proposer) : Option accept_req × proposer :=
  match proposer_accept_loop p.prepare_instances with
  | (c, none) => (none, { p with prepare_instances := c })
  | (c, some inst) =>
    let p1 := { p with prepare_instances := c }
    -- is there a value?
    let r : Option paxos_msg × List paxos_msg :=
      match inst.value with
      | none => carray_pop_front p1.values
      | some v => (some v, p1.values)
    match r with
    | (none, _) => (none, p1)
    | (some v, values) =>
      let inst1 := { inst with value := some v }
      -- we have both a prepared instance and a value
      let inst2 := { inst1 with quorum := quorum_init QUORUM }
      (some ⟨inst2.iid, inst2.ballot, v.data⟩,
        { p1 with values := values,
                  prepare_instances := (carray_pop_front p1.prepare_instances).2,
                  accept_instances := carray_push_back p1.accept_instances inst2 })

/-- The C function `proposer_receive_accept_ack`: `none` when the assertion fails,
otherwise the C return value, the new state and `*out`. -/
def proposer_receive_accept_ack (p : proposer) (ack : accept_ack) (out : prepare_req)
    (now : timeval) : Option (Int × proposer × prepare_req) :=
  match instance_find p.accept_instances ack.iid with
  | none => some (0, p, out)
  | some (i, inst) =>
    if ack.ballot = inst.ballot then
      if ack.value_ballot = inst.ballot then
        match quorum_add inst.quorum ack.acceptor_id with
        | (false, _) => some (0, p, out)
        | (true, q) =>
          let inst1 := { inst with quorum := q }
          let p1 := { p with accept_instances := p.accept_instances.set i inst1 }
          if quorum_reached inst1.quorum then
            some (0, { p1 with accept_instances := instance_remove p1.accept_instances inst1 },
              out)
          else some (0, p1, out)
      else none
    else
      let p1 := { p with accept_instances := instance_remove p.accept_instances inst }
      let p2 := { p1 with prepare_instances := carray_push_front p1.prepare_instances inst }
      let r := prepare_preempt p2 inst now
      some (1, { p2 with prepare_instances := p2.prepare_instances.set 0 r.1 }, r.2)

/-- The loop of the C function `next_timedout`, run over the part of the table that
starts at position `i`: returns the instance found with its position, and the
advanced index. -/
def next_timedout_loop (cfg : paxos_config_t) (t : timeval) :
    List Instance → Nat → Option (Nat × Instance) × Nat
  | [], i => (none, i)
  | inst :: rest, i =>
    if quorum_reached inst.quorum then next_timedout_loop cfg t rest (i + 1)
    else if instance_has_timedout cfg inst t then (some (i, inst), i + 1)
    else next_timedout_loop cfg t rest (i + 1)

/-- The C function `next_timedout`. -/
def next_timedout (cfg : paxos_config_t) (c : List Instance) (i : Nat) (t : timeval) :
    Option (Nat × Instance) × Nat :=
  next_timedout_loop cfg t (c.drop i) i

/-- The C function `timeout_iterator_next`: returns the C return value, the iterator,
the proposer state and `*req`. -/
def timeout_iterator_next (cfg : paxos_config_t) (iter : timeout_iterator) (p : proposer)
    (req : prepare_req) (now : timeval) :
    Int × timeout_iterator × proposer × prepare_req :=
  match next_timedout cfg p.prepare_instances iter.pi iter.timeout with
  | (some (i, inst), pi) =>
    let inst1 := { inst with created_at := now }
    (1, { iter with pi := pi },
      { p with prepare_instances := p.prepare_instances.set i inst1 },
      ⟨inst1.iid, inst1.ballot⟩)
  | (none, pi) =>
    let iter1 := { iter with pi := pi }
    match next_timedout cfg p.accept_instances iter1.ai iter1.timeout with
    | (some (i, inst), ai) =>
      let r := prepare_preempt p inst now
      let p1 := { p with accept_instances := p.accept_instances.set i r.1 }
      let p2 := { p1 with accept_instances := instance_remove p1.accept_instances r.1 }
      let p3 := { p2 with prepare_instances := carray_push_front p2.prepare_instances r.1 }
      (1, { iter1 with ai := ai }, p3, r.2)
    | (none, ai) => (0, { iter1 with ai := ai }, p, req)

/-! ## Runs of the proposer -/

/-- One call of the proposer interface by the owning event loop, with its inputs.  The
iterator passed to `timeout_iterator_next` is any cursor: the event loop may hold
several iterators and advance them at any time, which covers every iterator obtained
from `proposer_timeout_iterator`. -/
inductive Op where
  | propose (value : List Nat)
  | prepare (now : timeval)
  | receive_prepare_ack (ack : prepare_ack) (out : prepare_req) (now : timeval)
  | accept
  | receive_accept_ack (ack : accept_ack) (out : prepare_req) (now : timeval)
  | timeout_iterator_next (iter : timeout_iterator) (req : prepare_req) (now : timeval)
deriving DecidableEq, Repr

/-- A request handed back to the event loop for broadcast. -/
inductive Output where
  | prepare (r : prepare_req)
  | accept (r : accept_req)
deriving DecidableEq, Repr

/-- The effect of one call: the new state and the requests handed back (a
`prepare_req` is handed back when the call returns 1, an `accept_req` when
`proposer_accept` returns non-`NULL`); `none` when an assertion fails. -/
def step (cfg : paxos_config_t) (p : proposer) : Op → Option (proposer × List Output)
  | Op.propose value => some (proposer_propose p value, [])
  | Op.prepare now =>
    let r := proposer_prepare p now
    some (r.2, [Output.prepare r.1])
  | Op.receive_prepare_ack ack out now =>
    let r := proposer_receive_prepare_ack p ack out now
    some (r.2.1, if r.1 = 1 then [Output.prepare r.2.2] else [])
  | Op.accept =>
    match proposer_accept p with
    | (none, p1) => some (p1, [])
    | (some req, p1) => some (p1, [Output.accept req])
  | Op.receive_accept_ack ack out now =>
    match proposer_receive_accept_ack p ack out now with
    | none => none
    | some r => some (r.2.1, if r.1 = 1 then [Output.prepare r.2.2] else [])
  | Op.timeout_iterator_next iter req now =>
    let r := timeout_iterator_next cfg iter p req now
    some (r.2.2.1, if r.1 = 1 then [Output.prepare r.2.2.2] else [])

/-- A run: the calls are made in order until one fails an assertion.  Returns the
final state (`none` when the run was aborted by an assertion) and the requests
handed back up to there. -/
def run (cfg : paxos_config_t) : proposer → List Op → Option proposer × List Output
  | p, [] => (some p, [])
  | p, op :: ops =>
    match step cfg p op with
    | none => (none, [])
    | some (p1, outs) =>
      let r := run cfg p1 ops
      (r.1, outs ++ r.2)

/-- The states a proposer created by `proposer_new id` can be in. -/
def Reachable (cfg : paxos_config_t) (id : Nat) (p : proposer) : Prop :=
  ∃ ops : List Op, (run cfg (proposer_new id) ops).1 = some p

/-! ## Observations on states and runs -/

/-- The IIDs held by a table, front first. -/
def iids (c : List Instance) : List Nat := c.map Instance.iid

/-- The ballot carried by a request. -/
def Output.ballot : Output → Nat
  | Output.prepare r => r.ballot
  | Output.accept r => r.ballot

/-- The IIDs of the AcceptRequests among the requests handed back, in order. -/
def accept_iids : List Output → List Nat
  | [] => []
  | Output.prepare _ :: outs => accept_iids outs
  | Output.accept r :: outs => r.iid :: accept_iids outs

/-- The number of `proposer_prepare` calls in a sequence of calls. -/
def prepare_calls : List Op → Nat
  | [] => 0
  | Op.prepare _ :: ops => prepare_calls ops + 1
  | Op.propose _ :: ops => prepare_calls ops
  | Op.receive_prepare_ack _ _ _ :: ops => prepare_calls ops
  | Op.accept :: ops => prepare_calls ops
  | Op.receive_accept_ack _ _ _ :: ops => prepare_calls ops
  | Op.timeout_iterator_next _ _ _ :: ops => prepare_calls ops

/-- The ways one call changes the IIDs `P` of the prepare table, the IIDs `A` of the
accept table and `next_prepare_iid = n`, with the IIDs `acc` of the AcceptRequests it
hands back: a prefix of the prepare table is dropped (possibly empty); a new IID is
appended; the head behind a dropped prefix moves to the back of the accept table; an
IID of the accept table moves to the front of the prepare table; an IID is removed
from the accept table. -/
def IidStep (P A : List Nat) (n : Nat) (P1 A1 : List Nat) (n1 : Nat) (acc : List Nat) :
    Prop :=
  (∃ d, P = d ++ P1 ∧ A1 = A ∧ n1 = n ∧ acc = []) ∨
  (P1 = P ++ [n + 1] ∧ A1 = A ∧ n1 = n + 1 ∧ acc = []) ∨
  (∃ d i, P = d ++ i :: P1 ∧ A1 = A ++ [i] ∧ n1 = n ∧ acc = [i]) ∨
  (∃ i, i ∈ A ∧ P1 = i :: P ∧ A1 = A.filter (fun a => !decide (a = i)) ∧ n1 = n ∧ acc = []) ∨
  (∃ i, P1 = P ∧ A1 = A.filter (fun a => !decide (a = i)) ∧ n1 = n ∧ acc = [])

/-- The order of the AcceptRequests: every IID is one seen before, or is greater than
every IID seen before (`seen` holds the IIDs of the AcceptRequests handed back so far). -/
def AcceptOrder (seen : List Nat) : List Nat → Prop
  | [] => True
  | i :: rest => (i ∈ seen ∨ ∀ j ∈ seen, j < i) ∧ AcceptOrder (i :: seen) rest

/-- The invariant behind the order of the AcceptRequests, on the IIDs `H` accepted so
far, the IIDs `P` of the prepare table, the IIDs `A` of the accept table and
`next_prepare_iid = n`: the accept table holds accepted IIDs only; an IID of the prepare
table is an accepted one or is greater than all accepted ones; an IID never accepted
is greater than everything in front of it in the prepare table; nothing exceeds `n`. -/
def AcceptOrderInv (H P A : List Nat) (n : Nat) : Prop :=
  (∀ a ∈ A, a ∈ H) ∧ (∀ x ∈ P, x ∈ H ∨ ∀ a ∈ H, a < x) ∧
  P.Pairwise (fun x y => y ∈ H ∨ x < y) ∧ (∀ a ∈ H, a ≤ n) ∧ (∀ x ∈ P, x ≤ n)

/-! ## Draining a timeout iterator -/

/-- The test of `next_timedout` on one instance for an iterator created at `t`: the
quorum is not reached and the instance has timed out. -/
def timeout_due (cfg : paxos_config_t) (t : timeval) (inst : Instance) : Bool :=
  !(quorum_reached inst.quorum) && instance_has_timedout cfg inst t

/-- Modelled from the spec: the loop of the event loop (it is not among the sources)
that calls `timeout_iterator_next` on an iterator until it returns 0.  The k-th call
reads the k-th value of `clock`.  Returns the requests yielded, in order, the final
proposer state, and whether a call returned 0 before the clock readings ran out. -/
def timeout_iterator_drain (cfg : paxos_config_t) :
    List timeval → timeout_iterator → proposer → prepare_req →
      List prepare_req × proposer × Bool
  | [], _, p, _ => ([], p, false)
  | now :: clock, iter, p, req =>
    let r := timeout_iterator_next cfg iter p req now
    if r.1 = 0 then ([], r.2.2.1, true)
    else
      let d := timeout_iterator_drain cfg clock r.2.1 r.2.2.1 r.2.2.2
      (r.2.2.2 :: d.1, d.2.1, d.2.2)

/-- The prepare table after a pass of an iterator created at `t` over it: the
instances that are due get `created_at` from the successive clock readings, the
others are kept as they are. -/
def refresh_due (cfg : paxos_config_t) (t : timeval) :
    List Instance → List timeval → List Instance
  | [], _ => []
  | inst :: rest, [] => inst :: rest
  | inst :: rest, now :: clock =>
    if timeout_due cfg t inst then
      { inst with created_at := now } :: refresh_due cfg t rest clock
    else inst :: refresh_due cfg t rest (now :: clock)

/-- A clock value in microseconds. -/
def timeval.us (t : timeval) : Int := t.tv_sec * 1000000 + t.tv_usec

/-- The clock values `gettimeofday` returns: `0 ≤ tv_usec < 1000000`. -/
def timeval.normal (t : timeval) : Prop := 0 ≤ t.tv_usec ∧ t.tv_usec < 1000000


/-! ## Where the instances of the new tables come from -/

/-- Whether a call is `timeout_iterator_next`. -/
def Op.is_timeout : Op → Bool
  | Op.timeout_iterator_next _ _ _ => true
  | _ => false

/-- A PROMISE that carries a value reports a value ballot not above its ballot, as an
acceptor does (it accepted the value before it promised). -/
def promise_value_ballot_le : Op → Prop
  | Op.receive_prepare_ack ack _ _ => ack.value_size > 0 → ack.value_ballot ≤ ack.ballot
  | _ => True

/-- The instance `y` of the new prepare table is the instance `x` of the old prepare
table, possibly updated by the call `op`. -/
def PrepFromPrep (op : Op) (x y : Instance) : Prop :=
  y.iid = x.iid ∧ x.ballot ≤ y.ballot ∧ (x.closed = true → y.closed = true) ∧
  (y.value_ballot = x.value_ballot ∨
    ∃ ack out now, op = Op.receive_prepare_ack ack out now ∧ ack.value_size > 0 ∧
      y.value_ballot = ack.value_ballot ∧ ack.ballot = y.ballot)

/-- The instance `y` of the new prepare table is the preempted instance `x` of the old
accept table. -/
def PrepFromAcc (x y : Instance) : Prop :=
  y.iid = x.iid ∧ x.ballot < y.ballot ∧ y.value_ballot = x.value_ballot ∧
  y.closed = x.closed ∧ y.value = x.value

/-- The instance `y` of the new prepare table was created by `proposer_prepare`. -/
def PrepNew (n : Nat) (y : Instance) : Prop :=
  y.iid = n + 1 ∧ y.value_ballot = 0 ∧ y.closed = false ∧ y.value = none

/-- The instance `y` of the new accept table is the instance `x` of the old one. -/
def AccFromAcc (x y : Instance) : Prop :=
  y.iid = x.iid ∧ y.ballot = x.ballot ∧ y.value_ballot = x.value_ballot ∧
  y.closed = x.closed ∧ y.value = x.value

/-- The instance `y` of the new accept table is the instance `x` of the old prepare
table, moved by `proposer_accept`. -/
def AccFromPrep (x y : Instance) : Prop :=
  y.iid = x.iid ∧ y.ballot = x.ballot ∧ y.value_ballot = x.value_ballot ∧
  x.closed = false ∧ y.closed = false ∧ y.value ≠ none

/-- The origin of every instance of the tables after a call, and of every request
handed back: a PrepareRequest carries the IID and ballot of an instance of the new
prepare table, which is new or had a smaller ballot before (the same ballot for a
retry by `timeout_iterator_next`); an AcceptRequest carries the IID and ballot of a
non-closed instance of the old prepare table, now in the accept table. -/
def StepOrigin (p : proposer) (op : Op) (p1 : proposer) (outs : List Output) : Prop :=
  (∀ y ∈ p1.prepare_instances,
    (∃ x ∈ p.prepare_instances, PrepFromPrep op x y) ∨
    (∃ x ∈ p.accept_instances, PrepFromAcc x y) ∨ PrepNew p.next_prepare_iid y) ∧
  (∀ y ∈ p1.accept_instances,
    (∃ x ∈ p.accept_instances, AccFromAcc x y) ∨
    (∃ x ∈ p.prepare_instances, AccFromPrep x y)) ∧
  (∀ r, Output.prepare r ∈ outs →
    ∃ y ∈ p1.prepare_instances, y.iid = r.iid ∧ y.ballot = r.ballot ∧
      (r.iid = p.next_prepare_iid + 1 ∨
        ∃ x ∈ p.prepare_instances ++ p.accept_instances, x.iid = r.iid ∧
          (x.ballot < r.ballot ∨ (op.is_timeout = true ∧ x.ballot = r.ballot)))) ∧
  (∀ r, Output.accept r ∈ outs →
    ∃ x ∈ p.prepare_instances, x.closed = false ∧ x.iid = r.iid ∧ x.ballot = r.ballot ∧
      ∃ y ∈ p1.accept_instances, y.iid = r.iid ∧ y.ballot = r.ballot)


/-- The well-formedness of the tables kept by every call: the IIDs of both tables are
at most `next_prepare_iid` and no IID occurs twice in the two tables together. -/
def TablesWF (p : proposer) : Prop :=
  (∀ a ∈ iids p.prepare_instances, a ≤ p.next_prepare_iid) ∧
  (∀ a ∈ iids p.accept_instances, a ≤ p.next_prepare_iid) ∧
  (iids p.prepare_instances ++ iids p.accept_instances).Nodup


/-! ## The values a proposer holds -/

/-- The values bound to the instances of a table, in table order. -/
def bound_values (tbl : List Instance) : List paxos_msg := tbl.filterMap Instance.value

/-- The value occurrences a proposer holds: the value queue and the values bound to
the live instances of both tables. -/
def held_values (p : proposer) : List paxos_msg :=
  p.values ++ bound_values p.prepare_instances ++ bound_values p.accept_instances

/-- The instances a call passes to `instance_free`: the closed instances at the front
of the prepare table in `proposer_accept`, and the instance whose accept quorum is
completed in `proposer_receive_accept_ack`. -/
def freed_instances (p : proposer) : Op → List Instance
  | Op.accept => p.prepare_instances.takeWhile (fun x => x.closed)
  | Op.receive_accept_ack ack _ _ =>
    match instance_find p.accept_instances ack.iid with
    | none => []
    | some (_, inst) =>
      if ack.ballot = inst.ballot ∧ ack.value_ballot = inst.ballot then
        match quorum_add inst.quorum ack.acceptor_id with
        | (false, _) => []
        | (true, q) => if quorum_reached q then [{ inst with quorum := q }] else []
      else []
  | Op.propose _ => []
  | Op.prepare _ => []
  | Op.receive_prepare_ack _ _ _ => []
  | Op.timeout_iterator_next _ _ _ => []


/-! ## Basic facts about the helpers -/

theorem set_split (pre post : List Instance) (inst y : Instance) :
    (pre ++ inst :: post).set pre.length y = pre ++ y :: post := by
  induction pre with
  | nil => rfl
  | cons a pre ih => simp [List.set, ih]

theorem instance_find_split (pre post : List Instance) (inst : Instance) (iid : Nat)
    (hpre : ∀ x ∈ pre, x.iid ≠ iid) (hiid : inst.iid = iid) :
    instance_find (pre ++ inst :: post) iid = some (pre.length, inst) := by
  induction pre with
  | nil => simp [instance_find, hiid]
  | cons a pre ih =>
    have ha : a.iid ≠ iid := hpre a (List.mem_cons_self _ _)
    have ih1 := ih (fun x hx => hpre x (List.mem_cons_of_mem _ hx))
    simp [instance_find, ha, ih1]

theorem instance_find_none (c : List Instance) (iid : Nat) :
    instance_find c iid = none ↔ ∀ x ∈ c, x.iid ≠ iid := by
  induction c with
  | nil => simp [instance_find]
  | cons a c ih =>
    by_cases ha : a.iid = iid
    · simp [instance_find, ha]
    · simp [instance_find, ha, ih]

theorem instance_find_some (c : List Instance) (iid : Nat) (i : Nat) (inst : Instance)
    (h : instance_find c iid = some (i, inst)) :
    ∃ pre post, c = pre ++ inst :: post ∧ pre.length = i ∧ (∀ x ∈ pre, x.iid ≠ iid) ∧
      inst.iid = iid := by
  induction c generalizing i with
  | nil => simp [instance_find] at h
  | cons a c ih =>
    by_cases ha : a.iid = iid
    · simp [instance_find, ha] at h
      obtain ⟨rfl, rfl⟩ := h
      exact ⟨[], c, rfl, rfl, by simp, ha⟩
    · simp [instance_find, ha] at h
      obtain ⟨j, hj, rfl⟩ := h
      obtain ⟨pre, post, hc, hlen, hpre, hiid⟩ := ih j hj
      refine ⟨a :: pre, post, by simp [hc], by simp [hlen], ?_, hiid⟩
      intro x hx
      rcases List.mem_cons.mp hx with rfl | hx
      · exact ha
      · exact hpre x hx

theorem proposer_next_ballot_gt (p : proposer) (b : Nat) :
    b < proposer_next_ballot p b := by
  by_cases h : b > 0
  · simp only [proposer_next_ballot, h, if_true, MAX_N_OF_PROPOSERS]
    omega
  · simp only [proposer_next_ballot, h, if_false, MAX_N_OF_PROPOSERS]
    omega

/-! ## Ballot generation -/

/-- C1: for a proposer id in `[1, B-1]` with `B = MAX_N_OF_PROPOSERS = 10`,
`proposer_next_ballot current` is `current + B` when `current > 0` and `B + id` when
`current = 0`, and in both cases it is strictly greater than `current`. -/
theorem proposer_next_ballot_spec (p : proposer) (current : Nat)
    (_hlo : 1 ≤ p.id) (_hhi : p.id ≤ MAX_N_OF_PROPOSERS - 1) :
    MAX_N_OF_PROPOSERS = 10 ∧
    (current > 0 → proposer_next_ballot p current = current + MAX_N_OF_PROPOSERS) ∧
    (current = 0 → proposer_next_ballot p current = MAX_N_OF_PROPOSERS + p.id) ∧
    current < proposer_next_ballot p current := by
  refine ⟨rfl, ?_, ?_, proposer_next_ballot_gt p current⟩
  · intro h
    simp [proposer_next_ballot, h, Nat.add_comm]
  · intro h
    simp [proposer_next_ballot, h]

/-- Witness of C1: proposer 3 moves from ballot 13 to ballot 23. -/
theorem proposer_next_ballot_spec_witness :
    MAX_N_OF_PROPOSERS = 10 ∧
    ((13 : Nat) > 0 → proposer_next_ballot (proposer_new 3) 13 = 13 + MAX_N_OF_PROPOSERS) ∧
    ((13 : Nat) = 0 → proposer_next_ballot (proposer_new 3) 13
      = MAX_N_OF_PROPOSERS + (proposer_new 3).id) ∧
    13 < proposer_next_ballot (proposer_new 3) 13 :=
  proposer_next_ballot_spec (proposer_new 3) 13 (by decide) (by decide)

/-! ## Handling PROMISE -/

/-- C4: when the instance `inst` that `proposer_receive_prepare_ack` looks up in the
prepare table (the first one with `ack.iid`) has a ballot below `ack.ballot`, the call
returns 1 with the request `{inst.iid, next_ballot(inst.ballot)}`; afterwards `inst`
has the new ballot and an empty quorum at the same position of the prepare table, with
`value`, `value_ballot` and `closed` as before, and the value queue, the accept table,
`next_prepare_iid` and all other instances are unchanged. -/
theorem proposer_receive_prepare_ack_preempt (p : proposer) (ack : prepare_ack)
    (out : prepare_req) (now : timeval) (pre post : List Instance) (inst : Instance)
    (htab : p.prepare_instances = pre ++ inst :: post)
    (hpre : ∀ x ∈ pre, x.iid ≠ ack.iid) (hiid : inst.iid = ack.iid)
    (hb : ack.ballot > inst.ballot) :
    proposer_receive_prepare_ack p ack out now =
      (1,
       { p with prepare_instances :=
          pre ++ { inst with ballot := proposer_next_ballot p inst.ballot,
                             quorum := ⟨QUORUM, ∅⟩,
                             created_at := now } :: post },
       ⟨inst.iid, proposer_next_ballot p inst.ballot⟩) := by
  have h1 : ¬ ack.ballot < inst.ballot := by omega
  have h2 : ¬ ack.ballot = inst.ballot := by omega
  simp only [proposer_receive_prepare_ack, htab, instance_find_split pre post inst ack.iid hpre hiid,
    h1, h2, if_false, prepare_preempt, set_split, quorum_init]

/-- Witness of C4 (scenario S2): proposer 1 prepares instance 1 at ballot 11; a PROMISE
for instance 1 with ballot 21 returns 1 with the request `{1, 21}`. -/
theorem proposer_receive_prepare_ack_preempt_witness :
    proposer_receive_prepare_ack (proposer_prepare (proposer_new 1) ⟨0, 0⟩).2
        ⟨1, 1, 21, 0, []⟩ ⟨0, 0⟩ ⟨7, 0⟩ =
      (1, ⟨1, [], 1, [⟨1, 21, 0, none, false, ⟨2, ∅⟩, ⟨7, 0⟩⟩], []⟩, ⟨1, 21⟩) :=
  proposer_receive_prepare_ack_preempt (proposer_prepare (proposer_new 1) ⟨0, 0⟩).2
    ⟨1, 1, 21, 0, []⟩ ⟨0, 0⟩ ⟨7, 0⟩ [] [] ⟨1, 11, 0, none, false, ⟨2, ∅⟩, ⟨0, 0⟩⟩
    rfl (by simp) rfl (by decide)

/-- C6: a PROMISE at the ballot of the instance `inst` that
`proposer_receive_prepare_ack` looks up in the prepare table, from an acceptor not yet in
its quorum and carrying a value, returns 0, adds the acceptor to the quorum and keeps
`inst.ballot`; (a) with no value bound the value and value ballot of the ack are
adopted and the value queue is unchanged; (b) with a value bound at a lower value
ballot the old value goes to the back of the value queue and the ack's value and value
ballot are adopted; (c) with a value bound at a higher value ballot the value, the
value ballot and the value queue are unchanged. -/
theorem proposer_receive_prepare_ack_value (p : proposer) (ack : prepare_ack)
    (out : prepare_req) (now : timeval) (pre post : List Instance) (inst : Instance)
    (htab : p.prepare_instances = pre ++ inst :: post)
    (hpre : ∀ x ∈ pre, x.iid ≠ ack.iid) (hiid : inst.iid = ack.iid)
    (hb : ack.ballot = inst.ballot)
    (hq : ack.acceptor_id ∉ inst.quorum.acceptor_ids)
    (hv : ack.value_size > 0) :
    (inst.value = none →
      proposer_receive_prepare_ack p ack out now =
        (0, { p with prepare_instances :=
                pre ++ { inst with
                  quorum := ⟨inst.quorum.target, insert ack.acceptor_id inst.quorum.acceptor_ids⟩,
                  value_ballot := ack.value_ballot,
                  value := some ⟨ack.value⟩ } :: post }, out)) ∧
    (∀ v, inst.value = some v → ack.value_ballot > inst.value_ballot →
      proposer_receive_prepare_ack p ack out now =
        (0, { p with values := p.values ++ [v],
                     prepare_instances :=
                pre ++ { inst with
                  quorum := ⟨inst.quorum.target, insert ack.acceptor_id inst.quorum.acceptor_ids⟩,
                  value_ballot := ack.value_ballot,
                  value := some ⟨ack.value⟩ } :: post }, out)) ∧
    (∀ v, inst.value = some v → ack.value_ballot < inst.value_ballot →
      proposer_receive_prepare_ack p ack out now =
        (0, { p with prepare_instances :=
                pre ++ { inst with
                  quorum := ⟨inst.quorum.target, insert ack.acceptor_id inst.quorum.acceptor_ids⟩ }
                  :: post }, out)) := by
  refine ⟨?_, ?_, ?_⟩
  · intro hval
    simp only [proposer_receive_prepare_ack, htab,
      instance_find_split pre post inst ack.iid hpre hiid, hb, lt_self_iff_false, if_false, if_true,
      quorum_add, hq, hv, hval, set_split, wrap_value]
  · intro v hval hgt
    simp only [proposer_receive_prepare_ack, htab,
      instance_find_split pre post inst ack.iid hpre hiid, hb, lt_self_iff_false, if_false, if_true,
      quorum_add, hq, hv, hval, hgt, set_split, wrap_value, carray_push_back]
  · intro v hval hlt
    have h2 : ¬ ack.value_ballot > inst.value_ballot := by omega
    have h3 : ¬ ack.value_ballot = inst.value_ballot := by omega
    simp only [proposer_receive_prepare_ack, htab,
      instance_find_split pre post inst ack.iid hpre hiid, hb, lt_self_iff_false, if_false, if_true,
      quorum_add, hq, hv, hval, h2, h3, set_split]

/-- Witness of C6 (scenarios S3 and S4): instance 1 of proposer 1 holds `y` adopted at
value ballot 5 while `x` waits in the value queue; a PROMISE from acceptor 2 carrying
`z` at value ballot 7 displaces `y`, which lands at the back of the queue behind `x`. -/
theorem proposer_receive_prepare_ack_value_witness :
    proposer_receive_prepare_ack
        ⟨1, [⟨[120]⟩], 1, [⟨1, 11, 5, some ⟨[121]⟩, false, ⟨2, {1}⟩, ⟨0, 0⟩⟩], []⟩
        ⟨1, 2, 11, 7, [122]⟩ ⟨0, 0⟩ ⟨0, 0⟩ =
      (0, ⟨1, [⟨[120]⟩, ⟨[121]⟩], 1,
            [⟨1, 11, 7, some ⟨[122]⟩, false, ⟨2, {2, 1}⟩, ⟨0, 0⟩⟩], []⟩, ⟨0, 0⟩) :=
  (proposer_receive_prepare_ack_value
    ⟨1, [⟨[120]⟩], 1, [⟨1, 11, 5, some ⟨[121]⟩, false, ⟨2, {1}⟩, ⟨0, 0⟩⟩], []⟩
    ⟨1, 2, 11, 7, [122]⟩ ⟨0, 0⟩ ⟨0, 0⟩ [] []
    ⟨1, 11, 5, some ⟨[121]⟩, false, ⟨2, {1}⟩, ⟨0, 0⟩⟩
    rfl (by simp) rfl rfl (by decide) (by decide)).2.1 ⟨[121]⟩ rfl (by decide)

/-! ## Preemption ballots -/

/-- Counterexample to C5: instance 1 of proposer 1 runs ballot 11; a PROMISE with the
higher ballot 31 preempts it, and the request returned carries ballot 21, which is
not greater than the observed ballot 31.  The same happens for an ACCEPTED with
ballot 31 on an instance of the accept table at ballot 11. -/
theorem preempt_ballot_below_ack_ballot :
    proposer_receive_prepare_ack (proposer_prepare (proposer_new 1) ⟨0, 0⟩).2
        ⟨1, 1, 31, 0, []⟩ ⟨0, 0⟩ ⟨0, 0⟩ =
      (1, ⟨1, [], 1, [⟨1, 21, 0, none, false, ⟨2, ∅⟩, ⟨0, 0⟩⟩], []⟩, ⟨1, 21⟩) ∧
    proposer_receive_accept_ack
        ⟨1, [], 1, [], [⟨1, 11, 0, some ⟨[120]⟩, false, ⟨2, ∅⟩, ⟨0, 0⟩⟩]⟩
        ⟨1, 1, 31, 31⟩ ⟨0, 0⟩ ⟨0, 0⟩ =
      some (1, ⟨1, [], 1, [⟨1, 21, 0, some ⟨[120]⟩, false, ⟨2, ∅⟩, ⟨0, 0⟩⟩], []⟩, ⟨1, 21⟩) ∧
    ¬ ((21 : Nat) > 31) := by
  decide

/-- C5 (amended): when `proposer_receive_prepare_ack` or `proposer_receive_accept_ack`
preempts the instance `inst` it looked up because the ack carries a higher ballot, it
returns 1 with the request `{inst.iid, next_ballot(inst.ballot)}`, and that ballot is
strictly greater than the previous ballot of the instance (it is computed from the
instance's ballot alone, not from `ack.ballot`). -/
theorem preempt_ballot_is_next_ballot (p : proposer) (out : prepare_req) (now : timeval) :
    (∀ (ack : prepare_ack) (i : Nat) (inst : Instance),
      instance_find p.prepare_instances ack.iid = some (i, inst) →
      ack.ballot > inst.ballot →
        (proposer_receive_prepare_ack p ack out now).1 = 1 ∧
        (proposer_receive_prepare_ack p ack out now).2.2 =
          ⟨inst.iid, proposer_next_ballot p inst.ballot⟩ ∧
        inst.ballot < proposer_next_ballot p inst.ballot) ∧
    (∀ (ack : accept_ack) (i : Nat) (inst : Instance),
      instance_find p.accept_instances ack.iid = some (i, inst) →
      ack.ballot > inst.ballot →
        (proposer_receive_accept_ack p ack out now).map (fun r => (r.1, r.2.2)) =
          some (1, ⟨inst.iid, proposer_next_ballot p inst.ballot⟩) ∧
        inst.ballot < proposer_next_ballot p inst.ballot) := by
  refine ⟨?_, ?_⟩
  · intro ack i inst hfind hb
    have h1 : ¬ ack.ballot < inst.ballot := by omega
    have h2 : ¬ ack.ballot = inst.ballot := by omega
    refine ⟨?_, ?_, proposer_next_ballot_gt p inst.ballot⟩ <;>
      simp only [proposer_receive_prepare_ack, hfind, h1, h2, if_false, prepare_preempt]
  · intro ack i inst hfind hb
    have h2 : ¬ ack.ballot = inst.ballot := by omega
    refine ⟨?_, proposer_next_ballot_gt p inst.ballot⟩
    simp only [proposer_receive_accept_ack, hfind, h2, if_false, prepare_preempt,
      proposer_next_ballot, Option.map_some']

/-- Witness of C5 (amended): the two preemptions of the counterexample return ballot
21, the successor of the instance's ballot 11. -/
theorem preempt_ballot_is_next_ballot_witness :
    ((proposer_receive_prepare_ack ⟨1, [], 1, [⟨1, 11, 0, none, false, ⟨2, ∅⟩, ⟨0, 0⟩⟩], []⟩
        ⟨1, 1, 31, 0, []⟩ ⟨0, 0⟩ ⟨0, 0⟩).1 = 1 ∧
     (proposer_receive_prepare_ack ⟨1, [], 1, [⟨1, 11, 0, none, false, ⟨2, ∅⟩, ⟨0, 0⟩⟩], []⟩
        ⟨1, 1, 31, 0, []⟩ ⟨0, 0⟩ ⟨0, 0⟩).2.2 = ⟨1, 21⟩ ∧
     11 < 21) :=
  (preempt_ballot_is_next_ballot
    ⟨1, [], 1, [⟨1, 11, 0, none, false, ⟨2, ∅⟩, ⟨0, 0⟩⟩], []⟩ ⟨0, 0⟩ ⟨0, 0⟩).1
    ⟨1, 1, 31, 0, []⟩ 0 ⟨1, 11, 0, none, false, ⟨2, ∅⟩, ⟨0, 0⟩⟩ rfl (by decide)

/-! ## Closing an instance -/

theorem closed_set_split (pre post : List Instance) (inst : Instance) :
    (List.map Instance.closed (pre ++ inst :: post)).set pre.length true =
      List.map Instance.closed pre ++ true :: List.map Instance.closed post := by
  induction pre with
  | nil => rfl
  | cons a pre ih => simp [List.set, ih]

/-- Counterexample to C7: instance 1 of proposer 1 holds the value `y` at value ballot
5; a PROMISE of acceptor 2 at the same ballot 11 carries the different value `z` at
the same value ballot 5, and the call sets the closed flag although the value bytes
differ. -/
theorem closed_set_on_different_value :
    (proposer_receive_prepare_ack
        ⟨1, [], 1, [⟨1, 11, 5, some ⟨[121]⟩, false, ⟨2, {1}⟩, ⟨0, 0⟩⟩], []⟩
        ⟨1, 2, 11, 5, [122]⟩ ⟨0, 0⟩ ⟨0, 0⟩).2.1 =
      ⟨1, [], 1, [⟨1, 11, 5, some ⟨[121]⟩, true, ⟨2, {2, 1}⟩, ⟨0, 0⟩⟩], []⟩ ∧
    ([122] : List Nat) ≠ [121] :=
  ⟨rfl, by decide⟩

/-- C7 (amended): `proposer_receive_prepare_ack` sets the closed flag of the instance
`inst` it looked up (position `i` of the prepare table) exactly when
`ack.ballot = inst.ballot`, the acceptor is not yet in its quorum, the ack carries a
value, the instance already holds a value and `ack.value_ballot = inst.value_ballot`;
the value bytes are not compared.  In every other case, and for every other instance
of both tables, the closed flags are unchanged. -/
theorem proposer_receive_prepare_ack_closed (p : proposer) (ack : prepare_ack)
    (out : prepare_req) (now : timeval) :
    (proposer_receive_prepare_ack p ack out now).2.1.accept_instances = p.accept_instances ∧
    (instance_find p.prepare_instances ack.iid = none →
      (proposer_receive_prepare_ack p ack out now).2.1.prepare_instances.map Instance.closed
        = p.prepare_instances.map Instance.closed) ∧
    (∀ (i : Nat) (inst : Instance),
      instance_find p.prepare_instances ack.iid = some (i, inst) →
      ((ack.ballot = inst.ballot ∧ ack.acceptor_id ∉ inst.quorum.acceptor_ids ∧
          ack.value_size > 0 ∧ inst.value ≠ none ∧ ack.value_ballot = inst.value_ballot) →
        (proposer_receive_prepare_ack p ack out now).2.1.prepare_instances.map Instance.closed
          = (p.prepare_instances.map Instance.closed).set i true) ∧
      (¬ (ack.ballot = inst.ballot ∧ ack.acceptor_id ∉ inst.quorum.acceptor_ids ∧
          ack.value_size > 0 ∧ inst.value ≠ none ∧ ack.value_ballot = inst.value_ballot) →
        (proposer_receive_prepare_ack p ack out now).2.1.prepare_instances.map Instance.closed
          = p.prepare_instances.map Instance.closed)) := by
  have hacc : (proposer_receive_prepare_ack p ack out now).2.1.accept_instances
      = p.accept_instances := by
    cases hfind : instance_find p.prepare_instances ack.iid with
    | none => simp only [proposer_receive_prepare_ack, hfind]
    | some r =>
      obtain ⟨i, inst⟩ := r
      simp only [proposer_receive_prepare_ack, hfind, quorum_add]
      by_cases h1 : ack.ballot < inst.ballot
      · simp [h1]
      by_cases hb : ack.ballot = inst.ballot
      · by_cases hq : ack.acceptor_id ∈ inst.quorum.acceptor_ids
        · simp [hb, hq]
        by_cases hv : ack.value_size > 0
        · cases hval : inst.value with
          | none => simp [hb, hq, hv]
          | some v =>
            by_cases hgt : ack.value_ballot > inst.value_ballot
            · simp [hb, hq, hv, hgt]
            · by_cases hne : ack.value_ballot = inst.value_ballot
              · simp [hb, hq, hv, hne]
              · simp [hb, hq, hv, hgt, hne]
        · simp [hb, hq, hv]
      · simp [h1, hb]
  refine ⟨hacc, ?_, ?_⟩
  · intro hnone
    simp only [proposer_receive_prepare_ack, hnone]
  · intro i inst hfind
    obtain ⟨pre, post, htab, hlen, hpre, hiid⟩ := instance_find_some _ _ _ _ hfind
    subst hlen
    rw [htab] at hfind
    refine ⟨?_, ?_⟩
    · intro hc
      obtain ⟨hb, hq, hv, hval, hvb⟩ := hc
      obtain ⟨v, hv1⟩ := Option.ne_none_iff_exists'.mp hval
      have h2 : ¬ inst.value_ballot > inst.value_ballot := by omega
      simp only [proposer_receive_prepare_ack, hfind, hb, lt_self_iff_false, if_false,
        if_true, quorum_add, hq, hv, hv1, hvb, h2, htab, set_split, closed_set_split]
      simp
    · intro hc
      simp only [proposer_receive_prepare_ack, htab, hfind, quorum_add]
      by_cases h1 : ack.ballot < inst.ballot
      · simp [h1, htab]
      by_cases hb : ack.ballot = inst.ballot
      · by_cases hq : ack.acceptor_id ∈ inst.quorum.acceptor_ids
        · simp [hb, hq, htab]
        by_cases hv : ack.value_size > 0
        · cases hval : inst.value with
          | none => simp [hb, hq, hv, htab, set_split]
          | some v =>
            have hne : ack.value_ballot ≠ inst.value_ballot := by
              intro hvb
              exact hc ⟨hb, hq, hv, by simp [hval], hvb⟩
            by_cases hgt : ack.value_ballot > inst.value_ballot
            · simp [hb, hq, hv, hgt, htab, set_split]
            · simp [hb, hq, hv, hgt, hne, htab, set_split]
        · simp [hb, hq, hv, htab, set_split]
      · simp [h1, hb, prepare_preempt, htab, set_split]

/-- Witness of C7 (amended): on the state of the counterexample the closed flag of
instance 1 (position 0) is set. -/
theorem proposer_receive_prepare_ack_closed_witness :
    (proposer_receive_prepare_ack
        ⟨1, [], 1, [⟨1, 11, 5, some ⟨[121]⟩, false, ⟨2, {1}⟩, ⟨0, 0⟩⟩], []⟩
        ⟨1, 2, 11, 5, [122]⟩ ⟨0, 0⟩ ⟨0, 0⟩).2.1.prepare_instances.map Instance.closed
      = [true] :=
  ((proposer_receive_prepare_ack_closed
      ⟨1, [], 1, [⟨1, 11, 5, some ⟨[121]⟩, false, ⟨2, {1}⟩, ⟨0, 0⟩⟩], []⟩
      ⟨1, 2, 11, 5, [122]⟩ ⟨0, 0⟩ ⟨0, 0⟩).2.2 0
      ⟨1, 11, 5, some ⟨[121]⟩, false, ⟨2, {1}⟩, ⟨0, 0⟩⟩ rfl).1 (by decide)

/-! ## Issuing ACCEPT -/

theorem proposer_accept_loop_eq (c : List Instance) :
    proposer_accept_loop c =
      (c.dropWhile (fun x => x.closed),
       match c.dropWhile (fun x => x.closed) with
       | [] => none
       | h :: _ => if quorum_reached h.quorum then some h else none) := by
  induction c with
  | nil => rfl
  | cons a c ih =>
    by_cases hc : a.closed = true
    · simp only [proposer_accept_loop, hc, if_true, ih, List.dropWhile_cons_of_pos]
    · have hc1 : a.closed = false := by simpa using hc
      by_cases hq : quorum_reached a.quorum = true
      · simp [proposer_accept_loop, hc1, hq, List.dropWhile]
      · have hq1 : quorum_reached a.quorum = false := by simpa using hq
        simp [proposer_accept_loop, hc1, hq1, List.dropWhile]

/-- C8: let `P'` be the prepare table without its maximal prefix of closed instances.
`proposer_accept` returns a request exactly when `P'` has a head `h` that has reached
quorum (`QUORUM = 2` acceptors in its set) and `h.value` is bound or the value queue is
non-empty.  The request is `{h.iid, h.ballot, v}` with `v` the bound value (queue
unchanged), or else the front of the value queue, which is popped and bound to `h`;
`h` leaves the prepare table and is appended to the accept table with an empty
quorum.  When no request is returned the only change is the removal of the closed
prefix. -/
theorem proposer_accept_spec (p : proposer) :
    QUORUM = 2 ∧
    (∀ q : quorum, quorum_reached q = true ↔ q.target ≤ q.acceptor_ids.card) ∧
    ((proposer_accept p).1.isSome = true ↔
      ∃ h rest, p.prepare_instances.dropWhile (fun x => x.closed) = h :: rest ∧
        quorum_reached h.quorum = true ∧ (h.value ≠ none ∨ p.values ≠ [])) ∧
    (∀ h rest, p.prepare_instances.dropWhile (fun x => x.closed) = h :: rest →
      quorum_reached h.quorum = true →
      (∀ v, h.value = some v →
        proposer_accept p =
          (some ⟨h.iid, h.ballot, v.data⟩,
           { p with prepare_instances := rest,
                    accept_instances :=
                      p.accept_instances ++ [{ h with quorum := ⟨QUORUM, ∅⟩ }] })) ∧
      (∀ v vs, h.value = none → p.values = v :: vs →
        proposer_accept p =
          (some ⟨h.iid, h.ballot, v.data⟩,
           { p with values := vs,
                    prepare_instances := rest,
                    accept_instances :=
                      p.accept_instances ++
                        [{ h with value := some v, quorum := ⟨QUORUM, ∅⟩ }] }))) ∧
    ((proposer_accept p).1 = none →
      (proposer_accept p).2 =
        { p with prepare_instances := p.prepare_instances.dropWhile (fun x => x.closed) }) := by
  refine ⟨rfl, fun q => by simp [quorum_reached], ?_, ?_, ?_⟩
  · simp only [proposer_accept, proposer_accept_loop_eq]
    cases hP : p.prepare_instances.dropWhile (fun x => x.closed) with
    | nil => simp
    | cons h rest =>
      by_cases hq : quorum_reached h.quorum = true
      · cases hval : h.value with
        | none =>
          cases hvs : p.values with
          | nil => simp [hq, hval, carray_pop_front]
          | cons v vs => simp [hq, hval, hvs, carray_pop_front]
        | some v => simp [hq, hval]
      · simp [hq]
  · intro h rest hP hq
    refine ⟨?_, ?_⟩
    · intro v hval
      simp [proposer_accept, proposer_accept_loop_eq, hP, hq, hval, carray_pop_front,
        carray_push_back, quorum_init]
    · intro v vs hval hvs
      simp [proposer_accept, proposer_accept_loop_eq, hP, hq, hval, hvs, carray_pop_front,
        carray_push_back, quorum_init]
  · simp only [proposer_accept, proposer_accept_loop_eq]
    cases hP : p.prepare_instances.dropWhile (fun x => x.closed) with
    | nil => simp
    | cons h rest =>
      by_cases hq : quorum_reached h.quorum = true
      · cases hval : h.value with
        | none =>
          cases hvs : p.values with
          | nil => simp [hq, hval, carray_pop_front]
          | cons v vs => simp [hq, hval, hvs, carray_pop_front]
        | some v => simp [hq, hval]
      · simp [hq]

/-- Witness of C8 (scenario S3): instance 1 holds the adopted value `y` and a quorum of
two promises while `x` waits in the value queue; `proposer_accept` sends `y` and `x`
stays in the queue. -/
theorem proposer_accept_spec_witness :
    proposer_accept
        ⟨1, [⟨[120]⟩], 1, [⟨1, 11, 5, some ⟨[121]⟩, false, ⟨2, {2, 1}⟩, ⟨0, 0⟩⟩], []⟩ =
      (some ⟨1, 11, [121]⟩,
       ⟨1, [⟨[120]⟩], 1, [], [⟨1, 11, 5, some ⟨[121]⟩, false, ⟨2, ∅⟩, ⟨0, 0⟩⟩]⟩) :=
  ((proposer_accept_spec
      ⟨1, [⟨[120]⟩], 1, [⟨1, 11, 5, some ⟨[121]⟩, false, ⟨2, {2, 1}⟩, ⟨0, 0⟩⟩], []⟩).2.2.2.1
    ⟨1, 11, 5, some ⟨[121]⟩, false, ⟨2, {2, 1}⟩, ⟨0, 0⟩⟩ [] rfl (by decide)).1 ⟨[121]⟩ rfl

/-! ## Handling ACCEPTED -/

theorem instance_remove_split (pre post : List Instance) (y : Instance)
    (hpre : ∀ x ∈ pre, x.iid ≠ y.iid) :
    instance_remove (pre ++ y :: post) y =
      pre ++ post.filter (fun x => !decide (x.iid = y.iid)) := by
  have h1 : pre.filter (fun item => !instance_match y item) = pre := by
    apply List.filter_eq_self.mpr
    intro x hx
    have := hpre x hx
    simp [instance_match, Ne.symm this]
  have h2 : post.filter (fun item => !instance_match y item)
      = post.filter (fun x => !decide (x.iid = y.iid)) := by
    apply List.filter_congr
    intro x _
    simp [instance_match, eq_comm]
  simp only [instance_remove, carray_reject, List.filter_append, List.filter_cons, h1, h2]
  simp [instance_match]

theorem mem_instance_remove (c : List Instance) (y x : Instance) :
    x ∈ instance_remove c y ↔ x ∈ c ∧ x.iid ≠ y.iid := by
  simp only [instance_remove, carray_reject, instance_match, List.mem_filter,
    Bool.not_eq_true', decide_eq_false_iff_not]
  constructor
  · rintro ⟨h1, h2⟩
    exact ⟨h1, fun h => h2 h.symm⟩
  · rintro ⟨h1, h2⟩
    exact ⟨h1, fun h => h2 h.symm⟩

/-! ## The effect of each call on the tables -/

/-- The three outcomes of `proposer_receive_prepare_ack`: nothing changes; the
instance looked up is updated in place at its ballot; or it is preempted. -/
theorem proposer_receive_prepare_ack_cases (p : proposer) (ack : prepare_ack)
    (out : prepare_req) (now : timeval) :
    proposer_receive_prepare_ack p ack out now = (0, p, out) ∨
    (∃ i inst inst1 vs,
      instance_find p.prepare_instances ack.iid = some (i, inst) ∧
      ack.ballot = inst.ballot ∧ inst1.iid = inst.iid ∧ inst1.ballot = inst.ballot ∧
      proposer_receive_prepare_ack p ack out now =
        (0, { p with values := vs, prepare_instances := p.prepare_instances.set i inst1 },
          out)) ∨
    (∃ i inst,
      instance_find p.prepare_instances ack.iid = some (i, inst) ∧
      ack.ballot > inst.ballot ∧
      proposer_receive_prepare_ack p ack out now =
        (1, { p with
              prepare_instances :=
                p.prepare_instances.set i
                  { inst with ballot := proposer_next_ballot p inst.ballot,
                              quorum := ⟨QUORUM, ∅⟩,
                              created_at := now } },
         ⟨inst.iid, proposer_next_ballot p inst.ballot⟩)) := by
  cases hfind : instance_find p.prepare_instances ack.iid with
  | none =>
    left
    simp only [proposer_receive_prepare_ack, hfind]
  | some r =>
    obtain ⟨i, inst⟩ := r
    by_cases h1 : ack.ballot < inst.ballot
    · left
      simp only [proposer_receive_prepare_ack, hfind, h1, if_true]
    by_cases hb : ack.ballot = inst.ballot
    · by_cases hq : ack.acceptor_id ∈ inst.quorum.acceptor_ids
      · left
        simp only [proposer_receive_prepare_ack, hfind, hb, lt_self_iff_false, if_false,
          if_true, quorum_add, hq]
      · right
        left
        by_cases hv : ack.value_size > 0
        · cases hval : inst.value with
          | none =>
            refine ⟨i, inst, { inst with
                quorum := ⟨inst.quorum.target, insert ack.acceptor_id inst.quorum.acceptor_ids⟩,
                value_ballot := ack.value_ballot,
                value := some ⟨ack.value⟩ }, p.values, rfl, hb, rfl, rfl, ?_⟩
            simp only [proposer_receive_prepare_ack, hfind, hb, lt_self_iff_false,
              if_false, if_true, quorum_add, hq, hv, hval, wrap_value]
          | some v =>
            by_cases hgt : ack.value_ballot > inst.value_ballot
            · refine ⟨i, inst, { inst with
                  quorum := ⟨inst.quorum.target, insert ack.acceptor_id inst.quorum.acceptor_ids⟩,
                  value_ballot := ack.value_ballot,
                  value := some ⟨ack.value⟩ }, p.values ++ [v], rfl, hb, rfl, rfl, ?_⟩
              simp only [proposer_receive_prepare_ack, hfind, hb, lt_self_iff_false,
                if_false, if_true, quorum_add, hq, hv, hval, hgt, wrap_value, carray_push_back]
            · by_cases hne : ack.value_ballot = inst.value_ballot
              · refine ⟨i, inst, { inst with
                    quorum := ⟨inst.quorum.target, insert ack.acceptor_id inst.quorum.acceptor_ids⟩,
                    closed := true }, p.values, rfl, hb, rfl, rfl, ?_⟩
                have h2 : ¬ inst.value_ballot > inst.value_ballot := by omega
                simp only [proposer_receive_prepare_ack, hfind, hb, lt_self_iff_false,
                  if_false, if_true, quorum_add, hq, hv, hval, hne, h2]
              · refine ⟨i, inst, { inst with
                    quorum := ⟨inst.quorum.target, insert ack.acceptor_id inst.quorum.acceptor_ids⟩ },
                  p.values, rfl, hb, rfl, rfl, ?_⟩
                simp only [proposer_receive_prepare_ack, hfind, hb, lt_self_iff_false,
                  if_false, if_true, quorum_add, hq, hv, hval, hgt, hne]
        · refine ⟨i, inst, { inst with
              quorum := ⟨inst.quorum.target, insert ack.acceptor_id inst.quorum.acceptor_ids⟩ },
            p.values, rfl, hb, rfl, rfl, ?_⟩
          simp only [proposer_receive_prepare_ack, hfind, hb, lt_self_iff_false,
            if_false, if_true, quorum_add, hq, hv]
    · right
      right
      have hgt : ack.ballot > inst.ballot := by omega
      refine ⟨i, inst, rfl, hgt, ?_⟩
      simp only [proposer_receive_prepare_ack, hfind, h1, hb, if_false, prepare_preempt,
        quorum_init]

/-- The two outcomes of `proposer_accept`, after the closed instances at the front of
the prepare table are dropped: no request, or the head moves to the accept table. -/
theorem proposer_accept_cases (p : proposer) :
    proposer_accept p =
      (none, { p with prepare_instances := p.prepare_instances.dropWhile (fun x => x.closed) }) ∨
    (∃ h rest v vs,
      p.prepare_instances.dropWhile (fun x => x.closed) = h :: rest ∧
      quorum_reached h.quorum = true ∧
      ((h.value = some v ∧ vs = p.values) ∨ (h.value = none ∧ p.values = v :: vs)) ∧
      proposer_accept p =
        (some ⟨h.iid, h.ballot, v.data⟩,
         { p with values := vs,
                  prepare_instances := rest,
                  accept_instances :=
                    p.accept_instances ++ [{ h with value := some v, quorum := ⟨QUORUM, ∅⟩ }] })) := by
  cases hP : p.prepare_instances.dropWhile (fun x => x.closed) with
  | nil =>
    left
    simp [proposer_accept, proposer_accept_loop_eq, hP]
  | cons h rest =>
    by_cases hq : quorum_reached h.quorum = true
    · cases hval : h.value with
      | none =>
        cases hvs : p.values with
        | nil =>
          left
          simp [proposer_accept, proposer_accept_loop_eq, hP, hq, hval, hvs, carray_pop_front]
        | cons v vs =>
          right
          refine ⟨h, rest, v, vs, rfl, hq, Or.inr ⟨hval, rfl⟩, ?_⟩
          simp [proposer_accept, proposer_accept_loop_eq, hP, hq, hval, hvs, carray_pop_front,
            carray_push_back, quorum_init]
      | some v =>
        right
        refine ⟨h, rest, v, p.values, rfl, hq, Or.inl ⟨hval, rfl⟩, ?_⟩
        simp [proposer_accept, proposer_accept_loop_eq, hP, hq, hval, carray_pop_front,
          carray_push_back, quorum_init]
    · left
      simp [proposer_accept, proposer_accept_loop_eq, hP, hq]

/-- The outcomes of `proposer_receive_accept_ack`: a failed assertion; nothing
changes; the instance looked up counts one more acceptor and stays or is removed; or
it is preempted and moved to the front of the prepare table. -/
theorem proposer_receive_accept_ack_cases (p : proposer) (ack : accept_ack)
    (out : prepare_req) (now : timeval) :
    proposer_receive_accept_ack p ack out now = none ∨
    proposer_receive_accept_ack p ack out now = some (0, p, out) ∨
    (∃ i inst inst1,
      instance_find p.accept_instances ack.iid = some (i, inst) ∧
      ack.ballot = inst.ballot ∧ inst1.iid = inst.iid ∧ inst1.ballot = inst.ballot ∧
      (proposer_receive_accept_ack p ack out now =
          some (0, { p with accept_instances := p.accept_instances.set i inst1 }, out) ∨
       proposer_receive_accept_ack p ack out now =
          some (0, { p with accept_instances :=
                      instance_remove (p.accept_instances.set i inst1) inst1 }, out))) ∨
    (∃ i inst,
      instance_find p.accept_instances ack.iid = some (i, inst) ∧
      ack.ballot ≠ inst.ballot ∧
      proposer_receive_accept_ack p ack out now =
        some (1, { p with
                accept_instances := instance_remove p.accept_instances inst,
                prepare_instances :=
                  { inst with ballot := proposer_next_ballot p inst.ballot,
                              quorum := ⟨QUORUM, ∅⟩,
                              created_at := now } :: p.prepare_instances },
              ⟨inst.iid, proposer_next_ballot p inst.ballot⟩)) := by
  cases hfind : instance_find p.accept_instances ack.iid with
  | none =>
    right
    left
    simp only [proposer_receive_accept_ack, hfind]
  | some r =>
    obtain ⟨i, inst⟩ := r
    by_cases hb : ack.ballot = inst.ballot
    · by_cases hvb : ack.value_ballot = inst.ballot
      · by_cases hq : ack.acceptor_id ∈ inst.quorum.acceptor_ids
        · right
          left
          simp only [proposer_receive_accept_ack, hfind, hb, hvb, if_true, quorum_add, hq]
        · right
          right
          left
          refine ⟨i, inst, { inst with
              quorum := ⟨inst.quorum.target, insert ack.acceptor_id inst.quorum.acceptor_ids⟩ },
            rfl, hb, rfl, rfl, ?_⟩
          by_cases hreach : quorum_reached
              ⟨inst.quorum.target, insert ack.acceptor_id inst.quorum.acceptor_ids⟩ = true
          · right
            simp only [proposer_receive_accept_ack, hfind, hb, hvb, if_true, if_false,
              quorum_add, hq, hreach]
          · left
            have hreach1 : quorum_reached
                ⟨inst.quorum.target, insert ack.acceptor_id inst.quorum.acceptor_ids⟩ = false := by
              simpa using hreach
            simp only [proposer_receive_accept_ack, hfind, hb, hvb, if_true, if_false,
              quorum_add, hq, hreach1, Bool.false_eq_true]
      · left
        simp only [proposer_receive_accept_ack, hfind, hb, hvb, if_true, if_false]
    · right
      right
      right
      refine ⟨i, inst, rfl, hb, ?_⟩
      simp only [proposer_receive_accept_ack, hfind, hb, if_false, prepare_preempt,
        carray_push_front, quorum_init, List.set_cons_zero, proposer_next_ballot]

theorem next_timedout_loop_some (cfg : paxos_config_t) (t : timeval) (l : List Instance)
    (i j i1 : Nat) (inst : Instance)
    (h : next_timedout_loop cfg t l i = (some (j, inst), i1)) :
    i ≤ j ∧ l[j - i]? = some inst := by
  induction l generalizing i with
  | nil => simp [next_timedout_loop] at h
  | cons a l ih =>
    by_cases hq : quorum_reached a.quorum = true
    · simp only [next_timedout_loop, hq, if_true] at h
      obtain ⟨h1, h2⟩ := ih (i + 1) h
      refine ⟨by omega, ?_⟩
      have : j - i = (j - (i + 1)) + 1 := by omega
      rw [this]
      simpa using h2
    · by_cases ht : instance_has_timedout cfg a t = true
      · simp only [next_timedout_loop, hq, ht, if_true, if_false, Prod.mk.injEq,
          Option.some.injEq] at h
        obtain ⟨⟨rfl, rfl⟩, -⟩ := h
        simp
      · simp only [next_timedout_loop, hq, ht, if_false] at h
        obtain ⟨h1, h2⟩ := ih (i + 1) h
        refine ⟨by omega, ?_⟩
        have : j - i = (j - (i + 1)) + 1 := by omega
        rw [this]
        simpa using h2

theorem next_timedout_some (cfg : paxos_config_t) (t : timeval) (tbl : List Instance)
    (i j i1 : Nat) (inst : Instance)
    (h : next_timedout cfg tbl i t = (some (j, inst), i1)) :
    tbl[j]? = some inst := by
  obtain ⟨h1, h2⟩ := next_timedout_loop_some cfg t (tbl.drop i) i j i1 inst h
  rw [List.getElem?_drop] at h2
  have : i + (j - i) = j := by omega
  rw [this] at h2
  exact h2

/-- The three outcomes of `timeout_iterator_next`: nothing to do; a prepare-table
instance is retried at its ballot; or an accept-table instance is preempted and moved
to the front of the prepare table. -/
theorem timeout_iterator_next_cases (cfg : paxos_config_t) (iter : timeout_iterator)
    (p : proposer) (req : prepare_req) (now : timeval) :
    ((timeout_iterator_next cfg iter p req now).1 = 0 ∧
      (timeout_iterator_next cfg iter p req now).2.2 = (p, req)) ∨
    (∃ i inst,
      p.prepare_instances[i]? = some inst ∧
      (timeout_iterator_next cfg iter p req now).1 = 1 ∧
      (timeout_iterator_next cfg iter p req now).2.2 =
        ({ p with prepare_instances :=
            p.prepare_instances.set i { inst with created_at := now } },
         ⟨inst.iid, inst.ballot⟩)) ∨
    (∃ i inst,
      p.accept_instances[i]? = some inst ∧
      (timeout_iterator_next cfg iter p req now).1 = 1 ∧
      (timeout_iterator_next cfg iter p req now).2.2 =
        ({ p with
            accept_instances :=
              instance_remove
                (p.accept_instances.set i
                  { inst with ballot := proposer_next_ballot p inst.ballot,
                              quorum := ⟨QUORUM, ∅⟩,
                              created_at := now })
                { inst with ballot := proposer_next_ballot p inst.ballot,
                            quorum := ⟨QUORUM, ∅⟩,
                            created_at := now },
            prepare_instances :=
              { inst with ballot := proposer_next_ballot p inst.ballot,
                          quorum := ⟨QUORUM, ∅⟩,
                          created_at := now } :: p.prepare_instances },
         ⟨inst.iid, proposer_next_ballot p inst.ballot⟩)) := by
  cases h1 : next_timedout cfg p.prepare_instances iter.pi iter.timeout with
  | mk r1 pi1 =>
    cases r1 with
    | some ji =>
      obtain ⟨j, inst⟩ := ji
      right
      left
      refine ⟨j, inst, next_timedout_some cfg _ _ _ _ _ _ h1, ?_, ?_⟩
      · simp only [timeout_iterator_next, h1]
      · simp only [timeout_iterator_next, h1]
    | none =>
      cases h2 : next_timedout cfg p.accept_instances iter.ai iter.timeout with
      | mk r2 ai1 =>
        cases r2 with
        | some ji =>
          obtain ⟨j, inst⟩ := ji
          right
          right
          refine ⟨j, inst, next_timedout_some cfg _ _ _ _ _ _ h2, ?_, ?_⟩
          · simp only [timeout_iterator_next, h1, h2]
          · simp only [timeout_iterator_next, h1, h2, prepare_preempt, carray_push_front,
              quorum_init]
        | none =>
          left
          simp only [timeout_iterator_next, h1, h2, and_self]

/-! ## The effect of each call on the IIDs of the tables -/

theorem getElem_split (pre post : List Instance) (x : Instance) :
    (pre ++ x :: post)[pre.length]? = some x := by
  induction pre with
  | nil => simp
  | cons a pre ih => simpa using ih

theorem instance_find_get (tbl : List Instance) (iid : Nat) (i : Nat) (inst : Instance)
    (h : instance_find tbl iid = some (i, inst)) :
    tbl[i]? = some inst ∧ inst.iid = iid ∧ inst ∈ tbl := by
  obtain ⟨pre, post, hc, hlen, -, hiid⟩ := instance_find_some tbl iid i inst h
  subst hc
  subst hlen
  exact ⟨getElem_split pre post inst, hiid, by simp⟩

theorem iids_set (tbl : List Instance) (i : Nat) (x y : Instance)
    (hget : tbl[i]? = some x) (hy : y.iid = x.iid) :
    iids (tbl.set i y) = iids tbl := by
  induction tbl generalizing i with
  | nil => simp at hget
  | cons a tbl ih =>
    cases i with
    | zero =>
      simp at hget
      subst hget
      simp [iids, hy]
    | succ i =>
      simp at hget
      have := ih i hget
      simp only [iids] at this
      simp [iids, this]

theorem iids_instance_remove (c : List Instance) (y : Instance) :
    iids (instance_remove c y) = (iids c).filter (fun a => !decide (a = y.iid)) := by
  induction c with
  | nil => rfl
  | cons a c ih =>
    simp only [instance_remove, carray_reject, iids, instance_match] at ih
    by_cases h : a.iid = y.iid
    · simp [instance_remove, carray_reject, iids, instance_match, List.filter_cons, h, ih]
    · have h1 : ¬ y.iid = a.iid := fun e => h e.symm
      simp [instance_remove, carray_reject, iids, instance_match, List.filter_cons, h, h1, ih]

theorem mem_iids_of_get (tbl : List Instance) (i : Nat) (x : Instance)
    (hget : tbl[i]? = some x) : x.iid ∈ iids tbl :=
  List.mem_map_of_mem _ (List.getElem?_mem hget)

theorem accept_iids_prepare_ite (c : Prop) [Decidable c] (x : prepare_req) :
    accept_iids (if c then [Output.prepare x] else []) = [] := by
  split <;> rfl

theorem IidStep_same (P A : List Nat) (n : Nat) : IidStep P A n P A n [] :=
  Or.inl ⟨[], rfl, rfl, rfl, rfl⟩

/-- Every call changes the IIDs of the two tables in one of the ways of `IidStep`;
`next_prepare_iid` grows by one in `proposer_prepare` and in no other call. -/
theorem step_iids (cfg : paxos_config_t) (p : proposer) (op : Op) (p1 : proposer)
    (outs : List Output) (h : step cfg p op = some (p1, outs)) :
    IidStep (iids p.prepare_instances) (iids p.accept_instances) p.next_prepare_iid
      (iids p1.prepare_instances) (iids p1.accept_instances) p1.next_prepare_iid
      (accept_iids outs) ∧
    p1.next_prepare_iid = p.next_prepare_iid + prepare_calls [op] ∧ p1.id = p.id := by
  cases op with
  | propose value =>
    simp only [step, Option.some.injEq, Prod.mk.injEq] at h
    obtain ⟨rfl, rfl⟩ := h
    exact ⟨IidStep_same _ _ _, rfl, rfl⟩
  | prepare now =>
    simp only [step, Option.some.injEq, Prod.mk.injEq] at h
    obtain ⟨rfl, rfl⟩ := h
    refine ⟨Or.inr (Or.inl ⟨?_, rfl, rfl, rfl⟩), rfl, rfl⟩
    simp [proposer_prepare, iids, carray_push_back, instance_new]
  | receive_prepare_ack ack out now =>
    simp only [step, Option.some.injEq, Prod.mk.injEq] at h
    obtain ⟨rfl, rfl⟩ := h
    rw [accept_iids_prepare_ite]
    rcases proposer_receive_prepare_ack_cases p ack out now with hr | hr | hr
    · rw [hr]
      exact ⟨IidStep_same _ _ _, rfl, rfl⟩
    · obtain ⟨i, inst, inst1, vs, hfind, -, hiid, -, hr⟩ := hr
      rw [hr]
      refine ⟨?_, rfl, rfl⟩
      simp only
      rw [iids_set _ i inst inst1 (instance_find_get _ _ _ _ hfind).1 hiid]
      exact IidStep_same _ _ _
    · obtain ⟨i, inst, hfind, -, hr⟩ := hr
      rw [hr]
      refine ⟨?_, rfl, rfl⟩
      simp only
      rw [iids_set _ i inst _ (instance_find_get _ _ _ _ hfind).1 (by rfl)]
      exact IidStep_same _ _ _
  | accept =>
    have htd := List.takeWhile_append_dropWhile (fun x : Instance => x.closed)
      p.prepare_instances
    rcases proposer_accept_cases p with hr | hr
    · simp only [step, hr, Option.some.injEq, Prod.mk.injEq] at h
      obtain ⟨rfl, rfl⟩ := h
      refine ⟨Or.inl ⟨iids (p.prepare_instances.takeWhile (fun x => x.closed)), ?_, rfl, rfl,
        rfl⟩, rfl, rfl⟩
      simp only [iids, ← List.map_append, htd]
    · obtain ⟨hd, rest, v, vs, hP, -, -, hr⟩ := hr
      simp only [step, hr, Option.some.injEq, Prod.mk.injEq] at h
      obtain ⟨rfl, rfl⟩ := h
      refine ⟨Or.inr (Or.inr (Or.inl
        ⟨iids (p.prepare_instances.takeWhile (fun x => x.closed)), hd.iid, ?_, ?_, rfl, rfl⟩)),
        rfl, rfl⟩
      · rw [hP] at htd
        have : iids p.prepare_instances
            = iids (List.takeWhile (fun x => x.closed) p.prepare_instances ++ hd :: rest) := by
          rw [htd]
        simpa [iids] using this
      · simp [iids]
  | receive_accept_ack ack out now =>
    rcases proposer_receive_accept_ack_cases p ack out now with hr | hr | hr | hr
    · simp [step, hr] at h
    · simp only [step, hr, Option.some.injEq, Prod.mk.injEq] at h
      obtain ⟨rfl, rfl⟩ := h
      rw [accept_iids_prepare_ite]
      exact ⟨IidStep_same _ _ _, rfl, rfl⟩
    · obtain ⟨i, inst, inst1, hfind, -, hiid, -, hr⟩ := hr
      have hset := iids_set _ i inst inst1 (instance_find_get _ _ _ _ hfind).1 hiid
      rcases hr with hr | hr
      · simp only [step, hr, Option.some.injEq, Prod.mk.injEq] at h
        obtain ⟨rfl, rfl⟩ := h
        rw [accept_iids_prepare_ite]
        refine ⟨?_, rfl, rfl⟩
        simp only
        rw [hset]
        exact IidStep_same _ _ _
      · simp only [step, hr, Option.some.injEq, Prod.mk.injEq] at h
        obtain ⟨rfl, rfl⟩ := h
        rw [accept_iids_prepare_ite]
        refine ⟨Or.inr (Or.inr (Or.inr (Or.inr ⟨inst1.iid, rfl, ?_, rfl, rfl⟩))), rfl, rfl⟩
        simp only
        rw [iids_instance_remove, hset]
    · obtain ⟨i, inst, hfind, -, hr⟩ := hr
      simp only [step, hr, Option.some.injEq, Prod.mk.injEq] at h
      obtain ⟨rfl, rfl⟩ := h
      rw [accept_iids_prepare_ite]
      refine ⟨Or.inr (Or.inr (Or.inr (Or.inl ⟨inst.iid, ?_, ?_, ?_, rfl, rfl⟩))), rfl, rfl⟩
      · exact mem_iids_of_get _ i inst (instance_find_get _ _ _ _ hfind).1
      · simp [iids]
      · simp only
        rw [iids_instance_remove]
  | timeout_iterator_next iter req now =>
    simp only [step, Option.some.injEq, Prod.mk.injEq] at h
    obtain ⟨rfl, rfl⟩ := h
    rw [accept_iids_prepare_ite]
    rcases timeout_iterator_next_cases cfg iter p req now with hr | hr | hr
    · obtain ⟨-, hr⟩ := hr
      rw [hr]
      exact ⟨IidStep_same _ _ _, rfl, rfl⟩
    · obtain ⟨i, inst, hget, -, hr⟩ := hr
      rw [hr]
      refine ⟨?_, rfl, rfl⟩
      simp only
      rw [iids_set _ i inst _ hget (by rfl)]
      exact IidStep_same _ _ _
    · obtain ⟨i, inst, hget, -, hr⟩ := hr
      rw [hr]
      refine ⟨Or.inr (Or.inr (Or.inr (Or.inl ⟨inst.iid, ?_, ?_, ?_, rfl, rfl⟩))), rfl, rfl⟩
      · exact mem_iids_of_get _ i inst hget
      · simp [iids]
      · simp only
        rw [iids_instance_remove, iids_set _ i inst _ hget (by rfl)]

/-! ## Runs -/

theorem run_cons_some (cfg : paxos_config_t) (p p1 : proposer) (op : Op) (ops : List Op)
    (outs : List Output) (h : step cfg p op = some (p1, outs)) :
    run cfg p (op :: ops) = ((run cfg p1 ops).1, outs ++ (run cfg p1 ops).2) := by
  simp only [run, h]

theorem run_cons_none (cfg : paxos_config_t) (p : proposer) (op : Op) (ops : List Op)
    (h : step cfg p op = none) :
    run cfg p (op :: ops) = (none, []) := by
  simp only [run, h]

/-- A property of states kept by every call holds in the final state of every run
that is not aborted. -/
theorem run_state_induction (cfg : paxos_config_t) (I : proposer → Prop)
    (hstep : ∀ p op p1 outs, I p → step cfg p op = some (p1, outs) → I p1)
    (ops : List Op) : ∀ p q, I p → (run cfg p ops).1 = some q → I q := by
  induction ops with
  | nil =>
    intro p q hp hq
    simp only [run, Option.some.injEq] at hq
    exact hq ▸ hp
  | cons op ops ih =>
    intro p q hp hq
    cases hs : step cfg p op with
    | none => simp [run_cons_none cfg p op ops hs] at hq
    | some r =>
      obtain ⟨p1, outs⟩ := r
      rw [run_cons_some cfg p p1 op ops outs hs] at hq
      exact ih p1 q (hstep p op p1 outs hp hs) hq

theorem prepare_calls_cons (op : Op) (ops : List Op) :
    prepare_calls (op :: ops) = prepare_calls [op] + prepare_calls ops := by
  cases op <;> simp [prepare_calls]
  omega

theorem run_next_prepare_iid (cfg : paxos_config_t) (ops : List Op) :
    ∀ p q, (run cfg p ops).1 = some q →
      q.next_prepare_iid = p.next_prepare_iid + prepare_calls ops ∧ q.id = p.id := by
  induction ops with
  | nil =>
    intro p q hq
    simp only [run, Option.some.injEq] at hq
    subst hq
    exact ⟨rfl, rfl⟩
  | cons op ops ih =>
    intro p q hq
    cases hs : step cfg p op with
    | none => simp [run_cons_none cfg p op ops hs] at hq
    | some r =>
      obtain ⟨p1, outs⟩ := r
      rw [run_cons_some cfg p p1 op ops outs hs] at hq
      obtain ⟨h1, h2⟩ := ih p1 q hq
      obtain ⟨-, h3, h4⟩ := step_iids cfg p op p1 outs hs
      rw [prepare_calls_cons]
      exact ⟨by omega, h2.trans h4⟩

/-! ## IIDs are allocated densely and never reused -/

theorem IidStep_bound (P A : List Nat) (n : Nat) (P1 A1 : List Nat) (n1 : Nat)
    (acc : List Nat) (h : IidStep P A n P1 A1 n1 acc)
    (hP : ∀ a ∈ P, a ≤ n) (hA : ∀ a ∈ A, a ≤ n) :
    (∀ a ∈ P1, a ≤ n1) ∧ (∀ a ∈ A1, a ≤ n1) := by
  rcases h with ⟨d, rfl, rfl, rfl, -⟩ | ⟨rfl, rfl, rfl, -⟩ | ⟨d, i, rfl, rfl, rfl, -⟩ |
    ⟨i, hi, rfl, rfl, rfl, -⟩ | ⟨i, rfl, rfl, rfl, -⟩
  · exact ⟨fun a ha => hP a (List.mem_append_right _ ha), hA⟩
  · refine ⟨fun a ha => ?_, fun a ha => Nat.le_succ_of_le (hA a ha)⟩
    rcases List.mem_append.mp ha with h | h
    · exact Nat.le_succ_of_le (hP a h)
    · simp at h
      omega
  · refine ⟨fun a ha => hP a (by simp [ha]), fun a ha => ?_⟩
    rcases List.mem_append.mp ha with h | h
    · exact hA a h
    · simp at h
      subst h
      exact hP a (by simp)
  · refine ⟨fun a ha => ?_, fun a ha => hA a (List.mem_filter.mp ha).1⟩
    rcases List.mem_cons.mp ha with h | h
    · subst h
      exact hA a hi
    · exact hP a h
  · exact ⟨hP, fun a ha => hA a (List.mem_filter.mp ha).1⟩

/-- In every reachable state the IIDs of both tables are at most `next_prepare_iid`. -/
theorem reachable_iids_le (cfg : paxos_config_t) (id : Nat) (ops : List Op) (p : proposer)
    (h : (run cfg (proposer_new id) ops).1 = some p) :
    (∀ a ∈ iids p.prepare_instances, a ≤ p.next_prepare_iid) ∧
    (∀ a ∈ iids p.accept_instances, a ≤ p.next_prepare_iid) := by
  refine run_state_induction cfg
    (fun q => (∀ a ∈ iids q.prepare_instances, a ≤ q.next_prepare_iid) ∧
      (∀ a ∈ iids q.accept_instances, a ≤ q.next_prepare_iid))
    ?_ ops (proposer_new id) p ?_ h
  · intro q op q1 outs hq hs
    exact IidStep_bound _ _ _ _ _ _ _ (step_iids cfg q op q1 outs hs).1 hq.1 hq.2
  · simp [proposer_new, iids]

/-- C3: in every reachable state `proposer_prepare` increments `next_prepare_iid` and
returns `{iid = new next_prepare_iid, ballot = B + id}`; no instance of either table
holds that IID before the call; the new instance (no value, value ballot 0, not closed,
empty quorum) is appended at the back of the prepare table, whose count grows by one;
the value queue, the accept table and the other instances are unchanged.  The IID
returned is one more than the number of earlier `proposer_prepare` calls of the run:
the k-th call returns IID k. -/
theorem proposer_prepare_spec (cfg : paxos_config_t) (id : Nat) (ops : List Op)
    (p : proposer) (now : timeval)
    (h : (run cfg (proposer_new id) ops).1 = some p) :
    proposer_prepare p now =
      (⟨p.next_prepare_iid + 1, MAX_N_OF_PROPOSERS + id⟩,
       { p with
          next_prepare_iid := p.next_prepare_iid + 1,
          prepare_instances :=
            p.prepare_instances ++
              [⟨p.next_prepare_iid + 1, MAX_N_OF_PROPOSERS + id, 0, none, false, ⟨QUORUM, ∅⟩,
                now⟩] }) ∧
    (∀ x ∈ p.prepare_instances ++ p.accept_instances, x.iid ≠ p.next_prepare_iid + 1) ∧
    proposer_prepared_count (proposer_prepare p now).2 = proposer_prepared_count p + 1 ∧
    (proposer_prepare p now).1.iid = prepare_calls ops + 1 := by
  obtain ⟨hn, hid⟩ := run_next_prepare_iid cfg ops _ _ h
  obtain ⟨hP, hA⟩ := reachable_iids_le cfg id ops p h
  have hn1 : p.next_prepare_iid = prepare_calls ops := by
    simpa [proposer_new] using hn
  have hid1 : p.id = id := by
    simpa [proposer_new] using hid
  refine ⟨?_, ?_, ?_, ?_⟩
  · simp [proposer_prepare, instance_new, proposer_next_ballot, carray_push_back,
      quorum_init, hid1]
  · intro x hx
    have hle : x.iid ≤ p.next_prepare_iid := by
      rcases List.mem_append.mp hx with hx | hx
      · exact hP _ (List.mem_map_of_mem _ hx)
      · exact hA _ (List.mem_map_of_mem _ hx)
    omega
  · simp [proposer_prepare, proposer_prepared_count, carray_count, carray_push_back]
  · simp [proposer_prepare, instance_new, hn1]

/-- Witness of C3: after `propose`, `prepare` and a PROMISE, the second call of
`proposer_prepare` of proposer 1 returns `{2, 11}`. -/
theorem proposer_prepare_spec_witness :
    (proposer_prepare
        ⟨1, [⟨[120]⟩], 1, [⟨1, 11, 0, none, false, ⟨2, {1}⟩, ⟨0, 0⟩⟩], []⟩ ⟨3, 0⟩).1 = ⟨2, 11⟩ :=
  congrArg Prod.fst
    (proposer_prepare_spec ⟨1000000⟩ 1
      [Op.propose [120], Op.prepare ⟨0, 0⟩,
        Op.receive_prepare_ack ⟨1, 1, 11, 0, []⟩ ⟨0, 0⟩ ⟨0, 0⟩]
      ⟨1, [⟨[120]⟩], 1, [⟨1, 11, 0, none, false, ⟨2, {1}⟩, ⟨0, 0⟩⟩], []⟩ ⟨3, 0⟩ rfl).1

/-! ## The order of the AcceptRequests -/

theorem accept_iids_append (l1 l2 : List Output) :
    accept_iids (l1 ++ l2) = accept_iids l1 ++ accept_iids l2 := by
  induction l1 with
  | nil => rfl
  | cons o l1 ih =>
    cases o with
    | prepare r => simpa [accept_iids] using ih
    | accept r => simpa [accept_iids] using ih

theorem AcceptOrderInv_step (H P A : List Nat) (n : Nat) (P1 A1 : List Nat) (n1 : Nat)
    (acc : List Nat) (h : IidStep P A n P1 A1 n1 acc) (hinv : AcceptOrderInv H P A n) :
    (acc = [] ∧ AcceptOrderInv H P1 A1 n1) ∨
    (∃ i, acc = [i] ∧ (i ∈ H ∨ ∀ j ∈ H, j < i) ∧ AcceptOrderInv (i :: H) P1 A1 n1) := by
  obtain ⟨hA, hP, hPW, hH, hPn⟩ := hinv
  rcases h with ⟨d, rfl, rfl, rfl, rfl⟩ | ⟨rfl, rfl, rfl, rfl⟩ | ⟨d, i, rfl, rfl, rfl, rfl⟩ |
    ⟨i, hi, rfl, rfl, rfl, rfl⟩ | ⟨i, rfl, rfl, rfl, rfl⟩
  · left
    exact ⟨rfl, hA, fun x hx => hP x (List.mem_append_right _ hx),
      (List.pairwise_append.mp hPW).2.1, hH, fun x hx => hPn x (List.mem_append_right _ hx)⟩
  · left
    refine ⟨rfl, hA, ?_, ?_, fun a ha => Nat.le_succ_of_le (hH a ha), ?_⟩
    · intro x hx
      rcases List.mem_append.mp hx with hx | hx
      · exact hP x hx
      · right
        intro a ha
        have := hH a ha
        simp at hx
        omega
    · refine List.pairwise_append.mpr ⟨hPW, List.pairwise_singleton _ _, ?_⟩
      intro a ha b hb
      right
      have := hPn a ha
      simp at hb
      omega
    · intro x hx
      rcases List.mem_append.mp hx with hx | hx
      · exact Nat.le_succ_of_le (hPn x hx)
      · simp at hx
        omega
  · right
    have hiP : i ∈ d ++ i :: P1 := by simp
    have hPW1 : (i :: P1).Pairwise (fun x y => y ∈ H ∨ x < y) :=
      (List.pairwise_append.mp hPW).2.1
    obtain ⟨hi1, hPW2⟩ := List.pairwise_cons.mp hPW1
    refine ⟨i, rfl, hP i hiP, ?_, ?_, ?_, ?_, ?_⟩
    · intro a ha
      rcases List.mem_append.mp ha with ha | ha
      · exact List.mem_cons_of_mem _ (hA a ha)
      · simp at ha
        subst ha
        exact List.mem_cons_self _ _
    · intro x hx
      have hxP : x ∈ d ++ i :: P1 := by simp [hx]
      rcases hP x hxP with h1 | h1
      · exact Or.inl (List.mem_cons_of_mem _ h1)
      · rcases hi1 x hx with h2 | h2
        · exact Or.inl (List.mem_cons_of_mem _ h2)
        · right
          intro a ha
          rcases List.mem_cons.mp ha with ha | ha
          · subst ha
            exact h2
          · exact h1 a ha
    · exact hPW2.imp (fun hxy => hxy.elim (fun h1 => Or.inl (List.mem_cons_of_mem _ h1)) Or.inr)
    · intro a ha
      rcases List.mem_cons.mp ha with ha | ha
      · subst ha
        exact hPn a hiP
      · exact hH a ha
    · intro x hx
      exact hPn x (by simp [hx])
  · left
    have hiH : i ∈ H := hA i hi
    refine ⟨rfl, fun a ha => hA a (List.mem_filter.mp ha).1, ?_, ?_, hH, ?_⟩
    · intro x hx
      rcases List.mem_cons.mp hx with hx | hx
      · subst hx
        exact Or.inl hiH
      · exact hP x hx
    · refine List.pairwise_cons.mpr ⟨?_, hPW⟩
      intro y hy
      rcases hP y hy with h1 | h1
      · exact Or.inl h1
      · exact Or.inr (h1 i hiH)
    · intro x hx
      rcases List.mem_cons.mp hx with hx | hx
      · subst hx
        exact hH x hiH
      · exact hPn x hx
  · left
    exact ⟨rfl, fun a ha => hA a (List.mem_filter.mp ha).1, hP, hPW, hH, hPn⟩

theorem run_accept_order (cfg : paxos_config_t) (ops : List Op) :
    ∀ (p : proposer) (H : List Nat),
      AcceptOrderInv H (iids p.prepare_instances) (iids p.accept_instances)
        p.next_prepare_iid →
      AcceptOrder H (accept_iids (run cfg p ops).2) := by
  induction ops with
  | nil =>
    intro p H _
    simp [run, accept_iids, AcceptOrder]
  | cons op ops ih =>
    intro p H hinv
    cases hs : step cfg p op with
    | none => simp [run_cons_none cfg p op ops hs, accept_iids, AcceptOrder]
    | some r =>
      obtain ⟨p1, outs⟩ := r
      rw [run_cons_some cfg p p1 op ops outs hs]
      simp only [accept_iids_append]
      rcases AcceptOrderInv_step _ _ _ _ _ _ _ _ (step_iids cfg p op p1 outs hs).1 hinv with
        ⟨hacc, hinv1⟩ | ⟨i, hacc, hcond, hinv1⟩
      · rw [hacc]
        exact ih p1 H hinv1
      · rw [hacc]
        exact ⟨hcond, ih p1 (i :: H) hinv1⟩

theorem AcceptOrder_split (L : List Nat) :
    ∀ (S l1 : List Nat) (i : Nat) (l2 : List Nat), AcceptOrder S L → L = l1 ++ i :: l2 →
      (i ∈ l1 ∨ i ∈ S) ∨ ∀ j, j ∈ l1 ∨ j ∈ S → j < i := by
  induction L with
  | nil =>
    intro S l1 i l2 _ hL
    simp at hL
  | cons x L ih =>
    intro S l1 i l2 hord hL
    obtain ⟨hx, hrest⟩ := hord
    cases l1 with
    | nil =>
      simp only [List.nil_append, List.cons.injEq] at hL
      obtain ⟨rfl, -⟩ := hL
      rcases hx with h | h
      · exact Or.inl (Or.inr h)
      · right
        intro j hj
        rcases hj with hj | hj
        · simp at hj
        · exact h j hj
    | cons y l1 =>
      simp only [List.cons_append, List.cons.injEq] at hL
      obtain ⟨rfl, hL⟩ := hL
      rcases ih (x :: S) l1 i l2 hrest hL with h | h
      · left
        rcases h with h | h
        · exact Or.inl (List.mem_cons_of_mem _ h)
        · rcases List.mem_cons.mp h with h | h
          · exact Or.inl (h ▸ List.mem_cons_self _ _)
          · exact Or.inr h
      · right
        intro j hj
        rcases hj with hj | hj
        · rcases List.mem_cons.mp hj with hj | hj
          · exact h j (Or.inr (hj ▸ List.mem_cons_self _ _))
          · exact h j (Or.inl hj)
        · exact h j (Or.inr (List.mem_cons_of_mem _ hj))

/-- Counterexample to C9: proposer 1 prepares instances 1 and 2, both reach quorum and
are accepted in the order 1, 2; an ACCEPTED for instance 1 with ballot 21 preempts it,
it reaches quorum again at ballot 21 and `proposer_accept` returns an AcceptRequest for
IID 1 after the one for IID 2. -/
theorem accept_iid_repeats_after_larger :
    accept_iids (run ⟨1000000⟩ (proposer_new 1)
      [Op.propose [120], Op.propose [121], Op.prepare ⟨0, 0⟩, Op.prepare ⟨0, 0⟩,
        Op.receive_prepare_ack ⟨1, 1, 11, 0, []⟩ ⟨0, 0⟩ ⟨0, 0⟩,
        Op.receive_prepare_ack ⟨1, 2, 11, 0, []⟩ ⟨0, 0⟩ ⟨0, 0⟩,
        Op.receive_prepare_ack ⟨2, 1, 11, 0, []⟩ ⟨0, 0⟩ ⟨0, 0⟩,
        Op.receive_prepare_ack ⟨2, 2, 11, 0, []⟩ ⟨0, 0⟩ ⟨0, 0⟩,
        Op.accept, Op.accept,
        Op.receive_accept_ack ⟨1, 1, 21, 21⟩ ⟨0, 0⟩ ⟨0, 0⟩,
        Op.receive_prepare_ack ⟨1, 1, 21, 0, []⟩ ⟨0, 0⟩ ⟨0, 0⟩,
        Op.receive_prepare_ack ⟨1, 2, 21, 0, []⟩ ⟨0, 0⟩ ⟨0, 0⟩,
        Op.accept]).2 = [1, 2, 1] := by
  decide

/-- C9 (amended): in every run of a proposer obtained from `proposer_new`, each
AcceptRequest returned by `proposer_accept` carries an IID that either was carried by
an earlier AcceptRequest (the instance was preempted and is accepted again) or is
greater than the IIDs of all earlier AcceptRequests: the first AcceptRequests of the
instances appear in increasing IID order. -/
theorem accept_iids_first_in_order (cfg : paxos_config_t) (id : Nat) (ops : List Op)
    (l1 : List Nat) (i : Nat) (l2 : List Nat)
    (h : accept_iids (run cfg (proposer_new id) ops).2 = l1 ++ i :: l2) :
    i ∈ l1 ∨ ∀ j ∈ l1, j < i := by
  have hinv : AcceptOrderInv [] (iids (proposer_new id).prepare_instances)
      (iids (proposer_new id).accept_instances) (proposer_new id).next_prepare_iid := by
    simp [AcceptOrderInv, proposer_new, iids]
  have hord := run_accept_order cfg ops (proposer_new id) [] hinv
  rcases AcceptOrder_split _ [] l1 i l2 hord h with h1 | h1
  · rcases h1 with h1 | h1
    · exact Or.inl h1
    · simp at h1
  · exact Or.inr (fun j hj => h1 j (Or.inl hj))

/-- Witness of C9 (amended): in the run of the counterexample the AcceptRequests carry
the IIDs 1, 2, 1; the last one repeats the IID of the first. -/
theorem accept_iids_first_in_order_witness :
    1 ∈ [1, 2] ∨ ∀ j ∈ [1, 2], j < 1 :=
  accept_iids_first_in_order ⟨1000000⟩ 1
    [Op.propose [120], Op.propose [121], Op.prepare ⟨0, 0⟩, Op.prepare ⟨0, 0⟩,
      Op.receive_prepare_ack ⟨1, 1, 11, 0, []⟩ ⟨0, 0⟩ ⟨0, 0⟩,
      Op.receive_prepare_ack ⟨1, 2, 11, 0, []⟩ ⟨0, 0⟩ ⟨0, 0⟩,
      Op.receive_prepare_ack ⟨2, 1, 11, 0, []⟩ ⟨0, 0⟩ ⟨0, 0⟩,
      Op.receive_prepare_ack ⟨2, 2, 11, 0, []⟩ ⟨0, 0⟩ ⟨0, 0⟩,
      Op.accept, Op.accept,
      Op.receive_accept_ack ⟨1, 1, 21, 21⟩ ⟨0, 0⟩ ⟨0, 0⟩,
      Op.receive_prepare_ack ⟨1, 1, 21, 0, []⟩ ⟨0, 0⟩ ⟨0, 0⟩,
      Op.receive_prepare_ack ⟨1, 2, 21, 0, []⟩ ⟨0, 0⟩ ⟨0, 0⟩,
      Op.accept] [1, 2] 1 [] (by decide)

/-! ## Ballots are tagged with the proposer id -/

theorem proposer_next_ballot_mod (p : proposer) (id b : Nat) (hid : p.id = id)
    (hlt : id < MAX_N_OF_PROPOSERS) (hb : b % MAX_N_OF_PROPOSERS = id) :
    proposer_next_ballot p b % MAX_N_OF_PROPOSERS = id := by
  simp only [MAX_N_OF_PROPOSERS] at *
  by_cases h : b > 0
  · simp only [proposer_next_ballot, h, if_true, MAX_N_OF_PROPOSERS]
    omega
  · simp only [proposer_next_ballot, h, if_false, MAX_N_OF_PROPOSERS]
    omega

theorem ballot_step (cfg : paxos_config_t) (id : Nat) (hlt : id < MAX_N_OF_PROPOSERS)
    (p : proposer) (op : Op) (p1 : proposer) (outs : List Output)
    (hinv : p.id = id ∧ (∀ x ∈ p.prepare_instances, x.ballot % MAX_N_OF_PROPOSERS = id) ∧
      (∀ x ∈ p.accept_instances, x.ballot % MAX_N_OF_PROPOSERS = id))
    (h : step cfg p op = some (p1, outs)) :
    (p1.id = id ∧ (∀ x ∈ p1.prepare_instances, x.ballot % MAX_N_OF_PROPOSERS = id) ∧
      (∀ x ∈ p1.accept_instances, x.ballot % MAX_N_OF_PROPOSERS = id)) ∧
    (∀ o ∈ outs, o.ballot % MAX_N_OF_PROPOSERS = id) := by
  obtain ⟨hid, hP, hA⟩ := hinv
  have hnext : ∀ x : Instance, x.ballot % MAX_N_OF_PROPOSERS = id →
      proposer_next_ballot p x.ballot % MAX_N_OF_PROPOSERS = id :=
    fun x hx => proposer_next_ballot_mod p id x.ballot hid hlt hx
  have hset : ∀ (tbl : List Instance) (i : Nat) (y : Instance),
      (∀ x ∈ tbl, x.ballot % MAX_N_OF_PROPOSERS = id) →
      y.ballot % MAX_N_OF_PROPOSERS = id →
      ∀ x ∈ tbl.set i y, x.ballot % MAX_N_OF_PROPOSERS = id := by
    intro tbl i y htbl hy x hx
    rcases List.mem_or_eq_of_mem_set hx with h1 | h1
    · exact htbl x h1
    · exact h1 ▸ hy
  cases op with
  | propose value =>
    simp only [step, Option.some.injEq, Prod.mk.injEq] at h
    obtain ⟨rfl, rfl⟩ := h
    exact ⟨⟨hid, hP, hA⟩, by simp⟩
  | prepare now =>
    simp only [step, Option.some.injEq, Prod.mk.injEq] at h
    obtain ⟨rfl, rfl⟩ := h
    have h0 : proposer_next_ballot p 0 % MAX_N_OF_PROPOSERS = id := by
      simp only [proposer_next_ballot, MAX_N_OF_PROPOSERS, hid] at *
      simp
      omega
    refine ⟨⟨hid, ?_, hA⟩, ?_⟩
    · intro x hx
      simp only [proposer_prepare, carray_push_back, List.mem_append,
        List.mem_singleton] at hx
      rcases hx with hx | hx
      · exact hP x hx
      · subst hx
        simpa [instance_new, proposer_next_ballot] using h0
    · intro o ho
      simp only [proposer_prepare, List.mem_singleton] at ho
      subst ho
      simpa [Output.ballot, instance_new, proposer_next_ballot] using h0
  | receive_prepare_ack ack out now =>
    simp only [step, Option.some.injEq, Prod.mk.injEq] at h
    obtain ⟨rfl, rfl⟩ := h
    rcases proposer_receive_prepare_ack_cases p ack out now with hr | hr | hr
    · rw [hr]
      exact ⟨⟨hid, hP, hA⟩, by simp⟩
    · obtain ⟨i, inst, inst1, vs, hfind, -, -, hbal, hr⟩ := hr
      rw [hr]
      have hinst := hP inst (instance_find_get _ _ _ _ hfind).2.2
      exact ⟨⟨hid, hset _ i inst1 hP (hbal ▸ hinst), hA⟩, by simp⟩
    · obtain ⟨i, inst, hfind, -, hr⟩ := hr
      rw [hr]
      have hinst := hnext inst (hP inst (instance_find_get _ _ _ _ hfind).2.2)
      refine ⟨⟨hid, hset _ i _ hP hinst, hA⟩, ?_⟩
      intro o ho
      simp only [if_true, List.mem_singleton] at ho
      subst ho
      exact hinst
  | accept =>
    have hsub : ∀ x ∈ p.prepare_instances.dropWhile (fun x => x.closed),
        x.ballot % MAX_N_OF_PROPOSERS = id :=
      fun x hx => hP x ((List.dropWhile_sublist _).subset hx)
    rcases proposer_accept_cases p with hr | hr
    · simp only [step, hr, Option.some.injEq, Prod.mk.injEq] at h
      obtain ⟨rfl, rfl⟩ := h
      exact ⟨⟨hid, hsub, hA⟩, by simp⟩
    · obtain ⟨hd, rest, v, vs, hPd, -, -, hr⟩ := hr
      simp only [step, hr, Option.some.injEq, Prod.mk.injEq] at h
      obtain ⟨rfl, rfl⟩ := h
      rw [hPd] at hsub
      have hhd := hsub hd (List.mem_cons_self _ _)
      refine ⟨⟨hid, fun x hx => hsub x (List.mem_cons_of_mem _ hx), ?_⟩, ?_⟩
      · intro x hx
        simp only [List.mem_append, List.mem_singleton] at hx
        rcases hx with hx | hx
        · exact hA x hx
        · subst hx
          exact hhd
      · intro o ho
        simp only [List.mem_singleton] at ho
        subst ho
        exact hhd
  | receive_accept_ack ack out now =>
    rcases proposer_receive_accept_ack_cases p ack out now with hr | hr | hr | hr
    · simp [step, hr] at h
    · simp only [step, hr, Option.some.injEq, Prod.mk.injEq] at h
      obtain ⟨rfl, rfl⟩ := h
      exact ⟨⟨hid, hP, hA⟩, by simp⟩
    · obtain ⟨i, inst, inst1, hfind, -, -, hbal, hr⟩ := hr
      have hinst := hA inst (instance_find_get _ _ _ _ hfind).2.2
      have hs := hset _ i inst1 hA (hbal ▸ hinst)
      rcases hr with hr | hr
      · simp only [step, hr, Option.some.injEq, Prod.mk.injEq] at h
        obtain ⟨rfl, rfl⟩ := h
        exact ⟨⟨hid, hP, hs⟩, by simp⟩
      · simp only [step, hr, Option.some.injEq, Prod.mk.injEq] at h
        obtain ⟨rfl, rfl⟩ := h
        exact ⟨⟨hid, hP, fun x hx => hs x ((mem_instance_remove _ _ _).mp hx).1⟩, by simp⟩
    · obtain ⟨i, inst, hfind, -, hr⟩ := hr
      simp only [step, hr, Option.some.injEq, Prod.mk.injEq] at h
      obtain ⟨rfl, rfl⟩ := h
      have hinst := hnext inst (hA inst (instance_find_get _ _ _ _ hfind).2.2)
      refine ⟨⟨hid, ?_, fun x hx => hA x ((mem_instance_remove _ _ _).mp hx).1⟩, ?_⟩
      · intro x hx
        rcases List.mem_cons.mp hx with hx | hx
        · subst hx
          exact hinst
        · exact hP x hx
      · intro o ho
        simp only [if_true, List.mem_singleton] at ho
        subst ho
        exact hinst
  | timeout_iterator_next iter req now =>
    simp only [step, Option.some.injEq, Prod.mk.injEq] at h
    obtain ⟨rfl, rfl⟩ := h
    rcases timeout_iterator_next_cases cfg iter p req now with hr | hr | hr
    · obtain ⟨hr0, hr⟩ := hr
      rw [hr, hr0]
      exact ⟨⟨hid, hP, hA⟩, by simp⟩
    · obtain ⟨i, inst, hget, hr1, hr⟩ := hr
      rw [hr, hr1]
      have hinst := hP inst (List.getElem?_mem hget)
      refine ⟨⟨hid, hset _ i _ hP hinst, hA⟩, ?_⟩
      intro o ho
      simp only [if_true, List.mem_singleton] at ho
      subst ho
      exact hinst
    · obtain ⟨i, inst, hget, hr1, hr⟩ := hr
      rw [hr, hr1]
      have hinst := hnext inst (hA inst (List.getElem?_mem hget))
      refine ⟨⟨hid, ?_, ?_⟩, ?_⟩
      · intro x hx
        rcases List.mem_cons.mp hx with hx | hx
        · subst hx
          exact hinst
        · exact hP x hx
      · intro x hx
        exact hset _ i _ hA hinst x ((mem_instance_remove _ _ _).mp hx).1
      · intro o ho
        simp only [if_true, List.mem_singleton] at ho
        subst ho
        exact hinst

theorem run_ballots (cfg : paxos_config_t) (id : Nat) (hlt : id < MAX_N_OF_PROPOSERS)
    (ops : List Op) :
    ∀ p : proposer,
      (p.id = id ∧ (∀ x ∈ p.prepare_instances, x.ballot % MAX_N_OF_PROPOSERS = id) ∧
        (∀ x ∈ p.accept_instances, x.ballot % MAX_N_OF_PROPOSERS = id)) →
      ∀ o ∈ (run cfg p ops).2, o.ballot % MAX_N_OF_PROPOSERS = id := by
  induction ops with
  | nil =>
    intro p _ o ho
    simp [run] at ho
  | cons op ops ih =>
    intro p hinv o ho
    cases hs : step cfg p op with
    | none => simp [run_cons_none cfg p op ops hs] at ho
    | some r =>
      obtain ⟨p1, outs⟩ := r
      rw [run_cons_some cfg p p1 op ops outs hs] at ho
      obtain ⟨hinv1, houts⟩ := ballot_step cfg id hlt p op p1 outs hinv hs
      rcases List.mem_append.mp ho with h | h
      · exact houts o h
      · exact ih p1 hinv1 o h

/-- C2: for a proposer created by `proposer_new id` with `id` in `[1, B-1]` and every
finite sequence of calls with arbitrary message contents, every PrepareRequest and
every AcceptRequest handed back carries a ballot `b` with `b mod B = id`. -/
theorem emitted_ballot_mod (cfg : paxos_config_t) (id : Nat) (ops : List Op)
    (_hlo : 1 ≤ id) (hhi : id ≤ MAX_N_OF_PROPOSERS - 1) :
    ∀ o ∈ (run cfg (proposer_new id) ops).2, o.ballot % MAX_N_OF_PROPOSERS = id := by
  have hlt : id < MAX_N_OF_PROPOSERS := by
    simp only [MAX_N_OF_PROPOSERS] at *
    omega
  exact run_ballots cfg id hlt ops (proposer_new id) ⟨rfl, by simp [proposer_new],
    by simp [proposer_new]⟩

/-- Witness of C2 (scenario S5): proposer 1 hands back the requests `{1, 11}`,
`{1, 11, x}` and, after a preemption in the accept phase, `{1, 21}`, whose ballot is 1
modulo 10. -/
theorem emitted_ballot_mod_witness :
    (Output.prepare ⟨1, 21⟩).ballot % MAX_N_OF_PROPOSERS = 1 :=
  emitted_ballot_mod ⟨1000000⟩ 1
    [Op.propose [120], Op.prepare ⟨0, 0⟩,
      Op.receive_prepare_ack ⟨1, 1, 11, 0, []⟩ ⟨0, 0⟩ ⟨0, 0⟩,
      Op.receive_prepare_ack ⟨1, 2, 11, 0, []⟩ ⟨0, 0⟩ ⟨0, 0⟩,
      Op.accept,
      Op.receive_accept_ack ⟨1, 1, 21, 0⟩ ⟨0, 0⟩ ⟨0, 0⟩] (by decide) (by decide)
    (Output.prepare ⟨1, 21⟩) (by decide)

/-! ## The IIDs of the two tables are distinct -/

theorem IidStep_nodup (P A : List Nat) (n : Nat) (P1 A1 : List Nat) (n1 : Nat)
    (acc : List Nat) (h : IidStep P A n P1 A1 n1 acc)
    (hP : ∀ a ∈ P, a ≤ n) (hA : ∀ a ∈ A, a ≤ n) (hnd : (P ++ A).Nodup) :
    (P1 ++ A1).Nodup := by
  rcases h with ⟨d, rfl, rfl, rfl, -⟩ | ⟨rfl, rfl, rfl, -⟩ | ⟨d, i, rfl, rfl, rfl, -⟩ |
    ⟨i, hi, rfl, rfl, rfl, -⟩ | ⟨i, rfl, rfl, rfl, -⟩
  · rw [List.append_assoc] at hnd
    exact (List.nodup_append.mp hnd).2.1
  · have h1 : n + 1 ∉ P := fun h => by have := hP _ h; omega
    have h2 : n + 1 ∉ A1 := fun h => by have := hA _ h; omega
    have hperm : (P ++ [n + 1] ++ A1).Perm ((n + 1) :: (P ++ A1)) := by
      rw [List.append_assoc]
      exact List.perm_middle
    rw [hperm.nodup_iff, List.nodup_cons]
    exact ⟨by simp [h1, h2], hnd⟩
  · have hnd1 : (i :: (P1 ++ A)).Nodup := by
      rw [List.append_assoc] at hnd
      exact (List.nodup_append.mp hnd).2.1
    have hperm : (P1 ++ (A ++ [i])).Perm (i :: (P1 ++ A)) := by
      rw [← List.append_assoc]
      exact List.perm_append_singleton _ _
    exact hperm.nodup_iff.mpr hnd1
  · have hsub : (P ++ A.filter (fun a => !decide (a = i))).Sublist (P ++ A) :=
      List.Sublist.append_left (List.filter_sublist _) _
    have hiP : i ∉ P := fun h => (List.nodup_append.mp hnd).2.2 h hi
    rw [List.cons_append, List.nodup_cons]
    refine ⟨?_, hnd.sublist hsub⟩
    simp [hiP]
  · exact hnd.sublist (List.Sublist.append_left (List.filter_sublist _) _)

/-- In every reachable state no IID occurs twice in the two tables taken together. -/
theorem reachable_iids_nodup (cfg : paxos_config_t) (id : Nat) (ops : List Op) (p : proposer)
    (h : (run cfg (proposer_new id) ops).1 = some p) :
    (iids p.prepare_instances ++ iids p.accept_instances).Nodup := by
  have key := run_state_induction cfg
    (fun q => ((∀ a ∈ iids q.prepare_instances, a ≤ q.next_prepare_iid) ∧
      (∀ a ∈ iids q.accept_instances, a ≤ q.next_prepare_iid)) ∧
      (iids q.prepare_instances ++ iids q.accept_instances).Nodup)
    ?_ ops (proposer_new id) p ?_ h
  · exact key.2
  · intro q op q1 outs hq hs
    have hst := (step_iids cfg q op q1 outs hs).1
    exact ⟨IidStep_bound _ _ _ _ _ _ _ hst hq.1.1 hq.1.2,
      IidStep_nodup _ _ _ _ _ _ _ hst hq.1.1 hq.1.2 hq.2⟩
  · simp [proposer_new, iids]

/-! ## Completing the accept quorum -/

/-- The outcomes of `proposer_receive_accept_ack` in an arbitrary state, reachable or
not: an ACCEPTED whose IID is not in the accept table returns 0 and changes nothing.
When the instance `inst` that `proposer_receive_accept_ack` looks up in the accept
table (the first with `ack.iid`) has `inst.ballot = ack.ballot`: with
`ack.value_ballot ≠ inst.ballot` the assertion fails; otherwise the call returns 0 and
(a) if the acceptor is already in the quorum the state is unchanged, (b) if adding it
makes the quorum reached, every instance with that IID is removed from the accept
table and the other instances and the prepare table are untouched, (c) otherwise the
only change is that the acceptor is added to the quorum of `inst`. -/
theorem proposer_receive_accept_ack_any_state (p : proposer) (ack : accept_ack)
    (out : prepare_req) (now : timeval) :
    ((∀ x ∈ p.accept_instances, x.iid ≠ ack.iid) →
      proposer_receive_accept_ack p ack out now = some (0, p, out)) ∧
    (∀ (cfg : paxos_config_t) (id : Nat) (ops : List Op),
      (run cfg (proposer_new id) ops).1 = some p →
      (∃ x ∈ p.accept_instances, x.iid = ack.iid) →
      ∀ y ∈ p.prepare_instances, y.iid ≠ ack.iid) ∧
    (∀ (pre post : List Instance) (inst : Instance),
      p.accept_instances = pre ++ inst :: post → (∀ x ∈ pre, x.iid ≠ ack.iid) →
      inst.iid = ack.iid → ack.ballot = inst.ballot →
      (ack.value_ballot ≠ inst.ballot → proposer_receive_accept_ack p ack out now = none) ∧
      (ack.value_ballot = inst.ballot →
        (ack.acceptor_id ∈ inst.quorum.acceptor_ids →
          proposer_receive_accept_ack p ack out now = some (0, p, out)) ∧
        (ack.acceptor_id ∉ inst.quorum.acceptor_ids →
          quorum_reached ⟨inst.quorum.target, insert ack.acceptor_id inst.quorum.acceptor_ids⟩
            = true →
          proposer_receive_accept_ack p ack out now =
            some (0, { p with accept_instances :=
                        pre ++ post.filter (fun x => !decide (x.iid = ack.iid)) }, out) ∧
          (∀ x ∈ pre ++ post.filter (fun x => !decide (x.iid = ack.iid)), x.iid ≠ ack.iid) ∧
          ((∀ x ∈ p.prepare_instances, x.iid ≠ ack.iid) →
            ∀ r, proposer_receive_accept_ack p ack out now = some r →
              ∀ x ∈ r.2.1.prepare_instances ++ r.2.1.accept_instances, x.iid ≠ ack.iid)) ∧
        (ack.acceptor_id ∉ inst.quorum.acceptor_ids →
          quorum_reached ⟨inst.quorum.target, insert ack.acceptor_id inst.quorum.acceptor_ids⟩
            = false →
          proposer_receive_accept_ack p ack out now =
            some (0, { p with accept_instances :=
                        pre ++ { inst with quorum :=
                          ⟨inst.quorum.target,
                            insert ack.acceptor_id inst.quorum.acceptor_ids⟩ } :: post },
                  out)))) := by
  refine ⟨?_, ?_, ?_⟩
  · intro hno
    have hnone := (instance_find_none p.accept_instances ack.iid).mpr hno
    simp only [proposer_receive_accept_ack, hnone]
  · intro cfg id ops hrun hx y hy hyiid
    obtain ⟨x, hx, hxiid⟩ := hx
    have hnd := reachable_iids_nodup cfg id ops p hrun
    have h1 : ack.iid ∈ iids p.prepare_instances := hyiid ▸ List.mem_map_of_mem _ hy
    have h2 : ack.iid ∈ iids p.accept_instances := hxiid ▸ List.mem_map_of_mem _ hx
    exact (List.nodup_append.mp hnd).2.2 h1 h2
  · intro pre post inst htab hpre hiid hb
    have hfind := instance_find_split pre post inst ack.iid hpre hiid
    refine ⟨?_, ?_⟩
    · intro hvb
      simp only [proposer_receive_accept_ack, htab, hfind, hb, hvb, if_true, if_false]
    · intro hvb
      have hrem : ∀ y : Instance, y.iid = ack.iid →
          instance_remove (pre ++ y :: post) y =
            pre ++ post.filter (fun x => !decide (x.iid = ack.iid)) := by
        intro y hy
        rw [instance_remove_split pre post y (by rw [hy]; exact hpre), hy]
      have hnomatch : ∀ x ∈ pre ++ post.filter (fun x => !decide (x.iid = ack.iid)),
          x.iid ≠ ack.iid := by
        intro x hx
        rcases List.mem_append.mp hx with h | h
        · exact hpre x h
        · simpa using (List.mem_filter.mp h).2
      refine ⟨?_, ?_, ?_⟩
      · intro hq
        simp only [proposer_receive_accept_ack, htab, hfind, hb, hvb, if_true, quorum_add, hq]
      · intro hq hreach
        have heq : proposer_receive_accept_ack p ack out now =
            some (0, { p with accept_instances :=
                        pre ++ post.filter (fun x => !decide (x.iid = ack.iid)) }, out) := by
          simp only [proposer_receive_accept_ack, htab, hfind, hb, hvb, if_true, if_false,
            quorum_add, hq, hreach, set_split]
          rw [hrem { inst with quorum :=
            ⟨inst.quorum.target, insert ack.acceptor_id inst.quorum.acceptor_ids⟩ } hiid]
        refine ⟨heq, hnomatch, ?_⟩
        intro hprep r hr x hx
        rw [heq] at hr
        cases hr
        rcases List.mem_append.mp hx with h | h
        · exact hprep x h
        · exact hnomatch x h
      · intro hq hreach
        simp [proposer_receive_accept_ack, htab, hfind, hb, hvb, quorum_add, hq, hreach,
          set_split]

/-! ## Stale PROMISEs, preemption in phase 2, disjoint tables -/

/-- C12: a stale PROMISE is a no-op.  If no instance of the prepare table has
`ack.iid`, or the instance `inst` that `proposer_receive_prepare_ack` looks up has
`ack.ballot < inst.ballot`, or `ack.ballot = inst.ballot` and the acceptor is already in
the quorum of `inst`, the call returns 0 and the whole proposer state is unchanged,
whatever value the ack carries. -/
theorem proposer_receive_prepare_ack_stale (p : proposer) (ack : prepare_ack)
    (out : prepare_req) (now : timeval) :
    ((∀ x ∈ p.prepare_instances, x.iid ≠ ack.iid) →
      proposer_receive_prepare_ack p ack out now = (0, p, out)) ∧
    (∀ (pre post : List Instance) (inst : Instance),
      p.prepare_instances = pre ++ inst :: post → (∀ x ∈ pre, x.iid ≠ ack.iid) →
      inst.iid = ack.iid →
      (ack.ballot < inst.ballot →
        proposer_receive_prepare_ack p ack out now = (0, p, out)) ∧
      (ack.ballot = inst.ballot → ack.acceptor_id ∈ inst.quorum.acceptor_ids →
        proposer_receive_prepare_ack p ack out now = (0, p, out))) := by
  refine ⟨?_, ?_⟩
  · intro hno
    have hnone := (instance_find_none p.prepare_instances ack.iid).mpr hno
    simp only [proposer_receive_prepare_ack, hnone]
  · intro pre post inst htab hpre hiid
    have hfind := instance_find_split pre post inst ack.iid hpre hiid
    refine ⟨?_, ?_⟩
    · intro hlt
      simp only [proposer_receive_prepare_ack, htab, hfind, hlt, if_true]
    · intro hb hq
      simp only [proposer_receive_prepare_ack, htab, hfind, hb, lt_self_iff_false, if_false,
        if_true, quorum_add, hq]

/-- Witness of C12: instance 1 runs ballot 21 with acceptor 1 in its quorum; a PROMISE
of acceptor 1 at ballot 21 carrying a value is dropped and nothing changes. -/
theorem proposer_receive_prepare_ack_stale_witness :
    proposer_receive_prepare_ack
        ⟨1, [⟨[120]⟩], 1, [⟨1, 21, 0, none, false, ⟨2, {1}⟩, ⟨0, 0⟩⟩], []⟩
        ⟨1, 1, 21, 5, [121]⟩ ⟨0, 0⟩ ⟨9, 0⟩ =
      (0, ⟨1, [⟨[120]⟩], 1, [⟨1, 21, 0, none, false, ⟨2, {1}⟩, ⟨0, 0⟩⟩], []⟩, ⟨0, 0⟩) :=
  ((proposer_receive_prepare_ack_stale
      ⟨1, [⟨[120]⟩], 1, [⟨1, 21, 0, none, false, ⟨2, {1}⟩, ⟨0, 0⟩⟩], []⟩
      ⟨1, 1, 21, 5, [121]⟩ ⟨0, 0⟩ ⟨9, 0⟩).2 [] []
      ⟨1, 21, 0, none, false, ⟨2, {1}⟩, ⟨0, 0⟩⟩ rfl (by simp) rfl).2 rfl (by decide)

theorem iids_nodup_split (pre post : List Instance) (inst : Instance)
    (h : (iids (pre ++ inst :: post)).Nodup) :
    (∀ x ∈ pre, x.iid ≠ inst.iid) ∧ (∀ x ∈ post, x.iid ≠ inst.iid) := by
  simp only [iids, List.map_append, List.map_cons] at h
  obtain ⟨-, h2, h3⟩ := List.nodup_append.mp h
  obtain ⟨h4, -⟩ := List.nodup_cons.mp h2
  refine ⟨?_, ?_⟩
  · intro x hx he
    exact h3 (List.mem_map_of_mem _ hx) (he ▸ List.mem_cons_self _ _)
  · intro x hx he
    exact h4 (he ▸ List.mem_map_of_mem _ hx)

theorem filter_iid_ne_self (post : List Instance) (iid : Nat)
    (h : ∀ x ∈ post, x.iid ≠ iid) :
    post.filter (fun x => !decide (x.iid = iid)) = post := by
  apply List.filter_eq_self.mpr
  intro x hx
  simp [h x hx]

/-- C11: in every reachable state, an ACCEPTED for an instance `inst` of the accept
table with `ack.ballot ≠ inst.ballot` (higher or lower) makes
`proposer_receive_accept_ack` return 1 with `{inst.iid, next_ballot(inst.ballot)}`;
`inst` leaves the accept table and becomes the first element of the prepare table with
the new ballot, an empty quorum and its value and value ballot; the other instances
keep their order in both tables and the value queue is unchanged. -/
theorem proposer_receive_accept_ack_preempt (cfg : paxos_config_t) (id : Nat)
    (ops : List Op) (p : proposer) (ack : accept_ack) (out : prepare_req) (now : timeval)
    (pre post : List Instance) (inst : Instance)
    (hrun : (run cfg (proposer_new id) ops).1 = some p)
    (htab : p.accept_instances = pre ++ inst :: post)
    (hiid : inst.iid = ack.iid) (hb : ack.ballot ≠ inst.ballot) :
    proposer_receive_accept_ack p ack out now =
      some (1,
        { p with
            accept_instances := pre ++ post,
            prepare_instances :=
              { inst with ballot := proposer_next_ballot p inst.ballot,
                          quorum := ⟨QUORUM, ∅⟩,
                          created_at := now } :: p.prepare_instances },
        ⟨inst.iid, proposer_next_ballot p inst.ballot⟩) ∧
    (∀ x ∈ pre ++ post, x.iid ≠ inst.iid) := by
  have hnd := reachable_iids_nodup cfg id ops p hrun
  have hndA : (iids p.accept_instances).Nodup := (List.nodup_append.mp hnd).2.1
  rw [htab] at hndA
  obtain ⟨hpre, hpost⟩ := iids_nodup_split pre post inst hndA
  have hfind := instance_find_split pre post inst ack.iid (hiid ▸ hpre) hiid
  refine ⟨?_, ?_⟩
  · simp only [proposer_receive_accept_ack, htab, hfind, hb, if_false, prepare_preempt,
      carray_push_front, quorum_init, List.set_cons_zero, proposer_next_ballot]
    rw [instance_remove_split pre post inst hpre, filter_iid_ne_self post inst.iid hpost]
  · intro x hx
    rcases List.mem_append.mp hx with h | h
    · exact hpre x h
    · exact hpost x h

/-- Witness of C11 (scenario S5): after the AcceptRequest `{1, 11, x}`, an ACCEPTED for
instance 1 with ballot 21 returns `{1, 21}` and the instance heads the prepare table,
still bound to `x` with value ballot 0. -/
theorem proposer_receive_accept_ack_preempt_witness :
    proposer_receive_accept_ack
        ⟨1, [], 1, [], [⟨1, 11, 0, some ⟨[120]⟩, false, ⟨2, ∅⟩, ⟨0, 0⟩⟩]⟩
        ⟨1, 1, 21, 21⟩ ⟨0, 0⟩ ⟨4, 0⟩ =
      some (1, ⟨1, [], 1, [⟨1, 21, 0, some ⟨[120]⟩, false, ⟨2, ∅⟩, ⟨4, 0⟩⟩], []⟩, ⟨1, 21⟩) :=
  (proposer_receive_accept_ack_preempt ⟨1000000⟩ 1
    [Op.propose [120], Op.prepare ⟨0, 0⟩,
      Op.receive_prepare_ack ⟨1, 1, 11, 0, []⟩ ⟨0, 0⟩ ⟨0, 0⟩,
      Op.receive_prepare_ack ⟨1, 2, 11, 0, []⟩ ⟨0, 0⟩ ⟨0, 0⟩,
      Op.accept]
    ⟨1, [], 1, [], [⟨1, 11, 0, some ⟨[120]⟩, false, ⟨2, ∅⟩, ⟨0, 0⟩⟩]⟩
    ⟨1, 1, 21, 21⟩ ⟨0, 0⟩ ⟨4, 0⟩ [] [] ⟨1, 11, 0, some ⟨[120]⟩, false, ⟨2, ∅⟩, ⟨0, 0⟩⟩
    rfl rfl rfl (by decide)).1

/-- C15: in every reachable state no IID occurs twice within the prepare table or
within the accept table, and no IID occurs in both; consequently a PROMISE whose IID
belongs to an instance of the accept table makes `proposer_receive_prepare_ack` return
0 and leaves the state unchanged. -/
theorem reachable_tables_disjoint (cfg : paxos_config_t) (id : Nat) (ops : List Op)
    (p : proposer) (hrun : (run cfg (proposer_new id) ops).1 = some p) :
    (iids p.prepare_instances).Nodup ∧ (iids p.accept_instances).Nodup ∧
    (∀ x ∈ p.prepare_instances, ∀ y ∈ p.accept_instances, x.iid ≠ y.iid) ∧
    (∀ (ack : prepare_ack) (out : prepare_req) (now : timeval),
      (∃ y ∈ p.accept_instances, y.iid = ack.iid) →
      proposer_receive_prepare_ack p ack out now = (0, p, out)) := by
  have hnd := reachable_iids_nodup cfg id ops p hrun
  obtain ⟨h1, h2, h3⟩ := List.nodup_append.mp hnd
  have hdis : ∀ x ∈ p.prepare_instances, ∀ y ∈ p.accept_instances, x.iid ≠ y.iid := by
    intro x hx y hy he
    exact h3 (List.mem_map_of_mem _ hx) (he ▸ List.mem_map_of_mem _ hy)
  refine ⟨h1, h2, hdis, ?_⟩
  intro ack out now hy
  obtain ⟨y, hy, hyiid⟩ := hy
  have hnone := (instance_find_none p.prepare_instances ack.iid).mpr
    (fun x hx => hyiid ▸ hdis x hx y hy)
  simp only [proposer_receive_prepare_ack, hnone]

/-- Witness of C15: in the state after the AcceptRequest `{1, 11, x}` of scenario S1,
a PROMISE for instance 1, which is in the accept table, is ignored. -/
theorem reachable_tables_disjoint_witness :
    proposer_receive_prepare_ack
        ⟨1, [], 1, [], [⟨1, 11, 0, some ⟨[120]⟩, false, ⟨2, ∅⟩, ⟨0, 0⟩⟩]⟩
        ⟨1, 3, 11, 0, []⟩ ⟨0, 0⟩ ⟨4, 0⟩ =
      (0, ⟨1, [], 1, [], [⟨1, 11, 0, some ⟨[120]⟩, false, ⟨2, ∅⟩, ⟨0, 0⟩⟩]⟩, ⟨0, 0⟩) :=
  (reachable_tables_disjoint ⟨1000000⟩ 1
    [Op.propose [120], Op.prepare ⟨0, 0⟩,
      Op.receive_prepare_ack ⟨1, 1, 11, 0, []⟩ ⟨0, 0⟩ ⟨0, 0⟩,
      Op.receive_prepare_ack ⟨1, 2, 11, 0, []⟩ ⟨0, 0⟩ ⟨0, 0⟩,
      Op.accept]
    ⟨1, [], 1, [], [⟨1, 11, 0, some ⟨[120]⟩, false, ⟨2, ∅⟩, ⟨0, 0⟩⟩]⟩ rfl).2.2.2
    ⟨1, 3, 11, 0, []⟩ ⟨0, 0⟩ ⟨4, 0⟩
    ⟨⟨1, 11, 0, some ⟨[120]⟩, false, ⟨2, ∅⟩, ⟨0, 0⟩⟩, List.mem_singleton.mpr rfl, rfl⟩

/-! ## Timeout of prepare-phase instances -/

theorem next_timedout_at (cfg : paxos_config_t) (t : timeval) (done todo : List Instance) :
    next_timedout cfg (done ++ todo) done.length t =
      next_timedout_loop cfg t todo done.length := by
  simp [next_timedout]

theorem proposer_set_prepare_self (p : proposer) :
    ({ p with prepare_instances := p.prepare_instances } : proposer) = p := by
  cases p
  rfl

theorem timeout_iterator_drain_prepare (cfg : paxos_config_t) (t : timeval)
    (todo : List Instance) :
    ∀ (done : List Instance) (clock : List timeval) (req : prepare_req) (p : proposer),
      p.prepare_instances = done ++ todo → p.accept_instances = [] →
      todo.length < clock.length →
      timeout_iterator_drain cfg clock ⟨done.length, 0, t⟩ p req =
        ((todo.filter (timeout_due cfg t)).map (fun x => (⟨x.iid, x.ballot⟩ : prepare_req)),
         { p with prepare_instances := done ++ refresh_due cfg t todo clock }, true) := by
  induction todo with
  | nil =>
    intro done clock req p hprep hacc hlen
    cases clock with
    | nil => simp at hlen
    | cons now clock =>
      have h1 : next_timedout cfg p.prepare_instances done.length t = (none, done.length) := by
        rw [hprep, next_timedout_at]
        rfl
      have h2 : next_timedout cfg p.accept_instances 0 t = (none, 0) := by
        rw [hacc]
        rfl
      have hr : timeout_iterator_next cfg ⟨done.length, 0, t⟩ p req now =
          (0, ⟨done.length, 0, t⟩, p, req) := by
        simp only [timeout_iterator_next, h1, h2]
      have hp : p.prepare_instances = done := by simpa using hprep
      simp only [timeout_iterator_drain, hr, if_true, List.filter_nil, List.map_nil,
        refresh_due, List.append_nil]
      rw [← hp, proposer_set_prepare_self]
  | cons x todo ih =>
    intro done clock req p hprep hacc hlen
    have hdone : (done ++ [x]).length = done.length + 1 := by simp
    have hprep1 : p.prepare_instances = (done ++ [x]) ++ todo := by simp [hprep]
    by_cases hdue : timeout_due cfg t x = true
    · cases clock with
      | nil => simp at hlen
      | cons now clock =>
        have hq : quorum_reached x.quorum = false := by
          simp only [timeout_due, Bool.and_eq_true, Bool.not_eq_true'] at hdue
          exact hdue.1
        have ht : instance_has_timedout cfg x t = true := by
          simp only [timeout_due, Bool.and_eq_true] at hdue
          exact hdue.2
        have h1 : next_timedout cfg p.prepare_instances done.length t =
            (some (done.length, x), done.length + 1) := by
          rw [hprep, next_timedout_at]
          simp [next_timedout_loop, hq, ht]
        have hr : timeout_iterator_next cfg ⟨done.length, 0, t⟩ p req now =
            (1, ⟨done.length + 1, 0, t⟩,
              { p with prepare_instances := (done ++ [{ x with created_at := now }]) ++ todo },
              ⟨x.iid, x.ballot⟩) := by
          rw [hprep] at h1
          simp only [timeout_iterator_next, hprep, h1, set_split]
          simp
        have hlen1 : todo.length < clock.length := by
          simp only [List.length_cons] at hlen
          omega
        have hih := ih (done ++ [{ x with created_at := now }]) clock ⟨x.iid, x.ballot⟩
          { p with prepare_instances := (done ++ [{ x with created_at := now }]) ++ todo }
          rfl hacc hlen1
        simp only [List.length_append, List.length_singleton] at hih
        simp only [timeout_iterator_drain, hr, one_ne_zero, if_false, hih]
        simp [List.filter_cons, hdue, refresh_due]
    · have hdue1 : timeout_due cfg t x = false := by simpa using hdue
      have hloop : next_timedout_loop cfg t (x :: todo) done.length =
          next_timedout_loop cfg t todo (done.length + 1) := by
        simp only [timeout_due, Bool.and_eq_false_imp, Bool.not_eq_true'] at hdue1
        by_cases hq : quorum_reached x.quorum = true
        · simp [next_timedout_loop, hq]
        · have hq1 : quorum_reached x.quorum = false := by simpa using hq
          have ht := hdue1 hq1
          simp [next_timedout_loop, hq1, ht]
      have hnt : next_timedout cfg p.prepare_instances done.length t =
          next_timedout cfg p.prepare_instances (done.length + 1) t := by
        rw [hprep, next_timedout_at, hloop, ← hdone]
        have := next_timedout_at cfg t (done ++ [x]) todo
        rw [← this]
        simp
      have hnext : ∀ now, timeout_iterator_next cfg ⟨done.length, 0, t⟩ p req now =
          timeout_iterator_next cfg ⟨done.length + 1, 0, t⟩ p req now := by
        intro now
        simp only [timeout_iterator_next, hnt]
      have hdrain : timeout_iterator_drain cfg clock ⟨done.length, 0, t⟩ p req =
          timeout_iterator_drain cfg clock ⟨done.length + 1, 0, t⟩ p req := by
        cases clock with
        | nil => rfl
        | cons now clock => simp only [timeout_iterator_drain, hnext]
      have hlen1 : todo.length < clock.length := by
        simp only [List.length_cons] at hlen
        omega
      have hih := ih (done ++ [x]) clock req p hprep1 hacc hlen1
      rw [hdone] at hih
      rw [hdrain, hih]
      cases clock with
      | nil => simp at hlen1
      | cons now clock => simp [List.filter_cons, hdue1, refresh_due]

theorem refresh_due_erase (cfg : paxos_config_t) (t : timeval) (l : List Instance) :
    ∀ clock : List timeval,
      (refresh_due cfg t l clock).map (fun x => { x with created_at := ⟨0, 0⟩ }) =
        l.map (fun x => { x with created_at := ⟨0, 0⟩ }) := by
  induction l with
  | nil =>
    intro clock
    cases clock <;> rfl
  | cons x l ih =>
    intro clock
    cases clock with
    | nil => rfl
    | cons now clock =>
      by_cases hdue : timeout_due cfg t x = true
      · simp [refresh_due, hdue, ih]
      · simp [refresh_due, hdue, ih]

theorem refresh_due_keep (cfg : paxos_config_t) (t : timeval) (l : List Instance) :
    ∀ (clock : List timeval) (i : Nat) (x : Instance),
      l[i]? = some x → timeout_due cfg t x = false →
      (refresh_due cfg t l clock)[i]? = some x := by
  induction l with
  | nil =>
    intro clock i x hx
    simp at hx
  | cons y l ih =>
    intro clock i x hx hdue
    cases clock with
    | nil => simpa [refresh_due] using hx
    | cons now clock =>
      cases i with
      | zero =>
        simp only [List.getElem?_cons_zero, Option.some.injEq] at hx
        subst hx
        simp [refresh_due, hdue]
      | succ i =>
        simp only [List.getElem?_cons_succ] at hx
        by_cases hy : timeout_due cfg t y = true
        · simpa [refresh_due, hy] using ih clock i x hx hdue
        · simpa [refresh_due, hy] using ih (now :: clock) i x hx hdue

theorem instance_has_timedout_iff (cfg : paxos_config_t) (inst : Instance) (t : timeval)
    (hpos : 0 < cfg.proposer_instance_timeout)
    (h1 : inst.created_at.normal) (h2 : t.normal)
    (hage : t.us - inst.created_at.us < 2147000000) :
    instance_has_timedout cfg inst t = true ↔
      t.us - inst.created_at.us ≥ cfg.proposer_instance_timeout := by
  obtain ⟨h1a, h1b⟩ := h1
  obtain ⟨h2a, h2b⟩ := h2
  simp only [timeval.us] at hage
  simp only [instance_has_timedout, timeval_diff, double_to_int, int_wrap, INT_MIN, INT_MAX,
    timeval.us, decide_eq_true_eq]
  split_ifs <;> constructor <;> intro h <;> omega

/-- The pass over the prepare table, for a state with an empty accept table and a
positive timeout: calling `timeout_iterator_next` on a fresh iterator created at `t`
until it returns 0 (with more clock readings than prepare-table instances the loop
ends) yields, in prepare-table order, exactly one request `{iid, ballot}` for each
prepare-table instance for which the test of `next_timedout` holds, and none for the
others; the requests carry the unchanged ballots; afterwards the state is the same
except that `created_at` of the yielded instances is refreshed from the clock: every
instance keeps its position and all other fields.  For an instance younger than 2147
seconds the test of `next_timedout` is: quorum not reached and
`t - created_at ≥ proposer_instance_timeout`. -/
theorem timeout_prepare_phase (cfg : paxos_config_t) (p : proposer) (t : timeval)
    (req : prepare_req) (clock : List timeval)
    (hacc : p.accept_instances = [])
    (hclock : p.prepare_instances.length < clock.length)
    (hpos : 0 < cfg.proposer_instance_timeout) :
    (timeout_iterator_drain cfg clock (proposer_timeout_iterator t) p req).1 =
      (p.prepare_instances.filter (timeout_due cfg t)).map
        (fun x => (⟨x.iid, x.ballot⟩ : prepare_req)) ∧
    (timeout_iterator_drain cfg clock (proposer_timeout_iterator t) p req).2.2 = true ∧
    (timeout_iterator_drain cfg clock (proposer_timeout_iterator t) p req).2.1 =
      { p with prepare_instances := refresh_due cfg t p.prepare_instances clock } ∧
    (refresh_due cfg t p.prepare_instances clock).map
        (fun x => { x with created_at := ⟨0, 0⟩ }) =
      p.prepare_instances.map (fun x => { x with created_at := ⟨0, 0⟩ }) ∧
    (∀ (i : Nat) (x : Instance), p.prepare_instances[i]? = some x →
      timeout_due cfg t x = false →
      (refresh_due cfg t p.prepare_instances clock)[i]? = some x) ∧
    (∀ x : Instance, x.created_at.normal → t.normal →
      t.us - x.created_at.us < 2147000000 →
      (timeout_due cfg t x = true ↔
        (quorum_reached x.quorum = false ∧
          t.us - x.created_at.us ≥ cfg.proposer_instance_timeout))) := by
  have h := timeout_iterator_drain_prepare cfg t p.prepare_instances [] clock req p
    (by simp) hacc hclock
  simp only [List.length_nil, List.nil_append] at h
  have h0 : proposer_timeout_iterator t = ⟨0, 0, t⟩ := rfl
  rw [h0, h]
  refine ⟨rfl, rfl, rfl, refresh_due_erase cfg t _ clock,
    fun i x hx hd => refresh_due_keep cfg t _ clock i x hx hd, ?_⟩
  intro x hx ht hage
  simp only [timeout_due, Bool.and_eq_true, Bool.not_eq_true']
  rw [instance_has_timedout_iff cfg x t hpos hx ht hage]

/-- Scenario S6: instance 1 was prepared at ballot 11 at time 0 and got no PROMISE; an
iterator created 10 seconds later, with a timeout of one second, yields `{1, 11}`
again. -/
theorem timeout_prepare_phase_witness :
    (timeout_iterator_drain ⟨1000000⟩ [⟨10, 1⟩, ⟨10, 2⟩] (proposer_timeout_iterator ⟨10, 0⟩)
      ⟨1, [], 1, [⟨1, 11, 0, none, false, ⟨2, ∅⟩, ⟨0, 0⟩⟩], []⟩ ⟨0, 0⟩).1 = [⟨1, 11⟩] :=
  (timeout_prepare_phase ⟨1000000⟩
    ⟨1, [], 1, [⟨1, 11, 0, none, false, ⟨2, ∅⟩, ⟨0, 0⟩⟩], []⟩ ⟨10, 0⟩ ⟨0, 0⟩
    [⟨10, 1⟩, ⟨10, 2⟩] rfl (by decide) (by decide)).1

/-- C13, evaluation of the code at two failing inputs: proposer 1 prepares instance 1
at ballot 11 at time 0 and no PROMISE arrives; the timeout is one second.  For an
iterator created 3600 s later the instance is due in the sense of the claim
(`3600000000 - 0 ≥ 1000000`, quorum not reached), but `timeval_diff` returns 0: the
product `3600 * 1e6` does not fit its variable `int us`.  For an iterator created
2147.5 s later the product fits and the addition of the microseconds leaves the range
of `int`: `timeval_diff` returns a negative number.  In both cases
`instance_has_timedout` is false, the pass yields no request and the state is
unchanged. -/
theorem timeout_prepare_phase_overflow :
    (run ⟨1000000⟩ (proposer_new 1) [Op.prepare ⟨0, 0⟩]).1 =
      some ⟨1, [], 1, [⟨1, 11, 0, none, false, ⟨2, ∅⟩, ⟨0, 0⟩⟩], []⟩ ∧
    quorum_reached (⟨2, ∅⟩ : quorum) = false ∧
    (timeval.us ⟨3600, 0⟩ - timeval.us ⟨0, 0⟩ ≥ 1000000 ∧
      timeval_diff ⟨0, 0⟩ ⟨3600, 0⟩ = 0 ∧
      timeout_iterator_drain ⟨1000000⟩ [⟨3600, 1⟩, ⟨3600, 2⟩]
          (proposer_timeout_iterator ⟨3600, 0⟩)
          ⟨1, [], 1, [⟨1, 11, 0, none, false, ⟨2, ∅⟩, ⟨0, 0⟩⟩], []⟩ ⟨0, 0⟩ =
        ([], ⟨1, [], 1, [⟨1, 11, 0, none, false, ⟨2, ∅⟩, ⟨0, 0⟩⟩], []⟩, true)) ∧
    (timeval.us ⟨2147, 500000⟩ - timeval.us ⟨0, 0⟩ ≥ 1000000 ∧
      timeval_diff ⟨0, 0⟩ ⟨2147, 500000⟩ = -2147467296 ∧
      timeout_iterator_drain ⟨1000000⟩ [⟨2147, 500001⟩, ⟨2147, 500002⟩]
          (proposer_timeout_iterator ⟨2147, 500000⟩)
          ⟨1, [], 1, [⟨1, 11, 0, none, false, ⟨2, ∅⟩, ⟨0, 0⟩⟩], []⟩ ⟨0, 0⟩ =
        ([], ⟨1, [], 1, [⟨1, 11, 0, none, false, ⟨2, ∅⟩, ⟨0, 0⟩⟩], []⟩, true)) :=
  ⟨rfl, rfl, ⟨by decide, by decide, rfl⟩, ⟨by decide, by decide, rfl⟩⟩

/-! ## Timeout of accept-phase instances -/

/-- C14, evaluation of the code at a failing input: proposer 1 has the instances 1 and
2 in the accept table, both created at time 0 and without any ACCEPTED.  Both are due
for an iterator created at time 10 s (timeout 1 s), but draining the iterator yields
the single request `{1, 21}`: instance 1 is removed from the accept table, instance 2
moves to position 0, which the cursor `ai = 1` has already passed, and instance 2 stays
in the accept table at ballot 11. -/
theorem timeout_accept_phase_skips :
    (run ⟨1000000⟩ (proposer_new 1)
      [Op.propose [120], Op.propose [121], Op.prepare ⟨0, 0⟩, Op.prepare ⟨0, 0⟩,
        Op.receive_prepare_ack ⟨1, 1, 11, 0, []⟩ ⟨0, 0⟩ ⟨0, 0⟩,
        Op.receive_prepare_ack ⟨1, 2, 11, 0, []⟩ ⟨0, 0⟩ ⟨0, 0⟩,
        Op.receive_prepare_ack ⟨2, 1, 11, 0, []⟩ ⟨0, 0⟩ ⟨0, 0⟩,
        Op.receive_prepare_ack ⟨2, 2, 11, 0, []⟩ ⟨0, 0⟩ ⟨0, 0⟩,
        Op.accept, Op.accept]).1 =
      some ⟨1, [], 2, [],
        [⟨1, 11, 0, some ⟨[120]⟩, false, ⟨2, ∅⟩, ⟨0, 0⟩⟩,
         ⟨2, 11, 0, some ⟨[121]⟩, false, ⟨2, ∅⟩, ⟨0, 0⟩⟩]⟩ ∧
    List.map (timeout_due ⟨1000000⟩ ⟨10, 0⟩)
        [⟨1, 11, 0, some ⟨[120]⟩, false, ⟨2, ∅⟩, ⟨0, 0⟩⟩,
         ⟨2, 11, 0, some ⟨[121]⟩, false, ⟨2, ∅⟩, ⟨0, 0⟩⟩] = [true, true] ∧
    timeout_iterator_drain ⟨1000000⟩ [⟨10, 1⟩, ⟨10, 2⟩, ⟨10, 3⟩]
        (proposer_timeout_iterator ⟨10, 0⟩)
        ⟨1, [], 2, [],
          [⟨1, 11, 0, some ⟨[120]⟩, false, ⟨2, ∅⟩, ⟨0, 0⟩⟩,
           ⟨2, 11, 0, some ⟨[121]⟩, false, ⟨2, ∅⟩, ⟨0, 0⟩⟩]⟩ ⟨0, 0⟩ =
      ([⟨1, 21⟩],
       ⟨1, [], 2, [⟨1, 21, 0, some ⟨[120]⟩, false, ⟨2, ∅⟩, ⟨10, 1⟩⟩],
          [⟨2, 11, 0, some ⟨[121]⟩, false, ⟨2, ∅⟩, ⟨0, 0⟩⟩]⟩,
       true) :=
  ⟨rfl, rfl, rfl⟩

/-! ## The origin of instances and requests -/

/-- The outcomes of `proposer_receive_prepare_ack` with the relation between the
instance looked up and its update. -/
theorem proposer_receive_prepare_ack_origin (p : proposer) (ack : prepare_ack)
    (out : prepare_req) (now : timeval) :
    proposer_receive_prepare_ack p ack out now = (0, p, out) ∨
    (∃ i inst inst1 vs,
      instance_find p.prepare_instances ack.iid = some (i, inst) ∧
      PrepFromPrep (Op.receive_prepare_ack ack out now) inst inst1 ∧
      proposer_receive_prepare_ack p ack out now =
        (0, { p with values := vs, prepare_instances := p.prepare_instances.set i inst1 },
          out)) ∨
    (∃ i inst inst1,
      instance_find p.prepare_instances ack.iid = some (i, inst) ∧
      PrepFromPrep (Op.receive_prepare_ack ack out now) inst inst1 ∧
      inst.ballot < inst1.ballot ∧
      proposer_receive_prepare_ack p ack out now =
        (1, { p with prepare_instances := p.prepare_instances.set i inst1 },
         ⟨inst1.iid, inst1.ballot⟩)) := by
  cases hfind : instance_find p.prepare_instances ack.iid with
  | none =>
    left
    simp only [proposer_receive_prepare_ack, hfind]
  | some r =>
    obtain ⟨i, inst⟩ := r
    by_cases h1 : ack.ballot < inst.ballot
    · left
      simp only [proposer_receive_prepare_ack, hfind, h1, if_true]
    by_cases hb : ack.ballot = inst.ballot
    · by_cases hq : ack.acceptor_id ∈ inst.quorum.acceptor_ids
      · left
        simp only [proposer_receive_prepare_ack, hfind, hb, lt_self_iff_false, if_false,
          if_true, quorum_add, hq]
      · right
        left
        by_cases hv : ack.value_size > 0
        · cases hval : inst.value with
          | none =>
            refine ⟨i, inst, { inst with
                quorum := ⟨inst.quorum.target, insert ack.acceptor_id inst.quorum.acceptor_ids⟩,
                value_ballot := ack.value_ballot,
                value := some ⟨ack.value⟩ }, p.values, rfl,
              ⟨rfl, le_refl _, fun h => h, Or.inr ⟨ack, out, now, rfl, hv, rfl, hb⟩⟩, ?_⟩
            simp only [proposer_receive_prepare_ack, hfind, hb, lt_self_iff_false,
              if_false, if_true, quorum_add, hq, hv, hval, wrap_value]
          | some v =>
            by_cases hgt : ack.value_ballot > inst.value_ballot
            · refine ⟨i, inst, { inst with
                  quorum := ⟨inst.quorum.target, insert ack.acceptor_id inst.quorum.acceptor_ids⟩,
                  value_ballot := ack.value_ballot,
                  value := some ⟨ack.value⟩ }, p.values ++ [v], rfl,
                ⟨rfl, le_refl _, fun h => h, Or.inr ⟨ack, out, now, rfl, hv, rfl, hb⟩⟩, ?_⟩
              simp only [proposer_receive_prepare_ack, hfind, hb, lt_self_iff_false,
                if_false, if_true, quorum_add, hq, hv, hval, hgt, wrap_value, carray_push_back]
            · by_cases hne : ack.value_ballot = inst.value_ballot
              · refine ⟨i, inst, { inst with
                    quorum := ⟨inst.quorum.target, insert ack.acceptor_id inst.quorum.acceptor_ids⟩,
                    closed := true }, p.values, rfl,
                  ⟨rfl, le_refl _, fun _ => rfl, Or.inl rfl⟩, ?_⟩
                have h2 : ¬ inst.value_ballot > inst.value_ballot := by omega
                simp only [proposer_receive_prepare_ack, hfind, hb, lt_self_iff_false,
                  if_false, if_true, quorum_add, hq, hv, hval, hne, h2]
              · refine ⟨i, inst, { inst with
                    quorum := ⟨inst.quorum.target, insert ack.acceptor_id inst.quorum.acceptor_ids⟩ },
                  p.values, rfl, ⟨rfl, le_refl _, fun h => h, Or.inl rfl⟩, ?_⟩
                simp only [proposer_receive_prepare_ack, hfind, hb, lt_self_iff_false,
                  if_false, if_true, quorum_add, hq, hv, hval, hgt, hne]
        · refine ⟨i, inst, { inst with
              quorum := ⟨inst.quorum.target, insert ack.acceptor_id inst.quorum.acceptor_ids⟩ },
            p.values, rfl, ⟨rfl, le_refl _, fun h => h, Or.inl rfl⟩, ?_⟩
          simp only [proposer_receive_prepare_ack, hfind, hb, lt_self_iff_false,
            if_false, if_true, quorum_add, hq, hv]
    · right
      right
      refine ⟨i, inst, { inst with ballot := proposer_next_ballot p inst.ballot,
                                   quorum := ⟨QUORUM, ∅⟩,
                                   created_at := now }, rfl,
        ⟨rfl, Nat.le_of_lt (proposer_next_ballot_gt p inst.ballot), fun h => h, Or.inl rfl⟩,
        proposer_next_ballot_gt p inst.ballot, ?_⟩
      simp only [proposer_receive_prepare_ack, hfind, h1, hb, if_false, prepare_preempt,
        quorum_init]

/-- The outcomes of `proposer_receive_accept_ack` with the updated instance spelled
out. -/
theorem proposer_receive_accept_ack_origin (p : proposer) (ack : accept_ack)
    (out : prepare_req) (now : timeval) :
    proposer_receive_accept_ack p ack out now = none ∨
    proposer_receive_accept_ack p ack out now = some (0, p, out) ∨
    (∃ i inst inst1,
      instance_find p.accept_instances ack.iid = some (i, inst) ∧ AccFromAcc inst inst1 ∧
      (proposer_receive_accept_ack p ack out now =
          some (0, { p with accept_instances := p.accept_instances.set i inst1 }, out) ∨
       proposer_receive_accept_ack p ack out now =
          some (0, { p with accept_instances :=
                      instance_remove (p.accept_instances.set i inst1) inst1 }, out))) ∨
    (∃ i inst inst1,
      instance_find p.accept_instances ack.iid = some (i, inst) ∧ PrepFromAcc inst inst1 ∧
      proposer_receive_accept_ack p ack out now =
        some (1, { p with
                accept_instances := instance_remove p.accept_instances inst,
                prepare_instances := inst1 :: p.prepare_instances },
              ⟨inst1.iid, inst1.ballot⟩)) := by
  cases hfind : instance_find p.accept_instances ack.iid with
  | none =>
    right
    left
    simp only [proposer_receive_accept_ack, hfind]
  | some r =>
    obtain ⟨i, inst⟩ := r
    by_cases hb : ack.ballot = inst.ballot
    · by_cases hvb : ack.value_ballot = inst.ballot
      · by_cases hq : ack.acceptor_id ∈ inst.quorum.acceptor_ids
        · right
          left
          simp only [proposer_receive_accept_ack, hfind, hb, hvb, if_true, quorum_add, hq]
        · right
          right
          left
          refine ⟨i, inst, { inst with
              quorum := ⟨inst.quorum.target, insert ack.acceptor_id inst.quorum.acceptor_ids⟩ },
            rfl, ⟨rfl, rfl, rfl, rfl, rfl⟩, ?_⟩
          by_cases hreach : quorum_reached
              ⟨inst.quorum.target, insert ack.acceptor_id inst.quorum.acceptor_ids⟩ = true
          · right
            simp only [proposer_receive_accept_ack, hfind, hb, hvb, if_true, if_false,
              quorum_add, hq, hreach]
          · left
            have hreach1 : quorum_reached
                ⟨inst.quorum.target, insert ack.acceptor_id inst.quorum.acceptor_ids⟩ = false := by
              simpa using hreach
            simp only [proposer_receive_accept_ack, hfind, hb, hvb, if_true, if_false,
              quorum_add, hq, hreach1, Bool.false_eq_true]
      · left
        simp only [proposer_receive_accept_ack, hfind, hb, hvb, if_true, if_false]
    · right
      right
      right
      refine ⟨i, inst, { inst with ballot := proposer_next_ballot p inst.ballot,
                                   quorum := ⟨QUORUM, ∅⟩,
                                   created_at := now }, rfl,
        ⟨rfl, proposer_next_ballot_gt p inst.ballot, rfl, rfl, rfl⟩, ?_⟩
      simp only [proposer_receive_accept_ack, hfind, hb, if_false, prepare_preempt,
        carray_push_front, quorum_init, List.set_cons_zero, proposer_next_ballot]

theorem dropWhile_head_false (l : List Instance) (h : Instance) (rest : List Instance)
    (hP : l.dropWhile (fun x => x.closed) = h :: rest) : h.closed = false := by
  induction l with
  | nil => simp at hP
  | cons a l ih =>
    by_cases ha : a.closed = true
    · rw [List.dropWhile_cons_of_pos ha] at hP
      exact ih hP
    · rw [List.dropWhile_cons_of_neg ha] at hP
      simp only [List.cons.injEq] at hP
      rw [← hP.1]
      simpa using ha

theorem mem_set_self (tbl : List Instance) (i : Nat) (x z : Instance)
    (hget : tbl[i]? = some x) : z ∈ tbl.set i z := by
  obtain ⟨hlt, -⟩ := List.getElem?_eq_some.mp hget
  exact List.mem_iff_getElem.mpr ⟨i, by simpa using hlt, by simp⟩

theorem PrepFromPrep_refl (op : Op) (x : Instance) : PrepFromPrep op x x :=
  ⟨rfl, le_refl _, fun h => h, Or.inl rfl⟩

theorem AccFromAcc_refl (x : Instance) : AccFromAcc x x :=
  ⟨rfl, rfl, rfl, rfl, rfl⟩

theorem origin_set (tbl : List Instance) (R : Instance → Instance → Prop)
    (hrefl : ∀ x, R x x) (i : Nat) (x z : Instance) (hget : tbl[i]? = some x)
    (hz : R x z) : ∀ y ∈ tbl.set i z, ∃ x ∈ tbl, R x y := by
  intro y hy
  rcases List.mem_or_eq_of_mem_set hy with h | h
  · exact ⟨y, h, hrefl y⟩
  · exact ⟨x, List.getElem?_mem hget, h ▸ hz⟩

theorem StepOrigin_same (p : proposer) (op : Op) (p1 : proposer)
    (hP : p1.prepare_instances = p.prepare_instances)
    (hA : p1.accept_instances = p.accept_instances) : StepOrigin p op p1 [] := by
  refine ⟨?_, ?_, ?_, ?_⟩
  · intro y hy
    rw [hP] at hy
    exact Or.inl ⟨y, hy, PrepFromPrep_refl op y⟩
  · intro y hy
    rw [hA] at hy
    exact Or.inl ⟨y, hy, AccFromAcc_refl y⟩
  · intro r hr
    simp at hr
  · intro r hr
    simp at hr

/-- The update of one instance of the prepare table in place, with or without a
PrepareRequest for it. -/
theorem StepOrigin_prepare_set (p : proposer) (op : Op) (p1 : proposer) (outs : List Output)
    (i : Nat) (x z : Instance) (hget : p.prepare_instances[i]? = some x)
    (hz : PrepFromPrep op x z)
    (hP : p1.prepare_instances = p.prepare_instances.set i z)
    (hA : p1.accept_instances = p.accept_instances)
    (houts : outs = [] ∨ (outs = [Output.prepare ⟨z.iid, z.ballot⟩] ∧
      (x.ballot < z.ballot ∨ (op.is_timeout = true ∧ x.ballot = z.ballot)))) :
    StepOrigin p op p1 outs := by
  refine ⟨?_, ?_, ?_, ?_⟩
  · intro y hy
    rw [hP] at hy
    exact Or.inl (origin_set _ (PrepFromPrep op) (PrepFromPrep_refl op) i x z hget hz y hy)
  · intro y hy
    rw [hA] at hy
    exact Or.inl ⟨y, hy, AccFromAcc_refl y⟩
  · intro r hr
    rcases houts with h | ⟨h, hb⟩
    · simp [h] at hr
    · rw [h] at hr
      simp only [List.mem_singleton, Output.prepare.injEq] at hr
      subst hr
      refine ⟨z, ?_, rfl, rfl, Or.inr ⟨x, ?_, hz.1.symm, hb⟩⟩
      · rw [hP]
        exact mem_set_self _ i x z hget
      · exact List.mem_append_left _ (List.getElem?_mem hget)
  · intro r hr
    rcases houts with h | ⟨h, -⟩
    · simp [h] at hr
    · simp [h] at hr

/-- The move of a preempted instance from the accept table to the front of the prepare
table. -/
theorem StepOrigin_demote (p : proposer) (op : Op) (p1 : proposer)
    (x z : Instance) (hx : x ∈ p.accept_instances) (hz : PrepFromAcc x z)
    (hP : p1.prepare_instances = z :: p.prepare_instances)
    (hA : ∀ y ∈ p1.accept_instances, y ∈ p.accept_instances) :
    StepOrigin p op p1 [Output.prepare ⟨z.iid, z.ballot⟩] := by
  refine ⟨?_, ?_, ?_, ?_⟩
  · intro y hy
    rw [hP] at hy
    rcases List.mem_cons.mp hy with h | h
    · exact Or.inr (Or.inl ⟨x, hx, h ▸ hz⟩)
    · exact Or.inl ⟨y, h, PrepFromPrep_refl op y⟩
  · intro y hy
    exact Or.inl ⟨y, hA y hy, AccFromAcc_refl y⟩
  · intro r hr
    simp only [List.mem_singleton, Output.prepare.injEq] at hr
    subst hr
    refine ⟨z, ?_, rfl, rfl, Or.inr ⟨x, List.mem_append_right _ hx, hz.1.symm, Or.inl hz.2.1⟩⟩
    rw [hP]
    exact List.mem_cons_self _ _
  · intro r hr
    simp at hr

/-- Every call changes the tables and hands back requests as `StepOrigin` says. -/
theorem step_origin (cfg : paxos_config_t) (p : proposer) (op : Op) (p1 : proposer)
    (outs : List Output) (h : step cfg p op = some (p1, outs)) :
    StepOrigin p op p1 outs := by
  cases op with
  | propose value =>
    simp only [step, Option.some.injEq, Prod.mk.injEq] at h
    obtain ⟨rfl, rfl⟩ := h
    exact StepOrigin_same _ _ _ rfl rfl
  | prepare now =>
    simp only [step, Option.some.injEq, Prod.mk.injEq] at h
    obtain ⟨rfl, rfl⟩ := h
    refine ⟨?_, ?_, ?_, ?_⟩
    · intro y hy
      simp only [proposer_prepare, carray_push_back, List.mem_append,
        List.mem_singleton] at hy
      rcases hy with hy | hy
      · exact Or.inl ⟨y, hy, PrepFromPrep_refl _ y⟩
      · subst hy
        exact Or.inr (Or.inr ⟨rfl, rfl, rfl, rfl⟩)
    · intro y hy
      exact Or.inl ⟨y, hy, AccFromAcc_refl y⟩
    · intro r hr
      simp only [List.mem_singleton, Output.prepare.injEq] at hr
      subst hr
      refine ⟨instance_new (p.next_prepare_iid + 1)
        (proposer_next_ballot { p with next_prepare_iid := p.next_prepare_iid + 1 } 0) now,
        ?_, rfl, rfl, Or.inl rfl⟩
      simp [proposer_prepare, carray_push_back]
    · intro r hr
      simp at hr
  | receive_prepare_ack ack out now =>
    simp only [step, Option.some.injEq, Prod.mk.injEq] at h
    obtain ⟨rfl, rfl⟩ := h
    rcases proposer_receive_prepare_ack_origin p ack out now with hr | hr | hr
    · rw [hr]
      exact StepOrigin_same _ _ _ rfl rfl
    · obtain ⟨i, inst, inst1, vs, hfind, hrel, hr⟩ := hr
      rw [hr]
      exact StepOrigin_prepare_set p _ _ _ i inst inst1 (instance_find_get _ _ _ _ hfind).1
        hrel rfl rfl (Or.inl (by simp))
    · obtain ⟨i, inst, inst1, hfind, hrel, hlt, hr⟩ := hr
      rw [hr]
      exact StepOrigin_prepare_set p _ _ _ i inst inst1 (instance_find_get _ _ _ _ hfind).1
        hrel rfl rfl (Or.inr ⟨by simp, Or.inl hlt⟩)
  | accept =>
    rcases proposer_accept_cases p with hr | hr
    · simp only [step, hr, Option.some.injEq, Prod.mk.injEq] at h
      obtain ⟨rfl, rfl⟩ := h
      refine ⟨?_, ?_, ?_, ?_⟩
      · intro y hy
        exact Or.inl ⟨y, (List.dropWhile_sublist _).subset hy, PrepFromPrep_refl _ y⟩
      · intro y hy
        exact Or.inl ⟨y, hy, AccFromAcc_refl y⟩
      · intro r hr
        simp at hr
      · intro r hr
        simp at hr
    · obtain ⟨hd, rest, v, vs, hPd, -, -, hr⟩ := hr
      simp only [step, hr, Option.some.injEq, Prod.mk.injEq] at h
      obtain ⟨rfl, rfl⟩ := h
      have hsub : ∀ y ∈ hd :: rest, y ∈ p.prepare_instances := by
        intro y hy
        rw [← hPd] at hy
        exact (List.dropWhile_sublist _).subset hy
      have hcl := dropWhile_head_false _ _ _ hPd
      have hhd := hsub hd (List.mem_cons_self _ _)
      refine ⟨?_, ?_, ?_, ?_⟩
      · intro y hy
        exact Or.inl ⟨y, hsub y (List.mem_cons_of_mem _ hy), PrepFromPrep_refl _ y⟩
      · intro y hy
        simp only [List.mem_append, List.mem_singleton] at hy
        rcases hy with hy | hy
        · exact Or.inl ⟨y, hy, AccFromAcc_refl y⟩
        · subst hy
          exact Or.inr ⟨hd, hhd, rfl, rfl, rfl, hcl, hcl, by simp⟩
      · intro r hr
        simp at hr
      · intro r hr
        simp only [List.mem_singleton, Output.accept.injEq] at hr
        subst hr
        exact ⟨hd, hhd, hcl, rfl, rfl,
          { hd with value := some v, quorum := ⟨QUORUM, ∅⟩ }, by simp, rfl, rfl⟩
  | receive_accept_ack ack out now =>
    rcases proposer_receive_accept_ack_origin p ack out now with hr | hr | hr | hr
    · simp [step, hr] at h
    · simp only [step, hr, Option.some.injEq, Prod.mk.injEq] at h
      obtain ⟨rfl, rfl⟩ := h
      exact StepOrigin_same _ _ _ rfl rfl
    · obtain ⟨i, inst, inst1, hfind, hrel, hr⟩ := hr
      have hget := (instance_find_get _ _ _ _ hfind).1
      have hset := origin_set p.accept_instances AccFromAcc AccFromAcc_refl i inst inst1 hget hrel
      rcases hr with hr | hr
      · simp only [step, hr, Option.some.injEq, Prod.mk.injEq] at h
        obtain ⟨rfl, rfl⟩ := h
        refine ⟨?_, ?_, ?_, ?_⟩
        · intro y hy
          exact Or.inl ⟨y, hy, PrepFromPrep_refl _ y⟩
        · intro y hy
          exact Or.inl (hset y hy)
        · intro r hr
          simp at hr
        · intro r hr
          simp at hr
      · simp only [step, hr, Option.some.injEq, Prod.mk.injEq] at h
        obtain ⟨rfl, rfl⟩ := h
        refine ⟨?_, ?_, ?_, ?_⟩
        · intro y hy
          exact Or.inl ⟨y, hy, PrepFromPrep_refl _ y⟩
        · intro y hy
          exact Or.inl (hset y ((mem_instance_remove _ _ _).mp hy).1)
        · intro r hr
          simp at hr
        · intro r hr
          simp at hr
    · obtain ⟨i, inst, inst1, hfind, hrel, hr⟩ := hr
      simp only [step, hr, Option.some.injEq, Prod.mk.injEq] at h
      obtain ⟨rfl, rfl⟩ := h
      simp only [if_true]
      exact StepOrigin_demote p _ _ inst inst1 (instance_find_get _ _ _ _ hfind).2.2 hrel rfl
        (fun y hy => ((mem_instance_remove _ _ _).mp hy).1)
  | timeout_iterator_next iter req now =>
    simp only [step, Option.some.injEq, Prod.mk.injEq] at h
    obtain ⟨rfl, rfl⟩ := h
    rcases timeout_iterator_next_cases cfg iter p req now with hr | hr | hr
    · obtain ⟨hr0, hr⟩ := hr
      rw [hr, hr0]
      exact StepOrigin_same _ _ _ rfl rfl
    · obtain ⟨i, inst, hget, hr1, hr⟩ := hr
      rw [hr, hr1]
      exact StepOrigin_prepare_set p _ _ _ i inst { inst with created_at := now } hget
        ⟨rfl, le_refl _, fun h => h, Or.inl rfl⟩ rfl rfl
        (Or.inr ⟨by simp, Or.inr ⟨rfl, rfl⟩⟩)
    · obtain ⟨i, inst, hget, hr1, hr⟩ := hr
      rw [hr, hr1]
      simp only [if_true]
      refine StepOrigin_demote p _ _ inst
        { inst with ballot := proposer_next_ballot p inst.ballot,
                    quorum := ⟨QUORUM, ∅⟩,
                    created_at := now }
        (List.getElem?_mem hget)
        ⟨rfl, proposer_next_ballot_gt p inst.ballot, rfl, rfl, rfl⟩ rfl ?_
      intro y hy
      obtain ⟨hy1, hy2⟩ := (mem_instance_remove _ _ _).mp hy
      rcases List.mem_or_eq_of_mem_set hy1 with h | h
      · exact h
      · exact absurd (by rw [h]) hy2

/-! ## Induction over runs with the requests handed back -/

theorem TablesWF_new (id : Nat) : TablesWF (proposer_new id) := by
  simp [TablesWF, proposer_new, iids]

theorem TablesWF_step (cfg : paxos_config_t) (p : proposer) (op : Op) (p1 : proposer)
    (outs : List Output) (h : step cfg p op = some (p1, outs)) (hwf : TablesWF p) :
    TablesWF p1 ∧ p.next_prepare_iid ≤ p1.next_prepare_iid := by
  obtain ⟨hst, hn, -⟩ := step_iids cfg p op p1 outs h
  obtain ⟨h1, h2⟩ := IidStep_bound _ _ _ _ _ _ _ hst hwf.1 hwf.2.1
  exact ⟨⟨h1, h2, IidStep_nodup _ _ _ _ _ _ _ hst hwf.1 hwf.2.1 hwf.2.2⟩, by omega⟩

theorem TablesWF_unique (p : proposer) (hwf : TablesWF p) (x y : Instance)
    (hx : x ∈ p.prepare_instances ++ p.accept_instances)
    (hy : y ∈ p.prepare_instances ++ p.accept_instances) (h : x.iid = y.iid) : x = y := by
  have hnd : ((p.prepare_instances ++ p.accept_instances).map Instance.iid).Nodup := by
    simpa [iids] using hwf.2.2
  exact List.inj_on_of_nodup_map hnd hx hy h

theorem TablesWF_le (p : proposer) (hwf : TablesWF p) (x : Instance)
    (hx : x ∈ p.prepare_instances ++ p.accept_instances) : x.iid ≤ p.next_prepare_iid := by
  rcases List.mem_append.mp hx with h | h
  · exact hwf.1 _ (List.mem_map_of_mem _ h)
  · exact hwf.2.1 _ (List.mem_map_of_mem _ h)

theorem step_outs_le_one (cfg : paxos_config_t) (p : proposer) (op : Op) (p1 : proposer)
    (outs : List Output) (h : step cfg p op = some (p1, outs)) :
    outs = [] ∨ ∃ o, outs = [o] := by
  cases op with
  | propose value =>
    simp only [step, Option.some.injEq, Prod.mk.injEq] at h
    exact Or.inl h.2.symm
  | prepare now =>
    simp only [step, Option.some.injEq, Prod.mk.injEq] at h
    exact Or.inr ⟨_, h.2.symm⟩
  | receive_prepare_ack ack out now =>
    simp only [step, Option.some.injEq, Prod.mk.injEq] at h
    rw [← h.2]
    split
    · exact Or.inr ⟨_, rfl⟩
    · exact Or.inl rfl
  | accept =>
    simp only [step] at h
    split at h
    · simp only [Option.some.injEq, Prod.mk.injEq] at h
      exact Or.inl h.2.symm
    · simp only [Option.some.injEq, Prod.mk.injEq] at h
      exact Or.inr ⟨_, h.2.symm⟩
  | receive_accept_ack ack out now =>
    simp only [step] at h
    split at h
    · simp at h
    · simp only [Option.some.injEq, Prod.mk.injEq] at h
      rw [← h.2]
      split
      · exact Or.inr ⟨_, rfl⟩
      · exact Or.inl rfl
  | timeout_iterator_next iter req now =>
    simp only [step, Option.some.injEq, Prod.mk.injEq] at h
    rw [← h.2]
    split
    · exact Or.inr ⟨_, rfl⟩
    · exact Or.inl rfl

/-- A property of the requests handed back so far and the state, kept by every call,
holds at the end of every run that is not aborted. -/
theorem run_trace_induction (cfg : paxos_config_t) (I : List Output → proposer → Prop)
    (hstep : ∀ seen p op p1 outs, I seen p → step cfg p op = some (p1, outs) →
      I (seen ++ outs) p1)
    (ops : List Op) :
    ∀ seen p q, I seen p → (run cfg p ops).1 = some q →
      I (seen ++ (run cfg p ops).2) q := by
  induction ops with
  | nil =>
    intro seen p q hp hq
    simp only [run, Option.some.injEq] at hq
    subst hq
    simpa [run] using hp
  | cons op ops ih =>
    intro seen p q hp hq
    cases hs : step cfg p op with
    | none => simp [run_cons_none cfg p op ops hs] at hq
    | some r =>
      obtain ⟨p1, outs⟩ := r
      rw [run_cons_some cfg p p1 op ops outs hs] at hq ⊢
      have := ih (seen ++ outs) p1 q (hstep seen p op p1 outs hp hs) hq
      simpa [List.append_assoc] using this

/-- A property `Q` of each request with respect to the requests handed back before
it, established by every call under an invariant `I`, holds all along every run. -/
theorem run_trace_pairs (cfg : paxos_config_t) (I : List Output → proposer → Prop)
    (Q : List Output → Output → Prop)
    (hstep : ∀ seen p op p1 outs, I seen p → step cfg p op = some (p1, outs) →
      I (seen ++ outs) p1 ∧ ∀ o ∈ outs, Q seen o)
    (ops : List Op) :
    ∀ seen p, I seen p → ∀ l1 o l2, (run cfg p ops).2 = l1 ++ o :: l2 →
      Q (seen ++ l1) o := by
  induction ops with
  | nil =>
    intro seen p _ l1 o l2 h
    simp [run] at h
  | cons op ops ih =>
    intro seen p hp l1 o l2 h
    cases hs : step cfg p op with
    | none => simp [run_cons_none cfg p op ops hs] at h
    | some r =>
      obtain ⟨p1, outs⟩ := r
      rw [run_cons_some cfg p p1 op ops outs hs] at h
      obtain ⟨hI, hQ⟩ := hstep seen p op p1 outs hp hs
      rcases step_outs_le_one cfg p op p1 outs hs with ho | ⟨o1, ho⟩
      · subst ho
        simp only [List.nil_append] at h
        simpa using ih seen p1 (by simpa using hI) l1 o l2 h
      · subst ho
        cases l1 with
        | nil =>
          simp only [List.singleton_append, List.nil_append, List.cons.injEq] at h
          rw [← h.1]
          simpa using hQ o1 (List.mem_singleton.mpr rfl)
        | cons a l1 =>
          simp only [List.singleton_append, List.cons_append, List.cons.injEq] at h
          obtain ⟨rfl, h⟩ := h
          have := ih (seen ++ [o1]) p1 hI l1 o l2 h
          simpa [List.append_assoc] using this

theorem value_ballot_step (cfg : paxos_config_t) (p : proposer) (op : Op) (p1 : proposer)
    (outs : List Output) (h : step cfg p op = some (p1, outs))
    (hop : promise_value_ballot_le op)
    (hinv : ∀ x ∈ p.prepare_instances ++ p.accept_instances, x.value_ballot ≤ x.ballot) :
    ∀ y ∈ p1.prepare_instances ++ p1.accept_instances, y.value_ballot ≤ y.ballot := by
  obtain ⟨hP, hA, -, -⟩ := step_origin cfg p op p1 outs h
  intro y hy
  rcases List.mem_append.mp hy with hy | hy
  · rcases hP y hy with ⟨x, hx, -, hb, -, hvb⟩ | ⟨x, hx, -, hb, hvb, -, -⟩ |
      ⟨-, hvb, -, -⟩
    · have hxi := hinv x (List.mem_append_left _ hx)
      rcases hvb with hvb | ⟨ack, out, now, hop1, hsize, hvb, hab⟩
      · omega
      · subst hop1
        have := hop hsize
        omega
    · have hxi := hinv x (List.mem_append_right _ hx)
      omega
    · omega
  · rcases hA y hy with ⟨x, hx, -, hb, hvb, -, -⟩ | ⟨x, hx, -, hb, hvb, -, -, -⟩
    · have hxi := hinv x (List.mem_append_right _ hx)
      omega
    · have hxi := hinv x (List.mem_append_left _ hx)
      omega

theorem run_value_ballot (cfg : paxos_config_t) (ops : List Op) :
    ∀ p q, (∀ op ∈ ops, promise_value_ballot_le op) →
      (∀ x ∈ p.prepare_instances ++ p.accept_instances, x.value_ballot ≤ x.ballot) →
      (run cfg p ops).1 = some q →
      ∀ y ∈ q.prepare_instances ++ q.accept_instances, y.value_ballot ≤ y.ballot := by
  induction ops with
  | nil =>
    intro p q _ hinv hq
    simp only [run, Option.some.injEq] at hq
    exact hq ▸ hinv
  | cons op ops ih =>
    intro p q hops hinv hq
    cases hs : step cfg p op with
    | none => simp [run_cons_none cfg p op ops hs] at hq
    | some r =>
      obtain ⟨p1, outs⟩ := r
      rw [run_cons_some cfg p p1 op ops outs hs] at hq
      exact ih p1 q (fun o ho => hops o (List.mem_cons_of_mem _ ho))
        (value_ballot_step cfg p op p1 outs hs (hops op (List.mem_cons_self _ _)) hinv) hq

/-- Counterexample to C20: proposer 1 prepares instance 1 at ballot 11; a PROMISE at
ballot 11 that carries the value `y` with value ballot 999 is adopted, and the live
instance has value ballot 999 above its ballot 11. -/
theorem value_ballot_above_ballot :
    (run ⟨1000000⟩ (proposer_new 1)
      [Op.prepare ⟨0, 0⟩, Op.receive_prepare_ack ⟨1, 1, 11, 999, [121]⟩ ⟨0, 0⟩ ⟨0, 0⟩]).1 =
      some ⟨1, [], 1, [⟨1, 11, 999, some ⟨[121]⟩, false, ⟨2, {1}⟩, ⟨0, 0⟩⟩], []⟩ ∧
    ¬ ((⟨1, 11, 999, some ⟨[121]⟩, false, ⟨2, {1}⟩, ⟨0, 0⟩⟩ : Instance).value_ballot ≤
        (⟨1, 11, 999, some ⟨[121]⟩, false, ⟨2, {1}⟩, ⟨0, 0⟩⟩ : Instance).ballot) :=
  ⟨rfl, by decide⟩

/-- C20 (amended): in every state reachable from `proposer_new` by calls in which every
PROMISE that carries a value has `value_ballot ≤ ballot` (as the PROMISE of an acceptor
has), with otherwise arbitrary message contents, every live instance of the prepare or
the accept table satisfies `value_ballot ≤ ballot`. -/
theorem value_ballot_le_ballot (cfg : paxos_config_t) (id : Nat) (ops : List Op)
    (p : proposer) (hops : ∀ op ∈ ops, promise_value_ballot_le op)
    (hrun : (run cfg (proposer_new id) ops).1 = some p) :
    ∀ x ∈ p.prepare_instances ++ p.accept_instances, x.value_ballot ≤ x.ballot :=
  run_value_ballot cfg ops (proposer_new id) p hops (by simp [proposer_new]) hrun

/-- Witness of C20 (amended), scenario S3: the instance that adopted `y` at value ballot
5 runs ballot 11. -/
theorem value_ballot_le_ballot_witness :
    (⟨1, 11, 5, some ⟨[121]⟩, false, ⟨2, {1}⟩, ⟨0, 0⟩⟩ : Instance).value_ballot ≤
      (⟨1, 11, 5, some ⟨[121]⟩, false, ⟨2, {1}⟩, ⟨0, 0⟩⟩ : Instance).ballot :=
  value_ballot_le_ballot ⟨1000000⟩ 1
    [Op.propose [120], Op.prepare ⟨0, 0⟩,
      Op.receive_prepare_ack ⟨1, 1, 11, 5, [121]⟩ ⟨0, 0⟩ ⟨0, 0⟩]
    ⟨1, [⟨[120]⟩], 1, [⟨1, 11, 5, some ⟨[121]⟩, false, ⟨2, {1}⟩, ⟨0, 0⟩⟩], []⟩
    (by simp [promise_value_ballot_le]) rfl
    ⟨1, 11, 5, some ⟨[121]⟩, false, ⟨2, {1}⟩, ⟨0, 0⟩⟩ (by simp)

/-! ## Closed instances are never accepted -/

theorem TablesWF_disjoint (p : proposer) (hwf : TablesWF p) (x y : Instance)
    (hx : x ∈ p.prepare_instances) (hy : y ∈ p.accept_instances) : x.iid ≠ y.iid := by
  intro he
  exact (List.nodup_append.mp hwf.2.2).2.2 (List.mem_map_of_mem _ hx)
    (he ▸ List.mem_map_of_mem _ hy)

theorem accept_ballot_step (cfg : paxos_config_t) (seen : List Output) (p : proposer)
    (op : Op) (p1 : proposer) (outs : List Output)
    (hinv : TablesWF p ∧ ∀ s, Output.accept s ∈ seen →
      s.iid ≤ p.next_prepare_iid ∧
      (∀ x ∈ p.accept_instances, x.iid = s.iid → s.ballot ≤ x.ballot) ∧
      (∀ x ∈ p.prepare_instances, x.iid = s.iid → s.ballot < x.ballot))
    (h : step cfg p op = some (p1, outs)) :
    (TablesWF p1 ∧ ∀ s, Output.accept s ∈ seen ++ outs →
      s.iid ≤ p1.next_prepare_iid ∧
      (∀ x ∈ p1.accept_instances, x.iid = s.iid → s.ballot ≤ x.ballot) ∧
      (∀ x ∈ p1.prepare_instances, x.iid = s.iid → s.ballot < x.ballot)) ∧
    (∀ o ∈ outs, ∀ r, o = Output.accept r →
      ∀ s, Output.accept s ∈ seen → s.iid = r.iid → s.ballot < r.ballot) := by
  obtain ⟨hwf, hseen⟩ := hinv
  obtain ⟨hP, hA, -, hOA⟩ := step_origin cfg p op p1 outs h
  obtain ⟨hwf1, hn⟩ := TablesWF_step cfg p op p1 outs h hwf
  refine ⟨⟨hwf1, ?_⟩, ?_⟩
  · intro s hs
    rcases List.mem_append.mp hs with hs | hs
    · obtain ⟨hs1, hs2, hs3⟩ := hseen s hs
      refine ⟨le_trans hs1 hn, ?_, ?_⟩
      · intro y hy he
        rcases hA y hy with ⟨x, hx, hiid, hb, -⟩ | ⟨x, hx, hiid, hb, -⟩
        · have := hs2 x hx (hiid ▸ he)
          omega
        · have := hs3 x hx (hiid ▸ he)
          omega
      · intro y hy he
        rcases hP y hy with ⟨x, hx, hiid, hb, -⟩ | ⟨x, hx, hiid, hb, -⟩ | ⟨hiid, -⟩
        · have := hs3 x hx (hiid ▸ he)
          omega
        · have := hs2 x hx (hiid ▸ he)
          omega
        · omega
    · obtain ⟨x, hx, -, hiid, -, y0, hy0, hy0i, hy0b⟩ := hOA s hs
      refine ⟨?_, ?_, ?_⟩
      · have := TablesWF_le p hwf x (List.mem_append_left _ hx)
        omega
      · intro y hy he
        have := TablesWF_unique p1 hwf1 y y0 (List.mem_append_right _ hy)
          (List.mem_append_right _ hy0) (he.trans hy0i.symm)
        rw [this, hy0b]
      · intro y hy he
        exact absurd (he.trans hy0i.symm) (TablesWF_disjoint p1 hwf1 y y0 hy hy0)
  · intro o ho r hr s hs he
    subst hr
    obtain ⟨x, hx, -, hiid, hb, -⟩ := hOA r ho
    have := (hseen s hs).2.2 x hx (hiid.trans he.symm)
    omega

/-- C18: in every run from `proposer_new`, an AcceptRequest carries a ballot strictly
greater than the ballot of every earlier AcceptRequest with the same IID; so at most
one AcceptRequest is returned for any pair (iid, ballot). -/
theorem accept_ballots_increase (cfg : paxos_config_t) (id : Nat) (ops : List Op)
    (l1 : List Output) (r : accept_req) (l2 : List Output)
    (h : (run cfg (proposer_new id) ops).2 = l1 ++ Output.accept r :: l2)
    (s : accept_req) (hs : Output.accept s ∈ l1) (hiid : s.iid = r.iid) :
    s.ballot < r.ballot := by
  have key := run_trace_pairs cfg
    (fun seen p => TablesWF p ∧ ∀ s, Output.accept s ∈ seen →
      s.iid ≤ p.next_prepare_iid ∧
      (∀ x ∈ p.accept_instances, x.iid = s.iid → s.ballot ≤ x.ballot) ∧
      (∀ x ∈ p.prepare_instances, x.iid = s.iid → s.ballot < x.ballot))
    (fun seen o => ∀ r, o = Output.accept r →
      ∀ s, Output.accept s ∈ seen → s.iid = r.iid → s.ballot < r.ballot)
    (fun seen p op p1 outs hI hs => accept_ballot_step cfg seen p op p1 outs hI hs)
    ops [] (proposer_new id) ⟨TablesWF_new id, by simp⟩ l1 (Output.accept r) l2 h
  exact key r rfl s (by simpa using hs) hiid

/-- Witness of C18: in the run where instance 1 is accepted at ballot 11, preempted and
accepted again, the second AcceptRequest carries ballot 21. -/
theorem accept_ballots_increase_witness :
    (⟨1, 11, [120]⟩ : accept_req).ballot < (⟨1, 21, [120]⟩ : accept_req).ballot :=
  accept_ballots_increase ⟨1000000⟩ 1
    [Op.propose [120], Op.prepare ⟨0, 0⟩,
      Op.receive_prepare_ack ⟨1, 1, 11, 0, []⟩ ⟨0, 0⟩ ⟨0, 0⟩,
      Op.receive_prepare_ack ⟨1, 2, 11, 0, []⟩ ⟨0, 0⟩ ⟨0, 0⟩,
      Op.accept,
      Op.receive_accept_ack ⟨1, 1, 21, 21⟩ ⟨0, 0⟩ ⟨0, 0⟩,
      Op.receive_prepare_ack ⟨1, 1, 21, 0, []⟩ ⟨0, 0⟩ ⟨0, 0⟩,
      Op.receive_prepare_ack ⟨1, 2, 21, 0, []⟩ ⟨0, 0⟩ ⟨0, 0⟩,
      Op.accept]
    [Output.prepare ⟨1, 11⟩, Output.accept ⟨1, 11, [120]⟩, Output.prepare ⟨1, 21⟩]
    ⟨1, 21, [120]⟩ [] (by decide) ⟨1, 11, [120]⟩ (by decide) rfl

/-! ## The ballots of the PrepareRequests of one instance -/

theorem prepare_ballot_step (cfg : paxos_config_t) (seen : List Output) (p : proposer)
    (op : Op) (p1 : proposer) (outs : List Output)
    (hinv : TablesWF p ∧ ∀ s, Output.prepare s ∈ seen →
      s.iid ≤ p.next_prepare_iid ∧
      (∀ x ∈ p.prepare_instances ++ p.accept_instances, x.iid = s.iid →
        s.ballot ≤ x.ballot))
    (h : step cfg p op = some (p1, outs)) :
    (TablesWF p1 ∧ ∀ s, Output.prepare s ∈ seen ++ outs →
      s.iid ≤ p1.next_prepare_iid ∧
      (∀ x ∈ p1.prepare_instances ++ p1.accept_instances, x.iid = s.iid →
        s.ballot ≤ x.ballot)) ∧
    (∀ r, Output.prepare r ∈ outs →
      ∀ s, Output.prepare s ∈ seen → s.iid = r.iid →
        s.ballot ≤ r.ballot ∧ (op.is_timeout = false → s.ballot < r.ballot)) := by
  obtain ⟨hwf, hseen⟩ := hinv
  obtain ⟨hP, hA, hOP, -⟩ := step_origin cfg p op p1 outs h
  obtain ⟨hwf1, hn⟩ := TablesWF_step cfg p op p1 outs h hwf
  refine ⟨⟨hwf1, ?_⟩, ?_⟩
  · intro s hs
    rcases List.mem_append.mp hs with hs | hs
    · obtain ⟨hs1, hs2⟩ := hseen s hs
      refine ⟨le_trans hs1 hn, ?_⟩
      intro y hy he
      rcases List.mem_append.mp hy with hy | hy
      · rcases hP y hy with ⟨x, hx, hiid, hb, -⟩ | ⟨x, hx, hiid, hb, -⟩ | ⟨hiid, -⟩
        · have := hs2 x (List.mem_append_left _ hx) (hiid ▸ he)
          omega
        · have := hs2 x (List.mem_append_right _ hx) (hiid ▸ he)
          omega
        · omega
      · rcases hA y hy with ⟨x, hx, hiid, hb, -⟩ | ⟨x, hx, hiid, hb, -⟩
        · have := hs2 x (List.mem_append_right _ hx) (hiid ▸ he)
          omega
        · have := hs2 x (List.mem_append_left _ hx) (hiid ▸ he)
          omega
    · obtain ⟨y0, hy0, hy0i, hy0b, -⟩ := hOP s hs
      refine ⟨?_, ?_⟩
      · have := TablesWF_le p1 hwf1 y0 (List.mem_append_left _ hy0)
        omega
      · intro y hy he
        have := TablesWF_unique p1 hwf1 y y0 hy (List.mem_append_left _ hy0)
          (he.trans hy0i.symm)
        rw [this, hy0b]
  · intro r hr s hs he
    obtain ⟨hs1, hs2⟩ := hseen s hs
    obtain ⟨-, -, -, -, hor⟩ := hOP r hr
    rcases hor with hnew | ⟨x, hx, hiid, hb⟩
    · omega
    · have := hs2 x hx (hiid.trans he.symm)
      rcases hb with hb | ⟨ht, hb⟩
      · exact ⟨by omega, fun _ => by omega⟩
      · refine ⟨by omega, fun hf => ?_⟩
        rw [ht] at hf
        exact absurd hf (by decide)

/-- Counterexample to C17 (scenario S6): proposer 1 prepares instance 1 at ballot 11 at
time 0 and no PROMISE arrives; `timeout_iterator_next` on an iterator created 10 s
later hands back `{1, 11}` again: the ballots 11, 11 of the two PrepareRequests for
IID 1 are not strictly increasing. -/
theorem prepare_ballot_repeats_on_timeout :
    (run ⟨1000000⟩ (proposer_new 1)
      [Op.prepare ⟨0, 0⟩,
        Op.timeout_iterator_next (proposer_timeout_iterator ⟨10, 0⟩) ⟨0, 0⟩ ⟨10, 1⟩]).2 =
      [Output.prepare ⟨1, 11⟩, Output.prepare ⟨1, 11⟩] := by
  decide

/-! ## No value is lost -/

theorem bound_values_split (pre post : List Instance) (x : Instance) :
    bound_values (pre ++ x :: post) =
      bound_values pre ++ bound_values [x] ++ bound_values post := by
  simp [bound_values, List.filterMap_append, List.filterMap_cons]
  cases x.value <;> simp

theorem bound_values_append (l1 l2 : List Instance) :
    bound_values (l1 ++ l2) = bound_values l1 ++ bound_values l2 := by
  simp [bound_values, List.filterMap_append]

theorem bound_values_set (tbl : List Instance) (i : Nat) (x y : Instance)
    (hget : tbl[i]? = some x) (hy : y.value = x.value) :
    bound_values (tbl.set i y) = bound_values tbl := by
  induction tbl generalizing i with
  | nil => simp at hget
  | cons a tbl ih =>
    cases i with
    | zero =>
      simp at hget
      subst hget
      simp [bound_values, List.filterMap_cons, hy]
    | succ i =>
      simp at hget
      have := ih i hget
      simp only [bound_values] at this
      simp [bound_values, List.filterMap_cons, this]

theorem held_receive_prepare_ack (p : proposer) (ack : prepare_ack) (out : prepare_req)
    (now : timeval) :
    ∃ extra, List.Perm (held_values (proposer_receive_prepare_ack p ack out now).2.1)
      (held_values p ++ extra) := by
  cases hfind : instance_find p.prepare_instances ack.iid with
  | none =>
    refine ⟨[], ?_⟩
    simp [proposer_receive_prepare_ack, hfind]
  | some r =>
    obtain ⟨i, inst⟩ := r
    obtain ⟨pre, post, htab, hlen, hpre, hiid⟩ := instance_find_some _ _ _ _ hfind
    subst hlen
    have hold : held_values p = p.values ++
        (bound_values pre ++ bound_values [inst] ++ bound_values post) ++
        bound_values p.accept_instances := by
      simp only [held_values, htab, bound_values_split]
    rw [htab] at hfind
    by_cases h1 : ack.ballot < inst.ballot
    · refine ⟨[], ?_⟩
      simp [proposer_receive_prepare_ack, htab, hfind, h1]
    by_cases hb : ack.ballot = inst.ballot
    · by_cases hq : ack.acceptor_id ∈ inst.quorum.acceptor_ids
      · refine ⟨[], ?_⟩
        simp [proposer_receive_prepare_ack, htab, hfind, hb, quorum_add, hq]
      by_cases hv : ack.value_size > 0
      · cases hval : inst.value with
        | none =>
          refine ⟨[⟨ack.value⟩], ?_⟩
          simp only [proposer_receive_prepare_ack, htab, hfind, hb, lt_self_iff_false,
            if_false, if_true, quorum_add, hq, hv, hval, wrap_value, set_split, hold]
          simp only [held_values, bound_values_split]
          simp only [bound_values, List.filterMap_cons, hval, List.filterMap_nil]
          rw [← Multiset.coe_eq_coe]
          simp only [← Multiset.coe_add]
          abel
        | some v =>
          by_cases hgt : ack.value_ballot > inst.value_ballot
          · refine ⟨[⟨ack.value⟩], ?_⟩
            simp only [proposer_receive_prepare_ack, htab, hfind, hb, lt_self_iff_false,
              if_false, if_true, quorum_add, hq, hv, hval, hgt, wrap_value, set_split,
              carray_push_back, hold]
            simp only [held_values, bound_values_split]
            simp only [bound_values, List.filterMap_cons, hval, List.filterMap_nil]
            rw [← Multiset.coe_eq_coe]
            simp only [← Multiset.coe_add]
            abel
          · refine ⟨[], ?_⟩
            by_cases hne : ack.value_ballot = inst.value_ballot
            · have h2 : ¬ inst.value_ballot > inst.value_ballot := by omega
              simp only [proposer_receive_prepare_ack, htab, hfind, hb, lt_self_iff_false,
                if_false, if_true, quorum_add, hq, hv, hval, hne, h2, set_split, hold]
              simp only [held_values, bound_values_split]
              simp only [bound_values, List.filterMap_cons, hval, List.filterMap_nil]
              simp
            · simp only [proposer_receive_prepare_ack, htab, hfind, hb, lt_self_iff_false,
                if_false, if_true, quorum_add, hq, hv, hval, hgt, hne, set_split, hold]
              simp only [held_values, bound_values_split]
              simp only [bound_values, List.filterMap_cons, hval, List.filterMap_nil]
              simp
      · refine ⟨[], ?_⟩
        simp only [proposer_receive_prepare_ack, htab, hfind, hb, lt_self_iff_false,
          if_false, if_true, quorum_add, hq, hv, set_split, hold]
        simp only [held_values, bound_values_split]
        simp only [bound_values, List.filterMap_cons, List.filterMap_nil]
        simp
    · refine ⟨[], ?_⟩
      simp only [proposer_receive_prepare_ack, htab, hfind, h1, hb, if_false,
        prepare_preempt, set_split, hold]
      simp only [held_values, bound_values_split]
      simp only [bound_values, List.filterMap_cons, List.filterMap_nil]
      simp

theorem held_accept (p : proposer) :
    List.Perm
      (held_values (proposer_accept p).2 ++
        bound_values (p.prepare_instances.takeWhile (fun x => x.closed)))
      (held_values p) := by
  have hold : held_values p = p.values ++
      (bound_values (p.prepare_instances.takeWhile (fun x => x.closed)) ++
        bound_values (p.prepare_instances.dropWhile (fun x => x.closed))) ++
      bound_values p.accept_instances := by
    simp only [held_values]
    rw [← bound_values_append, List.takeWhile_append_dropWhile]
  rcases proposer_accept_cases p with hr | ⟨hd, rest, v, vs, hP, -, hval, hr⟩
  · rw [hr, hold]
    simp only [held_values]
    rw [← Multiset.coe_eq_coe]
    simp only [← Multiset.coe_add]
    abel
  · rw [hr, hold, hP]
    have hcons : bound_values (hd :: rest) = bound_values [hd] ++ bound_values rest := by
      simpa using bound_values_split [] rest hd
    rw [hcons]
    simp only [held_values, bound_values_append]
    rcases hval with ⟨hv, hvs⟩ | ⟨hv, hvs⟩
    · subst hvs
      have h1 : bound_values [hd] = [v] := by
        simp [bound_values, List.filterMap_cons, hv]
      have h2 : bound_values [({ hd with value := some v, quorum := ⟨QUORUM, ∅⟩ } : Instance)]
          = [v] := by
        simp [bound_values, List.filterMap_cons]
      rw [h1, h2]
      rw [← Multiset.coe_eq_coe]
      simp only [← Multiset.coe_add]
      abel
    · have h1 : bound_values [hd] = [] := by
        simp [bound_values, List.filterMap_cons, hv]
      have h2 : bound_values [({ hd with value := some v, quorum := ⟨QUORUM, ∅⟩ } : Instance)]
          = [v] := by
        simp [bound_values, List.filterMap_cons]
      have h3 : p.values = [v] ++ vs := by simpa using hvs
      rw [h1, h2, h3]
      rw [← Multiset.coe_eq_coe]
      simp only [← Multiset.coe_add]
      abel

theorem getElem_decomp (tbl : List Instance) (i : Nat) (x : Instance)
    (hget : tbl[i]? = some x) :
    ∃ pre post, tbl = pre ++ x :: post ∧ pre.length = i := by
  induction tbl generalizing i with
  | nil => simp at hget
  | cons a tbl ih =>
    cases i with
    | zero =>
      simp at hget
      subst hget
      exact ⟨[], tbl, rfl, rfl⟩
    | succ i =>
      simp at hget
      obtain ⟨pre, post, h1, h2⟩ := ih i hget
      exact ⟨a :: pre, post, by simp [h1], by simp [h2]⟩

/-- In a table without duplicate IIDs, replacing an instance by one with the same IID
and removing it by IID leaves the rest of the table. -/
theorem instance_remove_set_nodup (pre post : List Instance) (x y : Instance)
    (hnd : (iids (pre ++ x :: post)).Nodup) (hy : y.iid = x.iid) :
    instance_remove ((pre ++ x :: post).set pre.length y) y = pre ++ post := by
  obtain ⟨hpre, hpost⟩ := iids_nodup_split pre post x hnd
  rw [set_split, instance_remove_split pre post y (by rw [hy]; exact hpre),
    filter_iid_ne_self post y.iid (by rw [hy]; exact hpost)]

theorem instance_remove_nodup (pre post : List Instance) (x : Instance)
    (hnd : (iids (pre ++ x :: post)).Nodup) :
    instance_remove (pre ++ x :: post) x = pre ++ post := by
  obtain ⟨hpre, hpost⟩ := iids_nodup_split pre post x hnd
  rw [instance_remove_split pre post x hpre, filter_iid_ne_self post x.iid hpost]

theorem held_demote (p : proposer) (pre post : List Instance)
    (x y : Instance) (htab : p.accept_instances = pre ++ x :: post)
    (hv : y.value = x.value) (vs : List paxos_msg) (hvs : vs = p.values) :
    List.Perm
      (held_values { p with values := vs,
                            accept_instances := pre ++ post,
                            prepare_instances := y :: p.prepare_instances })
      (held_values p) := by
  subst hvs
  have hcons : bound_values (y :: p.prepare_instances) =
      bound_values [x] ++ bound_values p.prepare_instances := by
    have := bound_values_split [] p.prepare_instances y
    simp only [List.nil_append] at this
    rw [this]
    simp [bound_values, List.filterMap_cons, hv]
  simp only [held_values, htab, bound_values_split, hcons]
  simp only [bound_values_append]
  rw [← Multiset.coe_eq_coe]
  simp only [← Multiset.coe_add]
  abel

theorem held_receive_accept_ack (p : proposer) (hwf : TablesWF p) (ack : accept_ack)
    (out : prepare_req) (now : timeval) (r : Int × proposer × prepare_req)
    (h : proposer_receive_accept_ack p ack out now = some r) :
    List.Perm
      (held_values r.2.1 ++
        bound_values (freed_instances p (Op.receive_accept_ack ack out now)))
      (held_values p) := by
  cases hfind : instance_find p.accept_instances ack.iid with
  | none =>
    simp only [proposer_receive_accept_ack, hfind, Option.some.injEq] at h
    subst h
    simp [freed_instances, hfind, bound_values]
  | some fr =>
    obtain ⟨i, inst⟩ := fr
    obtain ⟨pre, post, htab, hlen, hpre, hiid⟩ := instance_find_some _ _ _ _ hfind
    subst hlen
    have hnd : (iids (pre ++ inst :: post)).Nodup := by
      rw [← htab]
      exact (List.nodup_append.mp hwf.2.2).2.1
    rw [htab] at hfind
    by_cases hb : ack.ballot = inst.ballot
    · by_cases hvb : ack.value_ballot = inst.ballot
      · by_cases hq : ack.acceptor_id ∈ inst.quorum.acceptor_ids
        · simp only [proposer_receive_accept_ack, htab, hfind, hb, hvb, if_true, quorum_add,
            hq, Option.some.injEq] at h
          subst h
          simp [freed_instances, htab, hfind, hb, hvb, quorum_add, hq, bound_values]
        · by_cases hreach : quorum_reached
              ⟨inst.quorum.target, insert ack.acceptor_id inst.quorum.acceptor_ids⟩ = true
          · simp only [proposer_receive_accept_ack, htab, hfind, hb, hvb, if_true, quorum_add,
              hq, if_false, hreach, Option.some.injEq] at h
            subst h
            simp only [freed_instances, htab, hfind, hb, hvb, and_self, if_true, quorum_add,
              hq, if_false, hreach]
            rw [instance_remove_set_nodup pre post inst _ hnd (by rfl)]
            have hone : bound_values
                [({ inst with quorum := ⟨inst.quorum.target,
                      insert ack.acceptor_id inst.quorum.acceptor_ids⟩ } : Instance)] =
                bound_values [inst] := by
              simp [bound_values, List.filterMap_cons]
            rw [hone]
            simp only [held_values, htab, bound_values_split]
            simp only [bound_values_append]
            rw [← Multiset.coe_eq_coe]
            simp only [← Multiset.coe_add]
            abel
          · have hreach1 : quorum_reached
                ⟨inst.quorum.target, insert ack.acceptor_id inst.quorum.acceptor_ids⟩ = false := by
              simpa using hreach
            simp only [proposer_receive_accept_ack, htab, hfind, hb, hvb, if_true, quorum_add,
              hq, if_false, hreach1, Bool.false_eq_true, Option.some.injEq] at h
            subst h
            simp only [freed_instances, htab, hfind, hb, hvb, and_self, if_true, quorum_add,
              hq, if_false, hreach1, Bool.false_eq_true, set_split]
            simp only [held_values, htab, bound_values_split]
            simp [bound_values, List.filterMap_cons]
      · simp [proposer_receive_accept_ack, htab, hfind, hb, hvb] at h
    · simp only [proposer_receive_accept_ack, htab, hfind, hb, if_false, prepare_preempt,
        carray_push_front, List.set_cons_zero, Option.some.injEq] at h
      subst h
      have hfree : freed_instances p (Op.receive_accept_ack ack out now) = [] := by
        simp [freed_instances, htab, hfind, hb]
      rw [hfree, instance_remove_nodup pre post inst hnd]
      simp only [bound_values, List.filterMap_nil, List.append_nil]
      exact held_demote p pre post inst _ htab rfl p.values rfl

theorem held_timeout (cfg : paxos_config_t) (iter : timeout_iterator) (p : proposer)
    (hwf : TablesWF p) (req : prepare_req) (now : timeval) :
    List.Perm (held_values (timeout_iterator_next cfg iter p req now).2.2.1)
      (held_values p) := by
  rcases timeout_iterator_next_cases cfg iter p req now with hr | hr | hr
  · rw [hr.2]
  · obtain ⟨i, inst, hget, -, hr⟩ := hr
    rw [hr]
    simp only [held_values]
    rw [bound_values_set _ i inst _ hget (by rfl)]
  · obtain ⟨i, inst, hget, -, hr⟩ := hr
    rw [hr]
    obtain ⟨pre, post, htab, hlen⟩ := getElem_decomp _ i inst hget
    subst hlen
    have hnd : (iids (pre ++ inst :: post)).Nodup := by
      rw [← htab]
      exact (List.nodup_append.mp hwf.2.2).2.1
    simp only [htab]
    rw [instance_remove_set_nodup pre post inst _ hnd (by rfl)]
    exact held_demote p pre post inst _ htab rfl p.values rfl

/-- One call keeps every held value occurrence, up to the instances it frees. -/
theorem held_step (cfg : paxos_config_t) (p : proposer) (op : Op) (p1 : proposer)
    (outs : List Output) (hwf : TablesWF p) (h : step cfg p op = some (p1, outs)) :
    (held_values p).Subperm (held_values p1 ++ bound_values (freed_instances p op)) := by
  cases op with
  | propose v =>
    simp only [step, Option.some.injEq, Prod.mk.injEq] at h
    obtain ⟨h, -⟩ := h
    subst h
    simp only [freed_instances, bound_values, List.filterMap_nil, List.append_nil,
      held_values, proposer_propose, carray_push_back]
    rw [← Multiset.coe_le]
    simp only [← Multiset.coe_add]
    exact Multiset.le_iff_exists_add.mpr ⟨↑[wrap_value v], by abel⟩
  | prepare now =>
    simp only [step, Option.some.injEq, Prod.mk.injEq] at h
    obtain ⟨h, -⟩ := h
    subst h
    simp only [freed_instances, held_values, proposer_prepare, carray_push_back,
      bound_values_append]
    simp [bound_values, List.filterMap_cons, instance_new]
    exact List.Subperm.refl _
  | receive_prepare_ack ack out now =>
    simp only [step, Option.some.injEq, Prod.mk.injEq] at h
    obtain ⟨h, -⟩ := h
    subst h
    obtain ⟨extra, hperm⟩ := held_receive_prepare_ack p ack out now
    simp only [freed_instances, bound_values, List.filterMap_nil, List.append_nil]
    exact (List.sublist_append_left _ extra).subperm.trans hperm.symm.subperm
  | accept =>
    have hperm := held_accept p
    cases hacc : proposer_accept p with
    | mk r q =>
      rw [hacc] at hperm
      have hp1 : p1 = q := by
        cases r <;> simp only [step, hacc, Option.some.injEq, Prod.mk.injEq] at h <;>
          exact h.1.symm
      subst hp1
      simp only [freed_instances]
      exact hperm.symm.subperm
  | receive_accept_ack ack out now =>
    cases hrac : proposer_receive_accept_ack p ack out now with
    | none => simp [step, hrac] at h
    | some r =>
      have hperm := held_receive_accept_ack p hwf ack out now r hrac
      simp only [step, hrac, Option.some.injEq, Prod.mk.injEq] at h
      obtain ⟨h, -⟩ := h
      subst h
      exact hperm.symm.subperm
  | timeout_iterator_next iter req now =>
    simp only [step, Option.some.injEq, Prod.mk.injEq] at h
    obtain ⟨h, -⟩ := h
    subst h
    simp only [freed_instances, bound_values, List.filterMap_nil, List.append_nil]
    exact (held_timeout cfg iter p hwf req now).symm.subperm

theorem reachable_TablesWF (cfg : paxos_config_t) (id : Nat) (ops : List Op)
    (p : proposer) (hrun : (run cfg (proposer_new id) ops).1 = some p) : TablesWF p :=
  run_state_induction cfg TablesWF
    (fun q op q1 outs hq hs => (TablesWF_step cfg q op q1 outs hs hq).1)
    ops (proposer_new id) p (TablesWF_new id) hrun

/-- C16: no value is lost.  In every state `p` reachable from `proposer_new` and for
every operation that returns, each value occurrence that is in the value queue or
bound to an instance of the prepare or the accept table before the call is, counted
with multiplicity, afterwards still in the value queue or bound to an instance of a
table, or was bound to an instance the call freed (the closed heads reaped by
`proposer_accept`, the instance that reached its accept quorum in
`proposer_receive_accept_ack`).  And `proposer_propose p v` is `p` with the wrapped
`v` appended at the back of the value queue, every other field unchanged. -/
theorem no_value_lost (cfg : paxos_config_t) (id : Nat) (ops : List Op)
    (p : proposer) (op : Op) (p1 : proposer) (outs : List Output)
    (hrun : (run cfg (proposer_new id) ops).1 = some p)
    (hstep : step cfg p op = some (p1, outs)) :
    (held_values p).Subperm (held_values p1 ++ bound_values (freed_instances p op)) ∧
    (∀ v, proposer_propose p v = { p with values := p.values ++ [⟨v⟩] }) ∧
    (∀ v, step cfg p (Op.propose v) =
      some ({ p with values := p.values ++ [⟨v⟩] }, [])) := by
  refine ⟨held_step cfg p op p1 outs (reachable_TablesWF cfg id ops p hrun) hstep, ?_, ?_⟩
  · intro v
    rfl
  · intro v
    rfl

theorem no_value_lost_witness :
    List.Subperm ([⟨[120]⟩, ⟨[121]⟩] : List paxos_msg)
      ([⟨[120]⟩, ⟨[121]⟩, ⟨[122]⟩] ++ []) :=
  (no_value_lost ⟨1000000⟩ 1
    [Op.propose [120], Op.prepare ⟨0, 0⟩,
      Op.receive_prepare_ack ⟨1, 1, 11, 5, [121]⟩ ⟨0, 0⟩ ⟨0, 0⟩]
    ⟨1, [⟨[120]⟩], 1, [⟨1, 11, 5, some ⟨[121]⟩, false, ⟨2, {1}⟩, ⟨0, 0⟩⟩], []⟩
    (Op.receive_prepare_ack ⟨1, 2, 11, 7, [122]⟩ ⟨0, 0⟩ ⟨0, 0⟩)
    ⟨1, [⟨[120]⟩, ⟨[121]⟩], 1,
      [⟨1, 11, 7, some ⟨[122]⟩, false, ⟨2, {2, 1}⟩, ⟨0, 0⟩⟩], []⟩
    [] rfl rfl).1

/-! ## The quorum size of the live instances -/

theorem proposer_receive_prepare_ack_quorum (p : proposer) (ack : prepare_ack)
    (out : prepare_req) (now : timeval) :
    proposer_receive_prepare_ack p ack out now = (0, p, out) ∨
    (∃ i inst inst1 vs r out1,
      instance_find p.prepare_instances ack.iid = some (i, inst) ∧
      (inst1.quorum.target = inst.quorum.target ∨ inst1.quorum.target = QUORUM) ∧
      proposer_receive_prepare_ack p ack out now =
        (r, { p with values := vs, prepare_instances := p.prepare_instances.set i inst1 },
          out1)) := by
  cases hfind : instance_find p.prepare_instances ack.iid with
  | none =>
    left
    simp only [proposer_receive_prepare_ack, hfind]
  | some fr =>
    obtain ⟨i, inst⟩ := fr
    by_cases h1 : ack.ballot < inst.ballot
    · left
      simp only [proposer_receive_prepare_ack, hfind, h1, if_true]
    by_cases hb : ack.ballot = inst.ballot
    · by_cases hq : ack.acceptor_id ∈ inst.quorum.acceptor_ids
      · left
        simp only [proposer_receive_prepare_ack, hfind, hb, lt_self_iff_false, if_false,
          if_true, quorum_add, hq]
      · right
        by_cases hv : ack.value_size > 0
        · cases hval : inst.value with
          | none =>
            refine ⟨i, inst, { inst with
                quorum := ⟨inst.quorum.target, insert ack.acceptor_id inst.quorum.acceptor_ids⟩,
                value_ballot := ack.value_ballot,
                value := some ⟨ack.value⟩ }, p.values, 0, out, rfl, Or.inl rfl, ?_⟩
            simp only [proposer_receive_prepare_ack, hfind, hb, lt_self_iff_false,
              if_false, if_true, quorum_add, hq, hv, hval, wrap_value]
          | some v =>
            by_cases hgt : ack.value_ballot > inst.value_ballot
            · refine ⟨i, inst, { inst with
                  quorum := ⟨inst.quorum.target, insert ack.acceptor_id inst.quorum.acceptor_ids⟩,
                  value_ballot := ack.value_ballot,
                  value := some ⟨ack.value⟩ }, p.values ++ [v], 0, out, rfl, Or.inl rfl, ?_⟩
              simp only [proposer_receive_prepare_ack, hfind, hb, lt_self_iff_false,
                if_false, if_true, quorum_add, hq, hv, hval, hgt, wrap_value, carray_push_back]
            · by_cases hne : ack.value_ballot = inst.value_ballot
              · refine ⟨i, inst, { inst with
                    quorum := ⟨inst.quorum.target, insert ack.acceptor_id inst.quorum.acceptor_ids⟩,
                    closed := true }, p.values, 0, out, rfl, Or.inl rfl, ?_⟩
                have h2 : ¬ inst.value_ballot > inst.value_ballot := by omega
                simp only [proposer_receive_prepare_ack, hfind, hb, lt_self_iff_false,
                  if_false, if_true, quorum_add, hq, hv, hval, hne, h2]
              · refine ⟨i, inst, { inst with
                    quorum := ⟨inst.quorum.target, insert ack.acceptor_id inst.quorum.acceptor_ids⟩ },
                  p.values, 0, out, rfl, Or.inl rfl, ?_⟩
                simp only [proposer_receive_prepare_ack, hfind, hb, lt_self_iff_false,
                  if_false, if_true, quorum_add, hq, hv, hval, hgt, hne]
        · refine ⟨i, inst, { inst with
              quorum := ⟨inst.quorum.target, insert ack.acceptor_id inst.quorum.acceptor_ids⟩ },
            p.values, 0, out, rfl, Or.inl rfl, ?_⟩
          simp only [proposer_receive_prepare_ack, hfind, hb, lt_self_iff_false,
            if_false, if_true, quorum_add, hq, hv]
    · right
      refine ⟨i, inst, { inst with ballot := proposer_next_ballot p inst.ballot,
                                   quorum := ⟨QUORUM, ∅⟩,
                                   created_at := now }, p.values, 1,
        ⟨inst.iid, proposer_next_ballot p inst.ballot⟩, rfl, Or.inr rfl, ?_⟩
      simp only [proposer_receive_prepare_ack, hfind, h1, hb, if_false, prepare_preempt,
        quorum_init]

theorem proposer_receive_accept_ack_quorum (p : proposer) (ack : accept_ack)
    (out : prepare_req) (now : timeval) (r : Int × proposer × prepare_req)
    (h : proposer_receive_accept_ack p ack out now = some r)
    (hq : ∀ x ∈ p.prepare_instances ++ p.accept_instances, x.quorum.target = QUORUM) :
    ∀ y ∈ r.2.1.prepare_instances ++ r.2.1.accept_instances,
      y.quorum.target = QUORUM := by
  have hP : ∀ y, y ∈ p.prepare_instances → y.quorum.target = QUORUM :=
    fun y hy => hq y (List.mem_append_left _ hy)
  have hA : ∀ y, y ∈ p.accept_instances → y.quorum.target = QUORUM :=
    fun y hy => hq y (List.mem_append_right _ hy)
  rcases proposer_receive_accept_ack_cases p ack out now with hr | hr | hr | hr
  · rw [hr] at h
    cases h
  · rw [hr] at h
    cases h
    exact hq
  · obtain ⟨i, inst, inst1, hfind, hb, -, -, -⟩ := hr
    have hinst := (instance_find_get _ _ _ _ hfind).2.2
    by_cases hvb : ack.value_ballot = inst.ballot
    · by_cases hmem : ack.acceptor_id ∈ inst.quorum.acceptor_ids
      · simp only [proposer_receive_accept_ack, hfind, hb, hvb, if_true, quorum_add,
          hmem, Option.some.injEq] at h
        subst h
        exact hq
      · have hset : ∀ z ∈ p.accept_instances.set i
            { inst with quorum :=
                ⟨inst.quorum.target, insert ack.acceptor_id inst.quorum.acceptor_ids⟩ },
            z.quorum.target = QUORUM := by
          intro z hz
          rcases List.mem_or_eq_of_mem_set hz with h | h
          · exact hA z h
          · subst h
            exact hA inst hinst
        by_cases hreach : quorum_reached
            ⟨inst.quorum.target, insert ack.acceptor_id inst.quorum.acceptor_ids⟩ = true
        · simp only [proposer_receive_accept_ack, hfind, hb, hvb, if_true, quorum_add,
            hmem, if_false, hreach, Option.some.injEq] at h
          subst h
          intro y hy
          rcases List.mem_append.mp hy with hy | hy
          · exact hP y hy
          · exact hset y ((mem_instance_remove _ _ _).mp hy).1
        · have hreach1 : quorum_reached
              ⟨inst.quorum.target, insert ack.acceptor_id inst.quorum.acceptor_ids⟩
                = false := by
            simpa using hreach
          simp only [proposer_receive_accept_ack, hfind, hb, hvb, if_true, quorum_add,
            hmem, if_false, hreach1, Bool.false_eq_true, Option.some.injEq] at h
          subst h
          intro y hy
          rcases List.mem_append.mp hy with hy | hy
          · exact hP y hy
          · exact hset y hy
    · simp [proposer_receive_accept_ack, hfind, hb, hvb] at h
  · obtain ⟨i, inst, hfind, -, hr⟩ := hr
    rw [hr] at h
    cases h
    intro y hy
    simp only [List.mem_append, List.mem_cons] at hy
    rcases hy with (hy | hy) | hy
    · subst hy
      rfl
    · exact hP y hy
    · exact hA y ((mem_instance_remove _ _ _).mp hy).1

theorem step_quorum_target (cfg : paxos_config_t) (p : proposer) (op : Op)
    (p1 : proposer) (outs : List Output) (h : step cfg p op = some (p1, outs))
    (hq : ∀ x ∈ p.prepare_instances ++ p.accept_instances, x.quorum.target = QUORUM) :
    ∀ y ∈ p1.prepare_instances ++ p1.accept_instances, y.quorum.target = QUORUM := by
  have hP : ∀ y, y ∈ p.prepare_instances → y.quorum.target = QUORUM :=
    fun y hy => hq y (List.mem_append_left _ hy)
  have hA : ∀ y, y ∈ p.accept_instances → y.quorum.target = QUORUM :=
    fun y hy => hq y (List.mem_append_right _ hy)
  cases op with
  | propose value =>
    simp only [step, Option.some.injEq, Prod.mk.injEq] at h
    obtain ⟨rfl, rfl⟩ := h
    exact hq
  | prepare now =>
    simp only [step, Option.some.injEq, Prod.mk.injEq] at h
    obtain ⟨rfl, rfl⟩ := h
    intro y hy
    simp only [proposer_prepare, carray_push_back, List.mem_append,
      List.mem_singleton] at hy
    rcases hy with (hy | hy) | hy
    · exact hP y hy
    · subst hy
      rfl
    · exact hA y hy
  | receive_prepare_ack ack out now =>
    simp only [step, Option.some.injEq, Prod.mk.injEq] at h
    obtain ⟨rfl, rfl⟩ := h
    rcases proposer_receive_prepare_ack_quorum p ack out now with hr | hr
    · rw [hr]
      exact hq
    · obtain ⟨i, inst, inst1, vs, r, out1, hfind, ht, hr⟩ := hr
      rw [hr]
      have hinst := (instance_find_get _ _ _ _ hfind).2.2
      intro y hy
      rcases List.mem_append.mp hy with hy | hy
      · rcases List.mem_or_eq_of_mem_set hy with h | h
        · exact hP y h
        · subst h
          rcases ht with ht | ht
          · rw [ht]
            exact hP inst hinst
          · exact ht
      · exact hA y hy
  | accept =>
    rcases proposer_accept_cases p with hr | hr
    · simp only [step, hr, Option.some.injEq, Prod.mk.injEq] at h
      obtain ⟨rfl, rfl⟩ := h
      intro y hy
      rcases List.mem_append.mp hy with hy | hy
      · exact hP y ((List.dropWhile_sublist _).subset hy)
      · exact hA y hy
    · obtain ⟨hd, rest, v, vs, hPd, -, -, hr⟩ := hr
      simp only [step, hr, Option.some.injEq, Prod.mk.injEq] at h
      obtain ⟨rfl, rfl⟩ := h
      have hsub : ∀ z ∈ hd :: rest, z ∈ p.prepare_instances := by
        intro z hz
        rw [← hPd] at hz
        exact (List.dropWhile_sublist _).subset hz
      intro y hy
      simp only [List.mem_append, List.mem_singleton] at hy
      rcases hy with hy | hy | hy
      · exact hP y (hsub y (List.mem_cons_of_mem _ hy))
      · exact hA y hy
      · subst hy
        rfl
  | receive_accept_ack ack out now =>
    cases hrac : proposer_receive_accept_ack p ack out now with
    | none => simp [step, hrac] at h
    | some r =>
      simp only [step, hrac, Option.some.injEq, Prod.mk.injEq] at h
      obtain ⟨rfl, -⟩ := h
      exact proposer_receive_accept_ack_quorum p ack out now r hrac hq
  | timeout_iterator_next iter req now =>
    simp only [step, Option.some.injEq, Prod.mk.injEq] at h
    obtain ⟨rfl, rfl⟩ := h
    rcases timeout_iterator_next_cases cfg iter p req now with hr | hr | hr
    · obtain ⟨-, hr⟩ := hr
      rw [hr]
      exact hq
    · obtain ⟨i, inst, hget, -, hr⟩ := hr
      rw [hr]
      intro y hy
      rcases List.mem_append.mp hy with hy | hy
      · rcases List.mem_or_eq_of_mem_set hy with h | h
        · exact hP y h
        · subst h
          exact hP inst (List.getElem?_mem hget)
      · exact hA y hy
    · obtain ⟨i, inst, hget, -, hr⟩ := hr
      rw [hr]
      intro y hy
      simp only [List.mem_append, List.mem_cons] at hy
      rcases hy with (hy | hy) | hy
      · subst hy
        rfl
      · exact hP y hy
      · obtain ⟨hy1, -⟩ := (mem_instance_remove _ _ _).mp hy
        rcases List.mem_or_eq_of_mem_set hy1 with h | h
        · exact hA y h
        · subst h
          rfl

theorem reachable_quorum_target (cfg : paxos_config_t) (id : Nat) (ops : List Op)
    (p : proposer) (hrun : (run cfg (proposer_new id) ops).1 = some p) :
    ∀ x ∈ p.prepare_instances ++ p.accept_instances, x.quorum.target = QUORUM :=
  run_state_induction cfg
    (fun q => ∀ x ∈ q.prepare_instances ++ q.accept_instances, x.quorum.target = QUORUM)
    (fun q op q1 outs hq hs => step_quorum_target cfg q op q1 outs hs hq)
    ops (proposer_new id) p (by simp [proposer_new]) hrun

/-! ## Completing the accept quorum in a reachable state -/

/-- C10: for every proposer state `p` reachable from `proposer_new` and every ACCEPTED
`ack`.  An ACCEPTED whose IID is not in the accept table returns 0 and changes nothing.
When the accept table holds an instance `inst` with `inst.iid = ack.iid` and
`ack.ballot = inst.ballot`: with `ack.value_ballot ≠ inst.ballot` the call fails its
assertion instead of returning; otherwise it returns 0 and (a) if `ack.acceptor_id` is
already in the quorum of `inst` the state is unchanged, (b) if adding it makes the
quorum reached, `inst` is removed from the accept table, nothing else changes, and no
instance with that IID remains in either table, (c) otherwise the only change is that
`ack.acceptor_id` is added to the quorum of `inst`.  The quorum of every instance of the
accept table counts up to `QUORUM = 2`: it is reached by adding an acceptor exactly when
that makes at least 2 distinct acceptors. -/
theorem proposer_receive_accept_ack_spec (cfg : paxos_config_t) (id : Nat)
    (ops : List Op) (p : proposer) (ack : accept_ack) (out : prepare_req) (now : timeval)
    (hrun : (run cfg (proposer_new id) ops).1 = some p) :
    ((∀ x ∈ p.accept_instances, x.iid ≠ ack.iid) →
      proposer_receive_accept_ack p ack out now = some (0, p, out)) ∧
    (∀ (pre post : List Instance) (inst : Instance),
      p.accept_instances = pre ++ inst :: post →
      inst.iid = ack.iid → ack.ballot = inst.ballot →
      (ack.value_ballot ≠ inst.ballot → proposer_receive_accept_ack p ack out now = none) ∧
      (ack.value_ballot = inst.ballot →
        (ack.acceptor_id ∈ inst.quorum.acceptor_ids →
          proposer_receive_accept_ack p ack out now = some (0, p, out)) ∧
        (ack.acceptor_id ∉ inst.quorum.acceptor_ids →
          quorum_reached ⟨inst.quorum.target, insert ack.acceptor_id inst.quorum.acceptor_ids⟩
            = true →
          proposer_receive_accept_ack p ack out now =
            some (0, { p with accept_instances := pre ++ post }, out) ∧
          (∀ x ∈ p.prepare_instances ++ (pre ++ post), x.iid ≠ ack.iid)) ∧
        (ack.acceptor_id ∉ inst.quorum.acceptor_ids →
          quorum_reached ⟨inst.quorum.target, insert ack.acceptor_id inst.quorum.acceptor_ids⟩
            = false →
          proposer_receive_accept_ack p ack out now =
            some (0, { p with accept_instances :=
                        pre ++ { inst with quorum :=
                          ⟨inst.quorum.target,
                            insert ack.acceptor_id inst.quorum.acceptor_ids⟩ } :: post },
                  out)))) ∧
    (∀ inst ∈ p.accept_instances, inst.quorum.target = 2 ∧
      (quorum_reached ⟨inst.quorum.target, insert ack.acceptor_id inst.quorum.acceptor_ids⟩
          = true ↔
        2 ≤ (insert ack.acceptor_id inst.quorum.acceptor_ids).card)) := by
  obtain ⟨hnone, -, hsome⟩ := proposer_receive_accept_ack_any_state p ack out now
  refine ⟨hnone, ?_, ?_⟩
  rotate_left
  · intro inst hinst
    have ht : inst.quorum.target = 2 :=
      reachable_quorum_target cfg id ops p hrun inst (List.mem_append_right _ hinst)
    refine ⟨ht, ?_⟩
    simp only [quorum_reached, ht, decide_eq_true_eq]
  intro pre post inst htab hiid hb
  have hnd := reachable_iids_nodup cfg id ops p hrun
  obtain ⟨-, hndA, hdis⟩ := List.nodup_append.mp hnd
  rw [htab] at hndA
  obtain ⟨hpre, hpost⟩ := iids_nodup_split pre post inst hndA
  rw [hiid] at hpre hpost
  obtain ⟨hassert, hret⟩ := hsome pre post inst htab hpre hiid hb
  refine ⟨hassert, ?_⟩
  intro hvb
  obtain ⟨ha, hb1, hc⟩ := hret hvb
  refine ⟨ha, ?_, hc⟩
  intro hq hreach
  obtain ⟨heq, -, -⟩ := hb1 hq hreach
  rw [filter_iid_ne_self post ack.iid hpost] at heq
  refine ⟨heq, ?_⟩
  intro x hx he
  rcases List.mem_append.mp hx with h | h
  · have h1 : ack.iid ∈ iids p.prepare_instances := he ▸ List.mem_map_of_mem _ h
    have h2 : ack.iid ∈ iids p.accept_instances := by
      rw [htab]
      exact hiid ▸ List.mem_map_of_mem _ (List.mem_append_right _ (List.mem_cons_self _ _))
    exact hdis h1 h2
  · rcases List.mem_append.mp h with h | h
    · exact hpre x h he
    · exact hpost x h he

/-- Witness of C10, scenario S1: instance 1 was accepted at ballot 11 and has the
ACCEPTED of acceptor 1; the ACCEPTED of acceptor 2 completes the quorum and the
instance is removed, leaving both tables empty. -/
theorem proposer_receive_accept_ack_spec_witness :
    proposer_receive_accept_ack
        ⟨1, [], 1, [], [⟨1, 11, 0, some ⟨[120]⟩, false, ⟨2, {1}⟩, ⟨0, 0⟩⟩]⟩
        ⟨1, 2, 11, 11⟩ ⟨0, 0⟩ ⟨0, 0⟩ =
      some (0, ⟨1, [], 1, [], []⟩, ⟨0, 0⟩) :=
  ((((proposer_receive_accept_ack_spec ⟨1000000⟩ 1
      [Op.propose [120], Op.prepare ⟨0, 0⟩,
        Op.receive_prepare_ack ⟨1, 1, 11, 0, []⟩ ⟨0, 0⟩ ⟨0, 0⟩,
        Op.receive_prepare_ack ⟨1, 2, 11, 0, []⟩ ⟨0, 0⟩ ⟨0, 0⟩,
        Op.accept,
        Op.receive_accept_ack ⟨1, 1, 11, 11⟩ ⟨0, 0⟩ ⟨0, 0⟩]
      ⟨1, [], 1, [], [⟨1, 11, 0, some ⟨[120]⟩, false, ⟨2, {1}⟩, ⟨0, 0⟩⟩]⟩
      ⟨1, 2, 11, 11⟩ ⟨0, 0⟩ ⟨0, 0⟩ rfl).2.1 [] []
      ⟨1, 11, 0, some ⟨[120]⟩, false, ⟨2, {1}⟩, ⟨0, 0⟩⟩ rfl rfl rfl).2 rfl).2.1
      (by decide) (by decide)).1

/-! ## The ballots of the PrepareRequests of one instance -/

/-- After a call, every instance of the two tables has the IID and the ballot of an
instance that was in the tables before the call, or of a PrepareRequest the call
hands back. -/
theorem step_ballot_emitted (cfg : paxos_config_t) (p : proposer) (op : Op)
    (p1 : proposer) (outs : List Output) (h : step cfg p op = some (p1, outs)) :
    ∀ y ∈ p1.prepare_instances ++ p1.accept_instances,
      (∃ x ∈ p.prepare_instances ++ p.accept_instances,
        x.iid = y.iid ∧ x.ballot = y.ballot) ∨
      Output.prepare ⟨y.iid, y.ballot⟩ ∈ outs := by
  have hsame : ∀ y, y ∈ p.prepare_instances ++ p.accept_instances →
      ∃ x ∈ p.prepare_instances ++ p.accept_instances,
        x.iid = y.iid ∧ x.ballot = y.ballot :=
    fun y hy => ⟨y, hy, rfl, rfl⟩
  have hP : ∀ y, y ∈ p.prepare_instances → y ∈ p.prepare_instances ++ p.accept_instances :=
    fun y hy => List.mem_append_left _ hy
  have hA : ∀ y, y ∈ p.accept_instances → y ∈ p.prepare_instances ++ p.accept_instances :=
    fun y hy => List.mem_append_right _ hy
  intro y hy
  cases op with
  | propose value =>
    simp only [step, Option.some.injEq, Prod.mk.injEq] at h
    obtain ⟨rfl, rfl⟩ := h
    exact Or.inl (hsame y hy)
  | prepare now =>
    simp only [step, Option.some.injEq, Prod.mk.injEq] at h
    obtain ⟨rfl, rfl⟩ := h
    simp only [proposer_prepare, carray_push_back, List.mem_append,
      List.mem_singleton] at hy
    rcases hy with (hy | hy) | hy
    · exact Or.inl (hsame y (hP y hy))
    · subst hy
      exact Or.inr (by simp [proposer_prepare, instance_new])
    · exact Or.inl (hsame y (hA y hy))
  | receive_prepare_ack ack out now =>
    simp only [step, Option.some.injEq, Prod.mk.injEq] at h
    obtain ⟨rfl, rfl⟩ := h
    rcases proposer_receive_prepare_ack_cases p ack out now with hr | hr | hr
    · rw [hr] at hy ⊢
      exact Or.inl (hsame y hy)
    · obtain ⟨i, inst, inst1, vs, hfind, -, hiid1, hb1, hr⟩ := hr
      rw [hr] at hy ⊢
      rcases List.mem_append.mp hy with hy | hy
      · rcases List.mem_or_eq_of_mem_set hy with h | h
        · exact Or.inl (hsame y (hP y h))
        · subst h
          exact Or.inl ⟨inst, hP inst (instance_find_get _ _ _ _ hfind).2.2,
            hiid1.symm, hb1.symm⟩
      · exact Or.inl (hsame y (hA y hy))
    · obtain ⟨i, inst, hfind, -, hr⟩ := hr
      rw [hr] at hy ⊢
      rcases List.mem_append.mp hy with hy | hy
      · rcases List.mem_or_eq_of_mem_set hy with h | h
        · exact Or.inl (hsame y (hP y h))
        · subst h
          exact Or.inr (by simp)
      · exact Or.inl (hsame y (hA y hy))
  | accept =>
    rcases proposer_accept_cases p with hr | hr
    · simp only [step, hr, Option.some.injEq, Prod.mk.injEq] at h
      obtain ⟨rfl, rfl⟩ := h
      rcases List.mem_append.mp hy with hy | hy
      · exact Or.inl (hsame y (hP y ((List.dropWhile_sublist _).subset hy)))
      · exact Or.inl (hsame y (hA y hy))
    · obtain ⟨hd, rest, v, vs, hPd, -, -, hr⟩ := hr
      simp only [step, hr, Option.some.injEq, Prod.mk.injEq] at h
      obtain ⟨rfl, rfl⟩ := h
      have hsub : ∀ z ∈ hd :: rest, z ∈ p.prepare_instances := by
        intro z hz
        rw [← hPd] at hz
        exact (List.dropWhile_sublist _).subset hz
      simp only [List.mem_append, List.mem_singleton] at hy
      rcases hy with hy | hy | hy
      · exact Or.inl (hsame y (hP y (hsub y (List.mem_cons_of_mem _ hy))))
      · exact Or.inl (hsame y (hA y hy))
      · subst hy
        exact Or.inl ⟨hd, hP hd (hsub hd (List.mem_cons_self _ _)), rfl, rfl⟩
  | receive_accept_ack ack out now =>
    rcases proposer_receive_accept_ack_cases p ack out now with hr | hr | hr | hr
    · simp [step, hr] at h
    · simp only [step, hr, Option.some.injEq, Prod.mk.injEq] at h
      obtain ⟨rfl, rfl⟩ := h
      exact Or.inl (hsame y hy)
    · obtain ⟨i, inst, inst1, hfind, -, hiid1, hb1, hr⟩ := hr
      have hset : ∀ z ∈ p.accept_instances.set i inst1,
          ∃ x ∈ p.prepare_instances ++ p.accept_instances,
            x.iid = z.iid ∧ x.ballot = z.ballot := by
        intro z hz
        rcases List.mem_or_eq_of_mem_set hz with h | h
        · exact ⟨z, hA z h, rfl, rfl⟩
        · subst h
          exact ⟨inst, hA inst (instance_find_get _ _ _ _ hfind).2.2, hiid1.symm, hb1.symm⟩
      rcases hr with hr | hr
      · simp only [step, hr, Option.some.injEq, Prod.mk.injEq] at h
        obtain ⟨rfl, rfl⟩ := h
        rcases List.mem_append.mp hy with hy | hy
        · exact Or.inl (hsame y (hP y hy))
        · exact Or.inl (hset y hy)
      · simp only [step, hr, Option.some.injEq, Prod.mk.injEq] at h
        obtain ⟨rfl, rfl⟩ := h
        rcases List.mem_append.mp hy with hy | hy
        · exact Or.inl (hsame y (hP y hy))
        · exact Or.inl (hset y ((mem_instance_remove _ _ _).mp hy).1)
    · obtain ⟨i, inst, hfind, -, hr⟩ := hr
      simp only [step, hr, Option.some.injEq, Prod.mk.injEq] at h
      obtain ⟨rfl, rfl⟩ := h
      simp only [List.mem_append, List.mem_cons] at hy
      rcases hy with (hy | hy) | hy
      · subst hy
        exact Or.inr (by simp)
      · exact Or.inl (hsame y (hP y hy))
      · exact Or.inl (hsame y (hA y ((mem_instance_remove _ _ _).mp hy).1))
  | timeout_iterator_next iter req now =>
    simp only [step, Option.some.injEq, Prod.mk.injEq] at h
    obtain ⟨rfl, rfl⟩ := h
    rcases timeout_iterator_next_cases cfg iter p req now with hr | hr | hr
    · obtain ⟨-, hr⟩ := hr
      rw [hr] at hy
      exact Or.inl (hsame y hy)
    · obtain ⟨i, inst, hget, -, hr⟩ := hr
      rw [hr] at hy
      rcases List.mem_append.mp hy with hy | hy
      · rcases List.mem_or_eq_of_mem_set hy with h | h
        · exact Or.inl (hsame y (hP y h))
        · subst h
          exact Or.inl ⟨inst, hP inst (List.getElem?_mem hget), rfl, rfl⟩
      · exact Or.inl (hsame y (hA y hy))
    · obtain ⟨i, inst, hget, hr1, hr⟩ := hr
      rw [hr] at hy
      rw [hr1, hr]
      simp only [List.mem_append, List.mem_cons] at hy
      rcases hy with (hy | hy) | hy
      · subst hy
        exact Or.inr (by simp)
      · exact Or.inl (hsame y (hP y hy))
      · obtain ⟨hy1, hy2⟩ := (mem_instance_remove _ _ _).mp hy
        rcases List.mem_or_eq_of_mem_set hy1 with h | h
        · exact Or.inl (hsame y (hA y h))
        · exact absurd (by rw [h]) hy2

/-- The invariant on the requests handed back so far and the tables: every PrepareRequest
seen has a ballot at most that of the live instance with its IID, and every live
instance has the IID and ballot of a PrepareRequest seen. -/
theorem prepare_trace_step (cfg : paxos_config_t) (seen : List Output) (p : proposer)
    (op : Op) (p1 : proposer) (outs : List Output)
    (hinv : (TablesWF p ∧ ∀ s, Output.prepare s ∈ seen →
        s.iid ≤ p.next_prepare_iid ∧
        (∀ x ∈ p.prepare_instances ++ p.accept_instances, x.iid = s.iid →
          s.ballot ≤ x.ballot)) ∧
      (∀ x ∈ p.prepare_instances ++ p.accept_instances,
        Output.prepare ⟨x.iid, x.ballot⟩ ∈ seen))
    (h : step cfg p op = some (p1, outs)) :
    (TablesWF p1 ∧ ∀ s, Output.prepare s ∈ seen ++ outs →
        s.iid ≤ p1.next_prepare_iid ∧
        (∀ x ∈ p1.prepare_instances ++ p1.accept_instances, x.iid = s.iid →
          s.ballot ≤ x.ballot)) ∧
      (∀ x ∈ p1.prepare_instances ++ p1.accept_instances,
        Output.prepare ⟨x.iid, x.ballot⟩ ∈ seen ++ outs) := by
  refine ⟨(prepare_ballot_step cfg seen p op p1 outs hinv.1 h).1, ?_⟩
  intro y hy
  rcases step_ballot_emitted cfg p op p1 outs h y hy with ⟨x, hx, hiid, hb⟩ | hout
  · have := hinv.2 x hx
    rw [hiid, hb] at this
    exact List.mem_append_left _ this
  · exact List.mem_append_right _ hout

theorem run_prepare_trace (cfg : paxos_config_t) (id : Nat) (ops : List Op)
    (p : proposer) (hrun : (run cfg (proposer_new id) ops).1 = some p) :
    (TablesWF p ∧ ∀ s, Output.prepare s ∈ (run cfg (proposer_new id) ops).2 →
        s.iid ≤ p.next_prepare_iid ∧
        (∀ x ∈ p.prepare_instances ++ p.accept_instances, x.iid = s.iid →
          s.ballot ≤ x.ballot)) ∧
      (∀ x ∈ p.prepare_instances ++ p.accept_instances,
        Output.prepare ⟨x.iid, x.ballot⟩ ∈ (run cfg (proposer_new id) ops).2) := by
  have hI := run_trace_induction cfg
    (fun seen p => (TablesWF p ∧ ∀ s, Output.prepare s ∈ seen →
        s.iid ≤ p.next_prepare_iid ∧
        (∀ x ∈ p.prepare_instances ++ p.accept_instances, x.iid = s.iid →
          s.ballot ≤ x.ballot)) ∧
      (∀ x ∈ p.prepare_instances ++ p.accept_instances,
        Output.prepare ⟨x.iid, x.ballot⟩ ∈ seen))
    (fun seen p op p1 outs hI hs => prepare_trace_step cfg seen p op p1 outs hI hs)
    ops [] (proposer_new id) p
    ⟨⟨TablesWF_new id, by simp⟩, by simp [proposer_new]⟩ hrun
  simpa only [List.nil_append] using hI

/-- C17 (amended): in every run from `proposer_new`, the ballots of the successive
PrepareRequests for one IID never decrease.  A PrepareRequest handed back by
`proposer_prepare` or by a preemption in `proposer_receive_prepare_ack` or
`proposer_receive_accept_ack` carries a ballot strictly greater than the ballot of every
earlier PrepareRequest with the same IID.  A PrepareRequest handed back by
`timeout_iterator_next` either retries an instance `inst` of the prepare table, which
keeps its ballot (only `created_at` is refreshed): the request `{inst.iid, inst.ballot}`
repeats an earlier PrepareRequest, the one with the greatest ballot so far for that
IID; or it is for an instance `inst` of the accept table, which heads the prepare table
afterwards with the ballot `proposer_next_ballot p inst.ballot`: the request carries
that ballot, strictly greater than the ballot of every earlier PrepareRequest with the
same IID. -/
theorem prepare_ballots_nondecreasing (cfg : paxos_config_t) (id : Nat) (ops : List Op) :
    (∀ (l1 : List Output) (r : prepare_req) (l2 : List Output),
      (run cfg (proposer_new id) ops).2 = l1 ++ Output.prepare r :: l2 →
      ∀ s, Output.prepare s ∈ l1 → s.iid = r.iid → s.ballot ≤ r.ballot) ∧
    (∀ (p : proposer) (op : Op) (p1 : proposer) (outs : List Output) (r : prepare_req),
      (run cfg (proposer_new id) ops).1 = some p → step cfg p op = some (p1, outs) →
      Output.prepare r ∈ outs → op.is_timeout = false →
      ∀ s, Output.prepare s ∈ (run cfg (proposer_new id) ops).2 → s.iid = r.iid →
        s.ballot < r.ballot) ∧
    (∀ (p : proposer) (iter : timeout_iterator) (req : prepare_req) (now : timeval)
      (p1 : proposer) (outs : List Output) (r : prepare_req),
      (run cfg (proposer_new id) ops).1 = some p →
      step cfg p (Op.timeout_iterator_next iter req now) = some (p1, outs) →
      Output.prepare r ∈ outs →
      (∃ i inst, p.prepare_instances[i]? = some inst ∧
        r = ⟨inst.iid, inst.ballot⟩ ∧
        p1 = { p with prepare_instances :=
                p.prepare_instances.set i { inst with created_at := now } } ∧
        Output.prepare r ∈ (run cfg (proposer_new id) ops).2 ∧
        (∀ s, Output.prepare s ∈ (run cfg (proposer_new id) ops).2 → s.iid = r.iid →
          s.ballot ≤ r.ballot)) ∨
      (∃ inst ∈ p.accept_instances,
        r = ⟨inst.iid, proposer_next_ballot p inst.ballot⟩ ∧
        p1.prepare_instances =
          { inst with ballot := proposer_next_ballot p inst.ballot,
                      quorum := ⟨QUORUM, ∅⟩,
                      created_at := now } :: p.prepare_instances ∧
        (∀ s, Output.prepare s ∈ (run cfg (proposer_new id) ops).2 → s.iid = r.iid →
          s.ballot < r.ballot))) := by
  refine ⟨?_, ?_, ?_⟩
  · intro l1 r l2 h s hs hiid
    have key := run_trace_pairs cfg
      (fun seen p => TablesWF p ∧ ∀ s, Output.prepare s ∈ seen →
        s.iid ≤ p.next_prepare_iid ∧
        (∀ x ∈ p.prepare_instances ++ p.accept_instances, x.iid = s.iid →
          s.ballot ≤ x.ballot))
      (fun seen o => ∀ r, o = Output.prepare r →
        ∀ s, Output.prepare s ∈ seen → s.iid = r.iid → s.ballot ≤ r.ballot)
      (fun seen p op p1 outs hI hs =>
        ⟨(prepare_ballot_step cfg seen p op p1 outs hI hs).1,
          fun o ho r hr s hs1 he =>
            ((prepare_ballot_step cfg seen p op p1 outs hI hs).2 r (hr ▸ ho) s hs1 he).1⟩)
      ops [] (proposer_new id) ⟨TablesWF_new id, by simp⟩ l1 (Output.prepare r) l2 h
    exact key r rfl s (by simpa using hs) hiid
  · intro p op p1 outs r hrun hstep hr hnt s hs hiid
    have hI := (run_prepare_trace cfg id ops p hrun).1
    exact ((prepare_ballot_step cfg _ p op p1 outs hI hstep).2 r hr s hs hiid).2 hnt
  · intro p iter req now p1 outs r hrun hstep hr
    obtain ⟨⟨-, hseen⟩, hem⟩ := run_prepare_trace cfg id ops p hrun
    simp only [step, Option.some.injEq, Prod.mk.injEq] at hstep
    obtain ⟨hp1, houts⟩ := hstep
    rcases timeout_iterator_next_cases cfg iter p req now with hc | hc | hc
    · obtain ⟨hc0, -⟩ := hc
      rw [hc0] at houts
      rw [← houts] at hr
      simp at hr
    · obtain ⟨i, inst, hget, hc1, hc⟩ := hc
      rw [hc1, hc] at houts
      rw [hc] at hp1
      rw [← houts] at hr
      simp only [if_true, List.mem_singleton, Output.prepare.injEq] at hr
      subst hr
      have hmem := List.getElem?_mem hget
      refine Or.inl ⟨i, inst, hget, rfl, hp1.symm, hem inst (List.mem_append_left _ hmem), ?_⟩
      intro s hs hiid
      exact (hseen s hs).2 inst (List.mem_append_left _ hmem) hiid.symm
    · obtain ⟨i, inst, hget, hc1, hc⟩ := hc
      rw [hc1, hc] at houts
      rw [hc] at hp1
      rw [← houts] at hr
      simp only [if_true, List.mem_singleton, Output.prepare.injEq] at hr
      subst hr
      have hmem := List.getElem?_mem hget
      refine Or.inr ⟨inst, hmem, rfl, by rw [← hp1], ?_⟩
      intro s hs hiid
      have h1 := (hseen s hs).2 inst (List.mem_append_right _ hmem) hiid.symm
      have h2 := proposer_next_ballot_gt p inst.ballot
      exact lt_of_le_of_lt h1 h2

/-- Witness of C17 (amended).  Scenario S2: after the PrepareRequest `{1, 11}`, the
preemption by a PROMISE with ballot 21 hands back a PrepareRequest with ballot 21.
Scenario S6: after the PrepareRequest `{1, 11}`, `timeout_iterator_next` hands back
`{1, 11}`, the request of the prepare-table instance 1 at its unchanged ballot. -/
theorem prepare_ballots_nondecreasing_witness :
    (⟨1, 11⟩ : prepare_req).ballot < (⟨1, 21⟩ : prepare_req).ballot ∧
    ((∃ i inst,
        [(⟨1, 11, 0, none, false, ⟨2, ∅⟩, ⟨0, 0⟩⟩ : Instance)][i]? = some inst ∧
        (⟨1, 11⟩ : prepare_req) = ⟨inst.iid, inst.ballot⟩ ∧
        (⟨1, [], 1, [⟨1, 11, 0, none, false, ⟨2, ∅⟩, ⟨10, 1⟩⟩], []⟩ : proposer) =
          ⟨1, [], 1,
            [(⟨1, 11, 0, none, false, ⟨2, ∅⟩, ⟨0, 0⟩⟩ : Instance)].set i
              { inst with created_at := ⟨10, 1⟩ }, []⟩ ∧
        Output.prepare ⟨1, 11⟩ ∈ [Output.prepare ⟨1, 11⟩] ∧
        (∀ s, Output.prepare s ∈ [Output.prepare ⟨1, 11⟩] → s.iid = 1 → s.ballot ≤ 11)) ∨
      (∃ inst ∈ ([] : List Instance),
        (⟨1, 11⟩ : prepare_req) = ⟨inst.iid, proposer_next_ballot
          ⟨1, [], 1, [⟨1, 11, 0, none, false, ⟨2, ∅⟩, ⟨0, 0⟩⟩], []⟩ inst.ballot⟩ ∧
        [(⟨1, 11, 0, none, false, ⟨2, ∅⟩, ⟨10, 1⟩⟩ : Instance)] =
          { inst with ballot := proposer_next_ballot
                        ⟨1, [], 1, [⟨1, 11, 0, none, false, ⟨2, ∅⟩, ⟨0, 0⟩⟩], []⟩ inst.ballot,
                      quorum := ⟨QUORUM, ∅⟩,
                      created_at := ⟨10, 1⟩ } ::
            [(⟨1, 11, 0, none, false, ⟨2, ∅⟩, ⟨0, 0⟩⟩ : Instance)] ∧
        (∀ s, Output.prepare s ∈ [Output.prepare ⟨1, 11⟩] → s.iid = 1 → s.ballot < 11))) :=
  ⟨(prepare_ballots_nondecreasing ⟨1000000⟩ 1 [Op.prepare ⟨0, 0⟩]).2.1
      ⟨1, [], 1, [⟨1, 11, 0, none, false, ⟨2, ∅⟩, ⟨0, 0⟩⟩], []⟩
      (Op.receive_prepare_ack ⟨1, 1, 21, 0, []⟩ ⟨0, 0⟩ ⟨0, 0⟩)
      ⟨1, [], 1, [⟨1, 21, 0, none, false, ⟨2, ∅⟩, ⟨0, 0⟩⟩], []⟩
      [Output.prepare ⟨1, 21⟩] ⟨1, 21⟩ rfl rfl (List.mem_singleton.mpr rfl) rfl
      ⟨1, 11⟩ (by decide) rfl,
    (prepare_ballots_nondecreasing ⟨1000000⟩ 1 [Op.prepare ⟨0, 0⟩]).2.2
      ⟨1, [], 1, [⟨1, 11, 0, none, false, ⟨2, ∅⟩, ⟨0, 0⟩⟩], []⟩
      (proposer_timeout_iterator ⟨10, 0⟩) ⟨0, 0⟩ ⟨10, 1⟩
      ⟨1, [], 1, [⟨1, 11, 0, none, false, ⟨2, ∅⟩, ⟨10, 1⟩⟩], []⟩
      [Output.prepare ⟨1, 11⟩] ⟨1, 11⟩ rfl rfl (List.mem_singleton.mpr rfl)⟩

end LibPaxos
